import Mathlib

/-!
Verification development for the `cspx` CSPM checker (crate `cspx-core`).

The Rust sources are shallowly embedded: pure functions become Lean
functions; loops whose termination depends on the input (BFS work lists,
recursive state unfolding) take an explicit fuel argument and return
`Option`/`Except`, where `none` models a run of the Rust code that does
not return.  Machine integers (`u32`, `u64`) are modelled as `Nat`; the
places where Rust narrows a `usize` to `u32` keep the `% 2 ^ 32`
truncation explicit.  Rust `String` is modelled by Lean `String`; the
byte-level view used by the state codec maps each character to its code
point, which coincides with the UTF-8 byte encoding on the ASCII
identifiers produced by the frontend's lexer.  `BTreeSet<String>` and
`BTreeMap<String, u64>` are modelled as lists kept sorted by the
byte-lexicographic order, which is how the B-trees iterate.
-/

namespace Cspx

/-! ## Byte-level utilities (big-endian integer encoding, `lts_cspm.rs` / `state_codec.rs`) -/

/-- Big-endian byte string of `n` truncated to `w` bytes; models Rust
`(x as uN).to_be_bytes()`. -/
def toBytesBE (w : Nat) (n : Nat) : List Nat :=
  match w with
  | 0 => []
  | w + 1 => toBytesBE w (n / 256) ++ [n % 256]

/-- Big-endian value of a byte string; models Rust `uN::from_be_bytes`. -/
def fromBytesBE (bs : List Nat) : Nat :=
  bs.foldl (fun acc b => acc * 256 + b) 0

theorem length_toBytesBE (w n : Nat) : (toBytesBE w n).length = w := by
  induction w generalizing n with
  | zero => rfl
  | succ w ih => simp [toBytesBE, ih]

theorem foldl_be (l : List Nat) (a : Nat) :
    l.foldl (fun acc b => acc * 256 + b) a = a * 256 ^ l.length + fromBytesBE l := by
  induction l generalizing a with
  | nil => simp [fromBytesBE]
  | cons x xs ih =>
    simp only [List.foldl_cons, fromBytesBE]
    rw [ih, ih (0 * 256 + x)]
    simp only [List.length_cons, pow_succ, Nat.zero_mul, Nat.zero_add]
    ring

theorem fromBytesBE_append (l1 l2 : List Nat) :
    fromBytesBE (l1 ++ l2) = fromBytesBE l1 * 256 ^ l2.length + fromBytesBE l2 := by
  simp only [fromBytesBE, List.foldl_append]
  exact foldl_be l2 _

theorem fromBytesBE_toBytesBE (w n : Nat) :
    fromBytesBE (toBytesBE w n) = n % 256 ^ w := by
  induction w generalizing n with
  | zero => simp [toBytesBE, fromBytesBE, Nat.mod_one]
  | succ w ih =>
    rw [toBytesBE, fromBytesBE_append, ih]
    have h1 : fromBytesBE [n % 256] = n % 256 := by simp [fromBytesBE]
    have h2 : n % 256 ^ (w + 1) = n % 256 + 256 * (n / 256 % 256 ^ w) := by
      rw [pow_succ, mul_comm (256 ^ w) 256, Nat.mod_mul]
    simp only [List.length_cons, List.length_nil, pow_one, h1, h2]
    ring

theorem toBytesBE_lt (w n : Nat) : ∀ b ∈ toBytesBE w n, b < 256 := by
  induction w generalizing n with
  | zero => simp [toBytesBE]
  | succ w ih =>
    intro b hb
    simp only [toBytesBE, List.mem_append, List.mem_singleton] at hb
    rcases hb with hb | hb
    · exact ih _ b hb
    · subst hb; exact Nat.mod_lt _ (by norm_num)

theorem toBytesBE_inj (w : Nat) {m n : Nat} (hm : m < 256 ^ w) (hn : n < 256 ^ w)
    (h : toBytesBE w m = toBytesBE w n) : m = n := by
  have := congrArg fromBytesBE h
  rwa [fromBytesBE_toBytesBE, fromBytesBE_toBytesBE, Nat.mod_eq_of_lt hm,
    Nat.mod_eq_of_lt hn] at this

/-! ## Strings as byte sequences

Rust compares and serializes `String`s through their UTF-8 bytes.  All
identifiers this program manipulates are ASCII (the lexer accepts
`[A-Za-z0-9_]` plus the fixed labels such as `"tau"`), where the UTF-8
byte of a character is its code point. -/

/-- Byte view of a string (ASCII assumption: code point = UTF-8 byte). -/
def strBytes (s : String) : List Nat :=
  s.data.map Char.toNat

/-- Byte-lexicographic strict order on strings, the order of Rust
`BTreeSet<String>` / `BTreeMap<String, _>` and `Ord for String`. -/
def strLt (a b : String) : Prop :=
  strBytes a < strBytes b

instance : DecidableRel strLt := fun a b => by
  unfold strLt; infer_instance

/-- Byte-lexicographic non-strict order on strings. -/
def strLe (a b : String) : Prop :=
  strBytes a ≤ strBytes b

instance : DecidableRel strLe := fun a b => by
  unfold strLe; infer_instance

theorem strLt_irrefl (a : String) : ¬strLt a a := lt_irrefl _

theorem strLt_asymm {a b : String} (h : strLt a b) : ¬strLt b a := lt_asymm h

theorem strLt_trans {a b c : String} (h1 : strLt a b) (h2 : strLt b c) : strLt a c :=
  lt_trans h1 h2

theorem strLt_ne {a b : String} (h : strLt a b) : a ≠ b := by
  rintro rfl; exact strLt_irrefl a h

/-! ## Sorted string sets (model of `BTreeSet<String>`) -/

/-- Ordered insertion keeping the list sorted and duplicate-free; models
`BTreeSet<String>::insert`. -/
def setInsert (x : String) : List String → List String
  | [] => [x]
  | y :: ys =>
    if strLt x y then x :: y :: ys
    else if x = y then y :: ys
    else y :: setInsert x ys

/-- Build a set from an arbitrary list of names; models collecting names
into a `BTreeSet<String>`. -/
def setOfList (l : List String) : List String :=
  l.foldl (fun acc x => setInsert x acc) []

/-- Union by repeated insertion; models `merged.extend(other)` on a
`BTreeSet<String>`. -/
def setExtend (base : List String) (other : List String) : List String :=
  other.foldl (fun acc x => setInsert x acc) base

theorem mem_setInsert (x y : String) (l : List String) :
    y ∈ setInsert x l ↔ y = x ∨ y ∈ l := by
  induction l with
  | nil => simp [setInsert]
  | cons z zs ih =>
    by_cases h1 : strLt x z
    · simp [setInsert, h1]
    · by_cases h2 : x = z
      · subst h2
        simp only [setInsert, if_neg h1, if_pos rfl]
        constructor
        · intro h; exact Or.inr h
        · rintro (rfl | h)
          · exact List.mem_cons_self _ _
          · exact h
      · simp only [setInsert, if_neg h1, if_neg h2, List.mem_cons, ih]
        tauto

theorem strBytes_inj {a b : String} (h : strBytes a = strBytes b) : a = b := by
  have hdata : a.data = b.data := by
    have : Function.Injective Char.toNat := fun c d hcd => by
      cases c; cases d
      simp only [Char.toNat] at hcd
      congr 1
      exact UInt32.ext hcd
    exact List.map_injective_iff.mpr this h
  cases a; cases b; simp only at hdata; rw [hdata]

theorem strLt_trichotomy (a b : String) : strLt a b ∨ a = b ∨ strLt b a := by
  rcases lt_trichotomy (strBytes a) (strBytes b) with h | h | h
  · exact Or.inl h
  · exact Or.inr (Or.inl (strBytes_inj h))
  · exact Or.inr (Or.inr h)

/-- Sortedness of a string set: strictly ascending in byte order. -/
def StrsSorted (l : List String) : Prop :=
  l.Pairwise strLt

instance : DecidablePred StrsSorted := fun l => by
  unfold StrsSorted; infer_instance

theorem setInsert_sorted (x : String) (l : List String) (h : StrsSorted l) :
    StrsSorted (setInsert x l) := by
  induction l with
  | nil => simp [setInsert, StrsSorted]
  | cons z zs ih =>
    rw [StrsSorted, List.pairwise_cons] at h
    by_cases h1 : strLt x z
    · rw [setInsert, if_pos h1, StrsSorted, List.pairwise_cons]
      refine ⟨?_, List.pairwise_cons.mpr h⟩
      intro y hy
      rcases List.mem_cons.mp hy with rfl | hy
      · exact h1
      · exact strLt_trans h1 (h.1 y hy)
    · by_cases h2 : x = z
      · rw [setInsert, if_neg h1, if_pos h2, StrsSorted, List.pairwise_cons]
        exact h
      · rw [setInsert, if_neg h1, if_neg h2, StrsSorted, List.pairwise_cons]
        constructor
        · intro y hy
          rcases (mem_setInsert x y zs).mp hy with rfl | hy
          · rcases strLt_trichotomy y z with h3 | h3 | h3
            · exact absurd h3 h1
            · exact absurd h3 h2
            · exact h3
          · exact h.1 y hy
        · exact ih h.2

theorem setInsert_nonempty (x : String) (l : List String) : setInsert x l ≠ [] := by
  cases l with
  | nil => simp [setInsert]
  | cons z zs =>
    rw [setInsert]
    by_cases h1 : strLt x z
    · simp [h1]
    · rw [if_neg h1]
      by_cases h2 : x = z
      · rw [if_pos h2]; simp
      · rw [if_neg h2]; simp

/-! ## Sorted environments (model of `BTreeMap<String, u64>`) -/

/-- Ordered insert-or-replace; models `BTreeMap<String, u64>::insert`. -/
def envInsert (k : String) (v : Nat) : List (String × Nat) → List (String × Nat)
  | [] => [(k, v)]
  | (k1, v1) :: rest =>
    if strLt k k1 then (k, v) :: (k1, v1) :: rest
    else if k = k1 then (k, v) :: rest
    else (k1, v1) :: envInsert k v rest

/-- Lookup; models `BTreeMap::get`. -/
def envLookup (k : String) : List (String × Nat) → Option Nat
  | [] => none
  | (k1, v1) :: rest => if k = k1 then some v1 else envLookup k rest

/-- Sortedness of an environment: keys strictly ascending in byte order. -/
def EnvSorted (l : List (String × Nat)) : Prop :=
  l.Pairwise (fun a b => strLt a.1 b.1)

instance : DecidablePred EnvSorted := fun l => by
  unfold EnvSorted; infer_instance

theorem mem_envInsert (k : String) (v : Nat) (y : String × Nat)
    (l : List (String × Nat)) :
    y ∈ envInsert k v l → y = (k, v) ∨ y ∈ l := by
  induction l with
  | nil => simp [envInsert]
  | cons p rest ih =>
    obtain ⟨k1, v1⟩ := p
    rw [envInsert]
    by_cases h1 : strLt k k1
    · rw [if_pos h1]; intro hy
      rcases List.mem_cons.mp hy with rfl | hy
      · exact Or.inl rfl
      · exact Or.inr hy
    · rw [if_neg h1]
      by_cases h2 : k = k1
      · rw [if_pos h2]; intro hy
        rcases List.mem_cons.mp hy with rfl | hy
        · exact Or.inl rfl
        · exact Or.inr (List.mem_cons_of_mem _ hy)
      · rw [if_neg h2]; intro hy
        rcases List.mem_cons.mp hy with rfl | hy
        · exact Or.inr (List.mem_cons_self _ _)
        · rcases ih hy with h3 | h3
          · exact Or.inl h3
          · exact Or.inr (List.mem_cons_of_mem _ h3)

theorem envInsert_sorted (k : String) (v : Nat) (l : List (String × Nat))
    (h : EnvSorted l) : EnvSorted (envInsert k v l) := by
  induction l with
  | nil => simp [envInsert, EnvSorted]
  | cons p rest ih =>
    obtain ⟨k1, v1⟩ := p
    rw [EnvSorted, List.pairwise_cons] at h
    by_cases h1 : strLt k k1
    · rw [envInsert, if_pos h1, EnvSorted, List.pairwise_cons]
      refine ⟨?_, List.pairwise_cons.mpr h⟩
      intro y hy
      rcases List.mem_cons.mp hy with rfl | hy
      · exact h1
      · exact strLt_trans h1 (h.1 y hy)
    · by_cases h2 : k = k1
      · rw [envInsert, if_neg h1, if_pos h2, EnvSorted, List.pairwise_cons]
        subst h2
        exact h
      · rw [envInsert, if_neg h1, if_neg h2, EnvSorted, List.pairwise_cons]
        constructor
        · intro y hy
          rcases mem_envInsert k v y rest hy with rfl | hy
          · rcases strLt_trichotomy k k1 with h3 | h3 | h3
            · exact absurd h3 h1
            · exact absurd h3 h2
            · exact h3
          · exact h.1 y hy
        · exact ih h.2

/-! ## Runtime state (`CspmState`, `lts_cspm.rs`) -/

/-- Runtime state of the LTS interpreter; mirrors `enum CspmState`.
`sync`/`hide` model `BTreeSet<String>` as sorted lists, `env` models
`BTreeMap<String, u64>` as a sorted association list. -/
inductive CspmState where
  | SExpr (expr : Nat) (env : List (String × Nat))
  | SParallel (sync : List String) (left : CspmState) (right : CspmState)
  | SHide (hide : List String) (inner : CspmState)
deriving DecidableEq, Repr

/-! ## State codec (`CspmStateCodec`, `lts_cspm.rs` lines 84-208) -/

/-- Length-prefixed byte serialization of a string, as emitted for keys
and channel names: `(len as u32).to_be_bytes()` then the UTF-8 bytes. -/
def encStr (s : String) : List Nat :=
  toBytesBE 4 s.length ++ strBytes s

/-- Canonical byte encoding; mirrors `CspmStateCodec::encode`. -/
def encode : CspmState → List Nat
  | .SExpr expr env =>
    1 :: (toBytesBE 4 expr ++ toBytesBE 4 env.length ++
      (env.map fun p => encStr p.1 ++ toBytesBE 8 p.2).flatten)
  | .SParallel sync left right =>
    2 :: (toBytesBE 4 sync.length ++ (sync.map encStr).flatten ++
      encode left ++ encode right)
  | .SHide hide inner =>
    3 :: (toBytesBE 4 hide.length ++ (hide.map encStr).flatten ++ encode inner)

/-! ## Well-formedness

`stateWF` is the image in this model of the invariants Rust enforces at
the type level: `expr : u32` and env values `u64` are bounded, B-tree
sets/maps iterate strictly sorted, strings are ASCII identifiers, and
all lengths fit in `u32` (the codec's length prefixes are `u32` casts,
so the framing assumes this). -/

/-- A well-formed identifier: ASCII and short enough for the codec's
`u32` length prefix. -/
def nameWF (s : String) : Bool :=
  decide (s.length < 2 ^ 32) && s.data.all fun c => decide (c.toNat < 128)

/-- Well-formed string set: bounded, well-formed names, strictly sorted. -/
def strsWF (l : List String) : Bool :=
  decide (l.length < 2 ^ 32) && l.all nameWF && decide (StrsSorted l)

/-- Well-formed environment: bounded, well-formed keys, `u64` values,
strictly sorted by key. -/
def envWF (l : List (String × Nat)) : Bool :=
  decide (l.length < 2 ^ 32) &&
    (l.all fun p => nameWF p.1 && decide (p.2 < 2 ^ 64)) &&
    decide (EnvSorted l)

/-- Well-formed runtime state. -/
def stateWF : CspmState → Bool
  | .SExpr expr env => decide (expr < 2 ^ 32) && envWF env
  | .SParallel sync left right => strsWF sync && stateWF left && stateWF right
  | .SHide hide inner => strsWF hide && stateWF inner

/-! ## Decoder (`CspmStateCodec::decode`) -/

/-- Models the `take` helper: split off `n` bytes or fail with EOF. -/
def takeB (n : Nat) (bs : List Nat) : Option (List Nat × List Nat) :=
  if n ≤ bs.length then some (bs.take n, bs.drop n) else none

/-- Models `take_u32`. -/
def takeU32 (bs : List Nat) : Option (Nat × List Nat) :=
  match takeB 4 bs with
  | some (h, t) => some (fromBytesBE h, t)
  | none => none

/-- Models `take_u64`. -/
def takeU64 (bs : List Nat) : Option (Nat × List Nat) :=
  match takeB 8 bs with
  | some (h, t) => some (fromBytesBE h, t)
  | none => none

/-- Models `take_string`: length prefix, then that many bytes, validated
and converted back to a string.  UTF-8 validation is modelled at the
ASCII subset the program's identifiers live in. -/
def takeStringB (bs : List Nat) : Option (String × List Nat) :=
  match takeU32 bs with
  | none => none
  | some (len, bs1) =>
    match takeB len bs1 with
    | none => none
    | some (sb, bs2) =>
      if sb.all fun b => decide (b < 128) then
        some (String.mk (sb.map Char.ofNat), bs2)
      else
        none

/-- Decode loop for the `count` environment entries of an `Expr` state;
entries are put back with `BTreeMap::insert`. -/
def decodeEnvLoop : Nat → List Nat → List (String × Nat) →
    Option (List (String × Nat) × List Nat)
  | 0, bs, env => some (env, bs)
  | n + 1, bs, env =>
    match takeStringB bs with
    | none => none
    | some (key, bs1) =>
      match takeU64 bs1 with
      | none => none
      | some (value, bs2) => decodeEnvLoop n bs2 (envInsert key value env)

/-- Decode loop for the `count` names of a `sync`/`hide` set; names are
put back with `BTreeSet::insert`. -/
def decodeStrsLoop : Nat → List Nat → List String →
    Option (List String × List Nat)
  | 0, bs, acc => some (acc, bs)
  | n + 1, bs, acc =>
    match takeStringB bs with
    | none => none
    | some (name, bs1) => decodeStrsLoop n bs1 (setInsert name acc)

/-- Recursive state decoder; mirrors `decode_state`.  The fuel bounds the
recursion depth (each step consumes at least the tag byte, so a fuel of
the input length always suffices). -/
def decodeStateAux : Nat → List Nat → Option (CspmState × List Nat)
  | 0, _ => none
  | fuel + 1, bs =>
    match takeB 1 bs with
    | none => none
    | some (tag, bs0) =>
      match tag with
      | [1] =>
        match takeU32 bs0 with
        | none => none
        | some (expr, bs1) =>
          match takeU32 bs1 with
          | none => none
          | some (count, bs2) =>
            match decodeEnvLoop count bs2 [] with
            | none => none
            | some (env, bs3) => some (CspmState.SExpr expr env, bs3)
      | [2] =>
        match takeU32 bs0 with
        | none => none
        | some (count, bs1) =>
          match decodeStrsLoop count bs1 [] with
          | none => none
          | some (sync, bs2) =>
            match decodeStateAux fuel bs2 with
            | none => none
            | some (left, bs3) =>
              match decodeStateAux fuel bs3 with
              | none => none
              | some (right, bs4) => some (CspmState.SParallel sync left right, bs4)
      | [3] =>
        match takeU32 bs0 with
        | none => none
        | some (count, bs1) =>
          match decodeStrsLoop count bs1 [] with
          | none => none
          | some (hide, bs2) =>
            match decodeStateAux fuel bs2 with
            | none => none
            | some (inner, bs3) => some (CspmState.SHide hide inner, bs3)
      | _ => none

/-- Top-level decode; mirrors `CspmStateCodec::decode` including the
trailing-bytes check. -/
def decode (bs : List Nat) : Option CspmState :=
  match decodeStateAux bs.length bs with
  | none => none
  | some (s, rest) => if rest = [] then some s else none

/-! ## Codec round-trip -/

theorem takeB_append (a r : List Nat) : takeB a.length (a ++ r) = some (a, r) := by
  rw [takeB, if_pos (by simp), List.take_left, List.drop_left]

theorem takeU32_toBytes (n : Nat) (r : List Nat) :
    takeU32 (toBytesBE 4 n ++ r) = some (n % 2 ^ 32, r) := by
  have h := takeB_append (toBytesBE 4 n) r
  rw [length_toBytesBE] at h
  rw [takeU32, h]
  dsimp only
  rw [fromBytesBE_toBytesBE]
  norm_num

theorem takeU64_toBytes (n : Nat) (r : List Nat) :
    takeU64 (toBytesBE 8 n ++ r) = some (n % 2 ^ 64, r) := by
  have h := takeB_append (toBytesBE 8 n) r
  rw [length_toBytesBE] at h
  rw [takeU64, h]
  dsimp only
  rw [fromBytesBE_toBytesBE]
  norm_num

theorem length_strBytes (s : String) : (strBytes s).length = s.length := by
  rw [strBytes, List.length_map]
  rfl

theorem nameWF_elim {s : String} (h : nameWF s = true) :
    s.length < 2 ^ 32 ∧ ∀ c ∈ s.data, c.toNat < 128 := by
  rw [nameWF, Bool.and_eq_true, decide_eq_true_eq, List.all_eq_true] at h
  refine ⟨h.1, fun c hc => ?_⟩
  have := h.2 c hc
  rwa [decide_eq_true_eq] at this

theorem takeStringB_encStr (s : String) (r : List Nat) (h : nameWF s = true) :
    takeStringB (encStr s ++ r) = some (s, r) := by
  obtain ⟨h1, h2⟩ := nameWF_elim h
  rw [encStr, List.append_assoc, takeStringB, takeU32_toBytes]
  dsimp only
  rw [Nat.mod_eq_of_lt h1]
  have hlen : s.length = (strBytes s).length := (length_strBytes s).symm
  rw [hlen, takeB_append]
  dsimp only
  have hall : ((strBytes s).all fun b => decide (b < 128)) = true := by
    rw [List.all_eq_true]
    intro b hb
    simp only [strBytes, List.mem_map] at hb
    obtain ⟨c, hc, rfl⟩ := hb
    simpa using h2 c hc
  rw [if_pos hall]
  have hmap : (strBytes s).map Char.ofNat = s.data := by
    simp only [strBytes, List.map_map]
    have hco : (Char.ofNat ∘ Char.toNat) = id := by
      funext c; simp [Char.ofNat_toNat]
    rw [hco, List.map_id]
  rw [hmap]

theorem envInsert_append (k : String) (v : Nat) (acc : List (String × Nat))
    (h : ∀ p ∈ acc, strLt p.1 k) : envInsert k v acc = acc ++ [(k, v)] := by
  induction acc with
  | nil => rfl
  | cons p rest ih =>
    obtain ⟨k1, v1⟩ := p
    have hk1 : strLt k1 k := h (k1, v1) (List.mem_cons_self _ _)
    rw [envInsert, if_neg (strLt_asymm hk1), if_neg (Ne.symm (strLt_ne hk1))]
    rw [ih fun p hp => h p (List.mem_cons_of_mem _ hp)]
    rfl

theorem setInsert_append (x : String) (acc : List String)
    (h : ∀ y ∈ acc, strLt y x) : setInsert x acc = acc ++ [x] := by
  induction acc with
  | nil => rfl
  | cons y rest ih =>
    have hy : strLt y x := h y (List.mem_cons_self _ _)
    rw [setInsert, if_neg (strLt_asymm hy), if_neg (Ne.symm (strLt_ne hy))]
    rw [ih fun z hz => h z (List.mem_cons_of_mem _ hz)]
    rfl

theorem takeB_cons (x : Nat) (bs : List Nat) : takeB 1 (x :: bs) = some ([x], bs) := by
  rw [takeB, if_pos (by simp)]
  rfl

theorem decodeEnvLoop_roundtrip (env : List (String × Nat)) :
    ∀ acc r, EnvSorted env → (∀ p ∈ env, nameWF p.1 = true ∧ p.2 < 2 ^ 64) →
    (∀ p ∈ acc, ∀ q ∈ env, strLt p.1 q.1) →
    decodeEnvLoop env.length
      ((env.map fun p => encStr p.1 ++ toBytesBE 8 p.2).flatten ++ r) acc =
      some (acc ++ env, r) := by
  induction env with
  | nil => intro acc r _ _ _; simp [decodeEnvLoop]
  | cons p rest ih =>
    intro acc r hsort hwf hacc
    obtain ⟨k, v⟩ := p
    have hkwf : nameWF k = true := (hwf (k, v) (List.mem_cons_self _ _)).1
    have hvlt : v < 2 ^ 64 := (hwf (k, v) (List.mem_cons_self _ _)).2
    rw [List.length_cons, List.map_cons, List.flatten_cons, decodeEnvLoop]
    rw [List.append_assoc, List.append_assoc, takeStringB_encStr k _ hkwf]
    dsimp only
    rw [takeU64_toBytes, Nat.mod_eq_of_lt hvlt]
    dsimp only
    have hinsert : envInsert k v acc = acc ++ [(k, v)] :=
      envInsert_append k v acc fun p hp => hacc p hp (k, v) (List.mem_cons_self _ _)
    rw [hinsert]
    rw [EnvSorted, List.pairwise_cons] at hsort
    have := ih (acc ++ [(k, v)]) r hsort.2
      (fun q hq => hwf q (List.mem_cons_of_mem _ hq))
      (by
        intro p hp q hq
        rcases List.mem_append.mp hp with hp | hp
        · exact hacc p hp q (List.mem_cons_of_mem _ hq)
        · simp only [List.mem_singleton] at hp
          subst hp
          exact hsort.1 q hq)
    rw [this, List.append_assoc]
    rfl

theorem decodeStrsLoop_roundtrip (l : List String) :
    ∀ acc r, StrsSorted l → (∀ x ∈ l, nameWF x = true) →
    (∀ y ∈ acc, ∀ x ∈ l, strLt y x) →
    decodeStrsLoop l.length ((l.map encStr).flatten ++ r) acc =
      some (acc ++ l, r) := by
  induction l with
  | nil => intro acc r _ _ _; simp [decodeStrsLoop]
  | cons x rest ih =>
    intro acc r hsort hwf hacc
    rw [List.length_cons, List.map_cons, List.flatten_cons, decodeStrsLoop]
    rw [List.append_assoc, takeStringB_encStr x _ (hwf x (List.mem_cons_self _ _))]
    dsimp only
    have hinsert : setInsert x acc = acc ++ [x] :=
      setInsert_append x acc fun y hy => hacc y hy x (List.mem_cons_self _ _)
    rw [hinsert]
    rw [StrsSorted, List.pairwise_cons] at hsort
    have := ih (acc ++ [x]) r hsort.2
      (fun y hy => hwf y (List.mem_cons_of_mem _ hy))
      (by
        intro y hy z hz
        rcases List.mem_append.mp hy with hy | hy
        · exact hacc y hy z (List.mem_cons_of_mem _ hz)
        · simp only [List.mem_singleton] at hy
          subst hy
          exact hsort.1 z hz)
    rw [this, List.append_assoc]
    rfl

/-- Structural depth of a state, bounding the decoder recursion. -/
def sdepth : CspmState → Nat
  | .SExpr _ _ => 1
  | .SParallel _ left right => 1 + max (sdepth left) (sdepth right)
  | .SHide _ inner => 1 + sdepth inner

theorem envWF_elim {env : List (String × Nat)} (h : envWF env = true) :
    env.length < 2 ^ 32 ∧ (∀ p ∈ env, nameWF p.1 = true ∧ p.2 < 2 ^ 64) ∧
      EnvSorted env := by
  rw [envWF, Bool.and_eq_true, Bool.and_eq_true, decide_eq_true_eq,
    decide_eq_true_eq, List.all_eq_true] at h
  refine ⟨h.1.1, fun p hp => ?_, h.2⟩
  have := h.1.2 p hp
  rw [Bool.and_eq_true, decide_eq_true_eq] at this
  exact this

theorem strsWF_elim {l : List String} (h : strsWF l = true) :
    l.length < 2 ^ 32 ∧ (∀ x ∈ l, nameWF x = true) ∧ StrsSorted l := by
  rw [strsWF, Bool.and_eq_true, Bool.and_eq_true, decide_eq_true_eq,
    decide_eq_true_eq, List.all_eq_true] at h
  exact ⟨h.1.1, h.1.2, h.2⟩

theorem decodeStateAux_roundtrip (s : CspmState) :
    ∀ fuel r, stateWF s = true → sdepth s ≤ fuel →
    decodeStateAux fuel (encode s ++ r) = some (s, r) := by
  induction s with
  | SExpr expr env =>
    intro fuel r hwf hfuel
    rw [stateWF, Bool.and_eq_true, decide_eq_true_eq] at hwf
    obtain ⟨hlen, hentries, hsort⟩ := envWF_elim hwf.2
    cases fuel with
    | zero => exact absurd hfuel (by simp [sdepth])
    | succ f =>
      rw [encode, decodeStateAux, List.cons_append, takeB_cons]
      dsimp only
      rw [List.append_assoc, List.append_assoc, takeU32_toBytes,
        Nat.mod_eq_of_lt hwf.1]
      dsimp only
      rw [takeU32_toBytes, Nat.mod_eq_of_lt hlen]
      dsimp only
      rw [decodeEnvLoop_roundtrip env [] r hsort hentries (by simp)]
      rfl
  | SParallel sync left right ihl ihr =>
    intro fuel r hwf hfuel
    rw [stateWF, Bool.and_eq_true, Bool.and_eq_true] at hwf
    obtain ⟨⟨hsync, hl⟩, hr⟩ := hwf
    obtain ⟨hslen, hsnames, hssort⟩ := strsWF_elim hsync
    cases fuel with
    | zero => exact absurd hfuel (by simp [sdepth])
    | succ f =>
      have hfl : sdepth left ≤ f := by
        have := hfuel; rw [sdepth] at this; omega
      have hfr : sdepth right ≤ f := by
        have := hfuel; rw [sdepth] at this; omega
      rw [encode, decodeStateAux, List.cons_append, takeB_cons]
      dsimp only
      rw [List.append_assoc, List.append_assoc, List.append_assoc,
        takeU32_toBytes, Nat.mod_eq_of_lt hslen]
      dsimp only
      rw [decodeStrsLoop_roundtrip sync [] _ hssort hsnames (by simp)]
      dsimp only
      rw [List.nil_append, ihl f _ hl hfl]
      dsimp only
      rw [ihr f r hr hfr]
  | SHide hide inner ih =>
    intro fuel r hwf hfuel
    rw [stateWF, Bool.and_eq_true] at hwf
    obtain ⟨hhide, hi⟩ := hwf
    obtain ⟨hhlen, hhnames, hhsort⟩ := strsWF_elim hhide
    cases fuel with
    | zero => exact absurd hfuel (by simp [sdepth])
    | succ f =>
      have hfi : sdepth inner ≤ f := by
        have := hfuel; rw [sdepth] at this; omega
      rw [encode, decodeStateAux, List.cons_append, takeB_cons]
      dsimp only
      rw [List.append_assoc, List.append_assoc, takeU32_toBytes,
        Nat.mod_eq_of_lt hhlen]
      dsimp only
      rw [decodeStrsLoop_roundtrip hide [] _ hhsort hhnames (by simp)]
      dsimp only
      rw [List.nil_append, ih f r hi hfi]

theorem sdepth_le_encode_length (s : CspmState) : sdepth s ≤ (encode s).length := by
  induction s with
  | SExpr expr env => simp [sdepth, encode]
  | SParallel sync left right ihl ihr =>
    rw [sdepth, encode]
    simp only [List.length_cons, List.length_append]
    omega
  | SHide hide inner ih =>
    rw [sdepth, encode]
    simp only [List.length_cons, List.length_append]
    omega

/-- Codec round-trip on well-formed states. -/
theorem decode_encode {s : CspmState} (h : stateWF s = true) :
    decode (encode s) = some s := by
  rw [decode]
  have := decodeStateAux_roundtrip s (encode s).length [] h
    (sdepth_le_encode_length s)
  rw [List.append_nil] at this
  rw [this]
  rfl

/-- Injectivity of `encode` on well-formed states, a consequence of the
round-trip. -/
theorem encode_inj {s t : CspmState} (hs : stateWF s = true)
    (ht : stateWF t = true) (h : encode s = encode t) : s = t := by
  have h1 := decode_encode hs
  have h2 := decode_encode ht
  rw [h] at h1
  rw [h1] at h2
  exact Option.some.inj h2

/-! ## Stable sorting

Rust's stable `sort_by` under a total boolean preorder; the structural
insertion sort below produces the same output as any stable sort for
such a comparator and, unlike `List.mergeSort`, reduces in the kernel,
so concrete runs evaluate. -/

/-- Stable insertion into a `le`-sorted list: the new element goes
after every element strictly below it, so elements that compare equal
keep their original relative order. -/
def insertLe {α : Type} (le : α → α → Bool) (x : α) : List α → List α
  | [] => [x]
  | y :: ys => if le y x && !le x y then y :: insertLe le x ys else x :: y :: ys

/-- Structural stable sort by a boolean total preorder (Rust
`sort_by` / `sort`). -/
def sortByBool {α : Type} (le : α → α → Bool) : List α → List α
  | [] => []
  | x :: xs => insertLe le x (sortByBool le xs)

theorem insertLe_perm {α : Type} (le : α → α → Bool) (x : α) :
    ∀ l : List α, List.Perm (insertLe le x l) (x :: l)
  | [] => List.Perm.refl _
  | y :: ys => by
    rw [insertLe]
    by_cases h : (le y x && !le x y) = true
    · rw [if_pos h]
      exact ((insertLe_perm le x ys).cons y).trans (List.Perm.swap x y ys)
    · rw [if_neg h]

theorem sortByBool_perm {α : Type} (le : α → α → Bool) :
    ∀ l : List α, List.Perm (sortByBool le l) l
  | [] => List.Perm.refl _
  | x :: xs =>
    (insertLe_perm le x (sortByBool le xs)).trans ((sortByBool_perm le xs).cons x)

theorem mem_sortByBool {α : Type} (le : α → α → Bool) (l : List α) (y : α) :
    y ∈ sortByBool le l ↔ y ∈ l :=
  (sortByBool_perm le l).mem_iff

theorem insertLe_sorted {α : Type} {le : α → α → Bool}
    (htrans : ∀ a b c, le a b = true → le b c = true → le a c = true)
    (htotal : ∀ a b, (le a b || le b a) = true) (x : α) :
    ∀ l : List α, l.Pairwise (fun a b => le a b = true) →
      (insertLe le x l).Pairwise fun a b => le a b = true
  | [], _ => by rw [insertLe]; exact List.pairwise_singleton _ _
  | y :: ys, h => by
    rw [List.pairwise_cons] at h
    rw [insertLe]
    by_cases hc : (le y x && !le x y) = true
    · rw [if_pos hc]
      rw [Bool.and_eq_true, Bool.not_eq_true'] at hc
      rw [List.pairwise_cons]
      refine ⟨?_, insertLe_sorted htrans htotal x ys h.2⟩
      intro a ha
      have hmem := (insertLe_perm le x ys).mem_iff.mp ha
      rcases List.mem_cons.mp hmem with rfl | ha2
      · exact hc.1
      · exact h.1 a ha2
    · rw [if_neg hc]
      have hxy : le x y = true := by
        cases hxy0 : le x y with
        | true => rfl
        | false =>
          exfalso
          apply hc
          have hyx : le y x = true := by
            have htot := htotal x y
            rw [Bool.or_eq_true] at htot
            rcases htot with h1 | h1
            · rw [hxy0] at h1; cases h1
            · exact h1
          rw [hyx, hxy0]
          rfl
      rw [List.pairwise_cons]
      refine ⟨?_, List.pairwise_cons.mpr h⟩
      intro a ha
      rcases List.mem_cons.mp ha with rfl | ha2
      · exact hxy
      · exact htrans x y a hxy (h.1 a ha2)

theorem sortByBool_sorted {α : Type} {le : α → α → Bool}
    (htrans : ∀ a b c, le a b = true → le b c = true → le a c = true)
    (htotal : ∀ a b, (le a b || le b a) = true) :
    ∀ l : List α, (sortByBool le l).Pairwise fun a b => le a b = true
  | [] => List.Pairwise.nil
  | x :: xs =>
    insertLe_sorted htrans htotal x _ (sortByBool_sorted htrans htotal xs)

/-! ## Source IR (`ir.rs`, `types.rs`) -/

/-- Mirrors `SourceSpan` in `types.rs`. -/
structure SourceSpan where
  path : String
  start_line : Nat
  start_col : Nat
  end_line : Nat
  end_col : Nat
deriving DecidableEq, Repr

/-- Mirrors `Spanned<T>` in `ir.rs`. -/
structure Spanned (α : Type) where
  value : α
  span : SourceSpan
deriving DecidableEq, Repr

/-- Mirrors IR `ChannelDomain`. -/
inductive IrChannelDomain where
  | IntRange (min : Spanned Nat) (max : Spanned Nat)
  | NamedType (name : Spanned String)
deriving DecidableEq, Repr

/-- Mirrors `ChannelDecl`. -/
structure ChannelDecl where
  names : List (Spanned String)
  domain : Option (Spanned IrChannelDomain)
deriving DecidableEq, Repr

/-- Mirrors IR `EventValue`. -/
inductive EventValue where
  | Int (n : Nat)
  | Ident (s : String)
deriving DecidableEq, Repr

/-- Mirrors IR `EventInput`. -/
inductive EventInput where
  | Int (n : Nat)
  | Bind (s : String)
deriving DecidableEq, Repr

/-- Mirrors IR `EventSeg`. -/
inductive EventSeg where
  | Dot (v : Spanned EventValue)
  | Out (v : Spanned EventValue)
  | In (i : Spanned EventInput)
deriving DecidableEq, Repr

/-- Mirrors IR `Event`. -/
structure Event where
  channel : Spanned String
  seg : Option EventSeg
deriving DecidableEq, Repr

/-- Mirrors IR `EventSet`. -/
structure EventSet where
  channels : List (Spanned String)
deriving DecidableEq, Repr

/-- Mirrors IR `ChoiceKind`. -/
inductive ChoiceKind where
  | External
  | Internal
deriving DecidableEq, Repr

/-- Mirrors IR `ParallelKind`. -/
inductive ParallelKind where
  | Interleaving
  | Interface
deriving DecidableEq, Repr

/-- Mirrors `Spanned<ProcessExpr>`: the span of each node is carried as
the first field of its constructor (Rust wraps the variant in a
`Spanned` struct; inlining the span avoids a nested inductive). -/
inductive SpannedExpr where
  | Stop (span : SourceSpan)
  | Ref (span : SourceSpan) (name : Spanned String)
  | Prefix (span : SourceSpan) (event : Spanned Event) (next : SpannedExpr)
  | Choice (span : SourceSpan) (kind : ChoiceKind) (left : SpannedExpr)
      (right : SpannedExpr)
  | Parallel (span : SourceSpan) (kind : ParallelKind) (left : SpannedExpr)
      (right : SpannedExpr) (sync : Option EventSet)
  | Hide (span : SourceSpan) (inner : SpannedExpr) (hide : EventSet)
deriving DecidableEq, Repr

/-- The span of an expression node. -/
def SpannedExpr.espan : SpannedExpr → SourceSpan
  | .Stop span => span
  | .Ref span _ => span
  | .Prefix span _ _ => span
  | .Choice span _ _ _ => span
  | .Parallel span _ _ _ _ => span
  | .Hide span _ _ => span

/-- Mirrors `ProcessDecl`. -/
structure ProcessDecl where
  name : Spanned String
  expr : SpannedExpr
deriving DecidableEq, Repr

/-- Mirrors `PropertyKind`. -/
inductive PropertyKind where
  | DeadlockFree
  | DivergenceFree
  | Deterministic
deriving DecidableEq, Repr

/-- Mirrors `PropertyModel`. -/
inductive PropertyModel where
  | F
  | FD
deriving DecidableEq, Repr

/-- Mirrors `RefinementOp`. -/
inductive RefinementOp where
  | T
  | F
  | FD
deriving DecidableEq, Repr

/-- Mirrors `AssertionDecl`. -/
inductive AssertionDecl where
  | Property (target : Spanned String) (kind : PropertyKind) (model : PropertyModel)
  | Refinement (spec : Spanned String) (model : RefinementOp) (impl_ : Spanned String)
deriving DecidableEq, Repr

/-- Mirrors `Module`. -/
structure Module where
  channels : List ChannelDecl
  declarations : List ProcessDecl
  assertions : List AssertionDecl
  entry : Option SpannedExpr
deriving DecidableEq, Repr

/-! ## Compiled operator graph (`lts_cspm.rs`) -/

/-- Mirrors the compiled `ChannelDomain` of `lts_cspm.rs` (`u64` bounds). -/
inductive ChannelDomainC where
  | Unit
  | IntRange (min : Nat) (max : Nat)
deriving DecidableEq, Repr

/-- Mirrors `EventPat`. -/
inductive EventPat where
  | Unit (channel : String)
  | Int (channel : String) (value : Nat)
  | OutVar (channel : String) (var : String)
  | InConst (channel : String) (value : Nat)
  | InBind (channel : String) (var : String)
deriving DecidableEq, Repr

/-- Mirrors `ExprNode`; `ExprId`/`ProcId` are `Nat` (`u32` in Rust). -/
inductive ExprNode where
  | Stop
  | Ref (procId : Nat)
  | Prefix (event : EventPat) (next : Nat)
  | ChoiceExternal (left : Nat) (right : Nat)
  | ChoiceInternal (left : Nat) (right : Nat)
  | Parallel (left : Nat) (right : Nat) (sync : List String)
  | Hide (inner : Nat) (hide : List String)
deriving DecidableEq, Repr

/-- Mirrors `Program`: channel table (the `BTreeMap` is used only for
lookup, modelled as an association list), interned node arena, and the
`Ref`-chased `resolved` table. -/
structure Program where
  channels : List (String × ChannelDomainC)
  exprs : List ExprNode
  resolved : List Nat
deriving DecidableEq, Repr

/-- Channel lookup, models `BTreeMap::get`. -/
def chLookup (name : String) : List (String × ChannelDomainC) → Option ChannelDomainC
  | [] => none
  | (n, d) :: rest => if name = n then some d else chLookup name rest

/-- Arena access `program.exprs[id]`; `none` models the impossible
out-of-bounds panic. -/
def exprGet? (prog : Program) (i : Nat) : Option ExprNode :=
  prog.exprs.get? i

/-- Access `program.resolved[id]`. -/
def resolvedGet? (prog : Program) (i : Nat) : Option Nat :=
  prog.resolved.get? i

/-- Mirrors `eval_event`: all instantiations of an event pattern in an
environment, as (label, successor environment) pairs. -/
def evalEvent (prog : Program) (event : EventPat) (env : List (String × Nat)) :
    List (String × List (String × Nat)) :=
  match event with
  | .Unit channel => [(channel, env)]
  | .Int channel value => [(channel ++ "." ++ toString value, env)]
  | .OutVar channel var =>
    match envLookup var env with
    | none => []
    | some value => [(channel ++ "." ++ toString value, env)]
  | .InConst channel value => [(channel ++ "." ++ toString value, env)]
  | .InBind channel var =>
    match chLookup channel prog.channels with
    | none => []
    | some .Unit => []
    | some (.IntRange min max) =>
      (List.range' min (max + 1 - min)).map fun value =>
        (channel ++ "." ++ toString value, envInsert var value env)

/-- Mirrors `make_hide_state`: canonicalizes an empty hide set away and
flattens nested hides by set union (the Rust wildcard `other` arm is
spelled out per constructor). -/
def makeHideState (hide : List String) (inner : CspmState) : CspmState :=
  if hide.isEmpty then inner
  else
    match inner with
    | .SHide innerHide inner2 => .SHide (setExtend hide innerHide) inner2
    | .SExpr e env => .SHide hide (.SExpr e env)
    | .SParallel sync l r => .SHide hide (.SParallel sync l r)

/-- Mirrors `state_from_expr`: unfold `Ref`, `Parallel` and `Hide` nodes
into structural runtime states.  The fuel models the unbounded Rust
recursion (`none` = the Rust call does not return, e.g. on `P = P ||| P`). -/
def stateFromExpr (prog : Program) : Nat → Nat → List (String × Nat) → Option CspmState
  | 0, _, _ => none
  | fuel + 1, expr, env =>
    match exprGet? prog expr with
    | none => none
    | some (.Ref _) =>
      match resolvedGet? prog expr with
      | none => none
      | some target => stateFromExpr prog fuel target []
    | some (.Parallel left right sync) =>
      match stateFromExpr prog fuel left env, stateFromExpr prog fuel right env with
      | some l, some r => some (.SParallel sync l r)
      | _, _ => none
    | some (.Hide inner hide) =>
      match stateFromExpr prog fuel inner env with
      | none => none
      | some s => some (makeHideState hide s)
    | some _ => some (.SExpr expr env)

/-- Effectful map over `Option`, written out for direct reasoning
(models a Rust loop that early-returns on failure). -/
def optionTraverse {α β : Type} (f : α → Option β) : List α → Option (List β)
  | [] => some []
  | x :: xs =>
    match f x with
    | none => none
    | some y =>
      match optionTraverse f xs with
      | none => none
      | some ys => some (y :: ys)

theorem optionTraverse_mem {α β : Type} {f : α → Option β} :
    ∀ {xs : List α} {l : List β}, optionTraverse f xs = some l →
      ∀ y ∈ l, ∃ x ∈ xs, f x = some y := by
  intro xs
  induction xs with
  | nil =>
    intro l h y hy
    rw [optionTraverse] at h
    cases h
    cases hy
  | cons x xs ih =>
    intro l h y hy
    rw [optionTraverse] at h
    cases hfx : f x with
    | none => rw [hfx] at h; cases h
    | some fx =>
      rw [hfx] at h
      cases hrest : optionTraverse f xs with
      | none => rw [hrest] at h; cases h
      | some ys =>
        rw [hrest] at h
        cases h
        rcases List.mem_cons.mp hy with rfl | hy
        · exact ⟨x, List.mem_cons_self _ _, hfx⟩
        · obtain ⟨x2, hx2, hfx2⟩ := ih hrest y hy
          exact ⟨x2, List.mem_cons_of_mem _ hx2, hfx2⟩

/-- The channel prefix of a label's characters: everything before the
first `.` (the whole label when there is no dot). -/
def labelChannelChars : List Char → List Char
  | [] => []
  | c :: rest => if c = '.' then [] else c :: labelChannelChars rest

/-- Mirrors the `label_channel` helper (`label.split_once('.')`). -/
def labelChannel (label : String) : String :=
  String.mk (labelChannelChars label.data)

/-- Mirrors `is_sync_event`: `tau` never synchronizes; otherwise the
label's channel must be in the sync set. -/
def isSyncEvent (sync : List String) (label : String) : Bool :=
  if label = "tau" then false else decide (labelChannel label ∈ sync)

/-- Builds the `right_sync` grouping `HashMap<String, Vec<State>>`:
appends a successor under its label. -/
def addSyncGroup (label : String) (st : CspmState) :
    List (String × List CspmState) → List (String × List CspmState)
  | [] => [(label, [st])]
  | (l, ss) :: rest =>
    if l = label then (l, ss ++ [st]) :: rest
    else (l, ss) :: addSyncGroup label st rest

/-- Lookup in the `right_sync` grouping. -/
def syncGroupLookup (label : String) :
    List (String × List CspmState) → Option (List CspmState)
  | [] => none
  | (l, ss) :: rest => if l = label then some ss else syncGroupLookup label rest

/-- Splits the right-hand transitions into the sync grouping and the
non-sync list, preserving order. -/
def splitRight (sync : List String) :
    List (String × CspmState) →
    List (String × List CspmState) × List (String × CspmState)
  | [] => ([], [])
  | (label, st) :: rest =>
    let (groups, nonsync) := splitRight sync rest
    if isSyncEvent sync label then (addSyncGroup label st groups, nonsync)
    else (groups, (label, st) :: nonsync)

/-- Mirrors `transitions_for_state_unordered` together with its `Expr`,
`Parallel` and `Hide` helpers; the fuel models the unbounded mutual
recursion of the Rust functions. -/
def transUnordered (prog : Program) : Nat → CspmState → Option (List (String × CspmState))
  | 0, _ => none
  | fuel + 1, CspmState.SExpr expr env =>
    match exprGet? prog expr with
    | none => none
    | some .Stop => some []
    | some (.Ref _) =>
      match resolvedGet? prog expr with
      | none => none
      | some target =>
        match stateFromExpr prog fuel target [] with
        | none => none
        | some st => transUnordered prog fuel st
    | some (.Prefix event next) =>
      optionTraverse
        (fun p =>
          match stateFromExpr prog fuel next p.2 with
          | none => none
          | some st => some (p.1, st))
        (evalEvent prog event env)
    | some (.ChoiceExternal left right) =>
      match stateFromExpr prog fuel left env with
      | none => none
      | some ls =>
        match transUnordered prog fuel ls with
        | none => none
        | some lt =>
          match stateFromExpr prog fuel right env with
          | none => none
          | some rs =>
            match transUnordered prog fuel rs with
            | none => none
            | some rt => some (lt ++ rt)
    | some (.ChoiceInternal left right) =>
      match stateFromExpr prog fuel left env, stateFromExpr prog fuel right env with
      | some ls, some rs => some [("tau", ls), ("tau", rs)]
      | _, _ => none
    | some (.Parallel left right sync) =>
      match stateFromExpr prog fuel left env, stateFromExpr prog fuel right env with
      | some ls, some rs => transUnordered prog fuel (.SParallel sync ls rs)
      | _, _ => none
    | some (.Hide inner hide) =>
      match stateFromExpr prog fuel inner env with
      | none => none
      | some st => transUnordered prog fuel (.SHide hide st)
  | fuel + 1, CspmState.SParallel sync left right =>
    match transUnordered prog fuel left with
    | none => none
    | some leftNext =>
      match transUnordered prog fuel right with
      | none => none
      | some rightNext =>
        let (rightSync, rightNonsync) := splitRight sync rightNext
        let fromLeft := leftNext.flatMap fun p =>
          if isSyncEvent sync p.1 then
            match syncGroupLookup p.1 rightSync with
            | none => []
            | some rs => rs.map fun nr => (p.1, CspmState.SParallel sync p.2 nr)
          else
            [(p.1, CspmState.SParallel sync p.2 right)]
        let fromRight := rightNonsync.map fun p =>
          (p.1, CspmState.SParallel sync left p.2)
        some (fromLeft ++ fromRight)
  | fuel + 1, CspmState.SHide hide inner =>
    match transUnordered prog fuel inner with
    | none => none
    | some innerNext =>
      some (innerNext.map fun p =>
        (if p.1 ≠ "tau" ∧ labelChannel p.1 ∈ hide then "tau" else p.1,
          makeHideState hide p.2))

/-- The comparator of `transitions_for`: by label, then by canonical
encoding of the successor state. -/
def transKeyLe (a b : String × CspmState) : Bool :=
  if a.1 = b.1 then decide (encode a.2 ≤ encode b.2) else decide (strLt a.1 b.1)

/-- Mirrors `transitions_for`: the unordered successors sorted by
(label, canonical bytes of next state).  Rust's stable `sort_by` is
modelled by the stable `sortByBool`. -/
def transitionsFor (prog : Program) (fuel : Nat) (state : CspmState) :
    Option (List (String × CspmState)) :=
  (transUnordered prog fuel state).map fun l => sortByBool transKeyLe l

/-! ## Module compilation (`CspmTransitionProvider::from_module`) -/

/-- Mirrors `CspmLtsError`. -/
structure CspmLtsErr where
  message : String
  span : Option SourceSpan
deriving DecidableEq, Repr

/-- Association-list lookup used for the compile-time maps. -/
def assocLookup {α β : Type} [DecidableEq α] (key : α) : List (α × β) → Option β
  | [] => none
  | (k, v) :: rest => if key = k then some v else assocLookup key rest

/-- Mirrors `compile_event_pat`. -/
def compileEventPat (event : Spanned Event) : Except CspmLtsErr EventPat :=
  let channel := event.value.channel.value
  match event.value.seg with
  | none => .ok (.Unit channel)
  | some (.Dot v) =>
    match v.value with
    | .Int n => .ok (.Int channel n)
    | .Ident _ => .error ⟨"unsupported dot payload", some v.span⟩
  | some (.Out v) =>
    match v.value with
    | .Int n => .ok (.Int channel n)
    | .Ident name => .ok (.OutVar channel name)
  | some (.In i) =>
    match i.value with
    | .Int n => .ok (.InConst channel n)
    | .Bind name => .ok (.InBind channel name)

/-- Inner loop of `compile_channels`: add each declared name with its
domain, failing on duplicates. -/
def addChannelNames (domain : ChannelDomainC) (names : List (Spanned String))
    (acc : List (String × ChannelDomainC)) :
    Except CspmLtsErr (List (String × ChannelDomainC)) :=
  match names with
  | [] => .ok acc
  | n :: rest =>
    if (chLookup n.value acc).isSome then
      .error ⟨"duplicate channel: " ++ n.value, some n.span⟩
    else
      addChannelNames domain rest (acc ++ [(n.value, domain)])

/-- Mirrors `compile_channels`. -/
def compileChannelsLoop (decls : List ChannelDecl)
    (acc : List (String × ChannelDomainC)) :
    Except CspmLtsErr (List (String × ChannelDomainC)) :=
  match decls with
  | [] => .ok acc
  | decl :: rest =>
    let domain? : Except CspmLtsErr ChannelDomainC :=
      match decl.domain with
      | none => .ok .Unit
      | some d =>
        match d.value with
        | .IntRange min max => .ok (.IntRange min.value max.value)
        | .NamedType _ => .error ⟨"unsupported channel domain", some d.span⟩
    match domain? with
    | .error e => .error e
    | .ok domain =>
      match addChannelNames domain decl.names acc with
      | .error e => .error e
      | .ok acc2 => compileChannelsLoop rest acc2

/-- Mirrors `compile_channels` on a module. -/
def compileChannels (module : Module) :
    Except CspmLtsErr (List (String × ChannelDomainC)) :=
  compileChannelsLoop module.channels []

/-- First pass of `collect_processes`: the name → body table with the
duplicate-name check. -/
def collectExprs (decls : List ProcessDecl) (acc : List (String × SpannedExpr)) :
    Except CspmLtsErr (List (String × SpannedExpr)) :=
  match decls with
  | [] => .ok acc
  | decl :: rest =>
    if (assocLookup decl.name.value acc).isSome then
      .error ⟨"duplicate process: " ++ decl.name.value, some decl.name.span⟩
    else
      collectExprs rest (acc ++ [(decl.name.value, decl.expr)])

/-- Second pass of `collect_processes`: process ids are the indices in
the `BTreeMap`'s sorted name order. -/
def procIdsOf (names : List String) : List (String × Nat) :=
  ((sortByBool (fun a b => decide (strLe a b)) names).enum).map fun p => (p.2, p.1)

/-- Mirrors `ProgramBuilder` (without the channel table, which is
carried separately). -/
structure Builder where
  exprs : List ExprNode
  exprSpans : List (Option SourceSpan)
  interned : List (ExprNode × Nat)
  procRoots : List Nat
deriving DecidableEq, Repr

/-- Mirrors `ProgramBuilder::intern`: structural deduplication of
operator nodes. -/
def internNode (b : Builder) (node : ExprNode) (span : Option SourceSpan) :
    Nat × Builder :=
  match assocLookup node b.interned with
  | some id => (id, b)
  | none =>
    (b.exprs.length,
      { b with
        exprs := b.exprs ++ [node]
        exprSpans := b.exprSpans ++ [span]
        interned := b.interned ++ [(node, b.exprs.length)] })

/-- Mirrors `ProgramBuilder::compile_expr`. -/
def compileExpr (pids : List (String × Nat)) :
    Builder → SpannedExpr → Except CspmLtsErr (Nat × Builder)
  | b, .Stop span => .ok (internNode b .Stop (some span))
  | b, .Ref span name =>
    match assocLookup name.value pids with
    | none => .error ⟨"undefined process: " ++ name.value, some name.span⟩
    | some pid => .ok (internNode b (.Ref pid) (some span))
  | b, .Prefix span event next =>
    match compileEventPat event with
    | .error e => .error e
    | .ok pat =>
      match compileExpr pids b next with
      | .error e => .error e
      | .ok (nid, b1) => .ok (internNode b1 (.Prefix pat nid) (some span))
  | b, .Choice span kind left right =>
    match compileExpr pids b left with
    | .error e => .error e
    | .ok (lid, b1) =>
      match compileExpr pids b1 right with
      | .error e => .error e
      | .ok (rid, b2) =>
        let node := match kind with
          | ChoiceKind.External => ExprNode.ChoiceExternal lid rid
          | ChoiceKind.Internal => ExprNode.ChoiceInternal lid rid
        .ok (internNode b2 node (some span))
  | b, .Parallel span kind left right sync =>
    match compileExpr pids b left with
    | .error e => .error e
    | .ok (lid, b1) =>
      match compileExpr pids b1 right with
      | .error e => .error e
      | .ok (rid, b2) =>
        match kind with
        | ParallelKind.Interleaving =>
          .ok (internNode b2 (.Parallel lid rid []) (some span))
        | ParallelKind.Interface =>
          match sync with
          | none => .error ⟨"missing sync set for interface parallel", some span⟩
          | some set =>
            .ok (internNode b2
              (.Parallel lid rid (setOfList (set.channels.map Spanned.value)))
              (some span))
  | b, .Hide span inner hide =>
    match compileExpr pids b inner with
    | .error e => .error e
    | .ok (iid, b1) =>
      .ok (internNode b1
        (.Hide iid (setOfList (hide.channels.map Spanned.value))) (some span))

/-- The `Ref` chase of `compute_resolved`.  The Rust code memoizes and
tracks a `visiting` set to report `cyclic process reference`; since
every node has at most one chase successor, a chain that exceeds the
arena size must revisit a node, so running out of fuel at
`exprs.length + 1` detects exactly the same cycles (the reported span is
not modelled). -/
def resolveChase (exprs : List ExprNode) (procRoots : List Nat) :
    Nat → Nat → Except CspmLtsErr Nat
  | 0, _ => .error ⟨"cyclic process reference", none⟩
  | fuel + 1, id =>
    match exprs.get? id with
    | none => .error ⟨"invalid expr id", none⟩
    | some (.Ref pid) =>
      match procRoots.get? pid with
      | none => .error ⟨"invalid proc id", none⟩
      | some target => resolveChase exprs procRoots fuel target
    | some _ => .ok id

/-- Effectful map over `Except`, written out for direct reasoning. -/
def exceptTraverse {ε α β : Type} (f : α → Except ε β) : List α → Except ε (List β)
  | [] => .ok []
  | x :: xs =>
    match f x with
    | .error e => .error e
    | .ok y =>
      match exceptTraverse f xs with
      | .error e => .error e
      | .ok ys => .ok (y :: ys)

/-- Mirrors `compute_resolved`. -/
def computeResolved (exprs : List ExprNode) (procRoots : List Nat) :
    Except CspmLtsErr (List Nat) :=
  exceptTraverse (resolveChase exprs procRoots (exprs.length + 1))
    (List.range exprs.length)

/-- Mirrors `initial_expr`. -/
def initialExpr (module : Module) : Except CspmLtsErr SpannedExpr :=
  match module.entry with
  | some entry => .ok entry
  | none =>
    match module.declarations with
    | [decl] => .ok decl.expr
    | _ => .error ⟨"entry process not specified", none⟩

/-- The per-declaration compile loop of `from_module`, iterating the
process-id table in its (sorted) order. -/
def compileProcs (pids : List (String × Nat))
    (procExprs : List (String × SpannedExpr)) :
    Builder → List (String × Nat) → Except CspmLtsErr Builder
  | b, [] => .ok b
  | b, (name, pid) :: rest =>
    match assocLookup name procExprs with
    | none => .error ⟨"undefined process: " ++ name, none⟩
    | some expr =>
      match compileExpr pids b expr with
      | .error e => .error e
      | .ok (root, b1) =>
        compileProcs pids procExprs
          { b1 with procRoots := b1.procRoots.set pid root } rest

/-- Mirrors `CspmTransitionProvider`: the program plus its initial state. -/
structure Provider where
  program : Program
  initial : CspmState
deriving DecidableEq, Repr

/-- Mirrors `CspmTransitionProvider::from_module`.  The outer `Option`
is the fuel of `state_from_expr`: `none` models a compilation whose
initial-state unfolding does not terminate. -/
def fromModule (sfFuel : Nat) (module : Module) :
    Option (Except CspmLtsErr Provider) :=
  match compileChannels module with
  | .error e => some (.error e)
  | .ok channels =>
    match collectExprs module.declarations [] with
    | .error e => some (.error e)
    | .ok procExprs =>
      let pids := procIdsOf (procExprs.map Prod.fst)
      let b0 : Builder :=
        { exprs := [], exprSpans := [], interned := []
          procRoots := List.replicate pids.length 0 }
      match initialExpr module with
      | .error e => some (.error e)
      | .ok ie =>
        match compileExpr pids b0 ie with
        | .error e => some (.error e)
        | .ok (initId, b1) =>
          match compileProcs pids procExprs b1 pids with
          | .error e => some (.error e)
          | .ok b2 =>
            match computeResolved b2.exprs b2.procRoots with
            | .error e => some (.error e)
            | .ok resolved =>
              let prog : Program :=
                { channels := channels, exprs := b2.exprs, resolved := resolved }
              match stateFromExpr prog sfFuel initId [] with
              | none => none
              | some initial => some (.ok { program := prog, initial := initial })

/-! ## Canonical form of runtime states (spec §3, claim about
`make_hide_state` / `state_from_expr` / `transitions_for_hide_unordered`) -/

/-- Is the state a `Hide` at the top? -/
def isHideState : CspmState → Bool
  | .SHide _ _ => true
  | _ => false

/-- Canonical form: nowhere a `Hide` with an empty hide set, and nowhere
a `Hide` directly inside a `Hide`. -/
def canonicalState : CspmState → Bool
  | .SExpr _ _ => true
  | .SParallel _ left right => canonicalState left && canonicalState right
  | .SHide hide inner =>
    !hide.isEmpty && !isHideState inner && canonicalState inner

/-- Canonicity of the children of a state; the transition function
preserves canonicity of its outputs as soon as the sub-states it reuses
are canonical (the transient `Hide` wrapper built inside
`transitions_for_expr_unordered` need not itself be canonical). -/
def canonChildren : CspmState → Bool
  | .SExpr _ _ => true
  | .SParallel _ left right => canonicalState left && canonicalState right
  | .SHide _ inner => canonicalState inner

theorem canonChildren_of_canonical {s : CspmState}
    (h : canonicalState s = true) : canonChildren s = true := by
  cases s with
  | SExpr e env => rfl
  | SParallel sync l r => exact h
  | SHide hide inner =>
    rw [canonicalState, Bool.and_eq_true, Bool.and_eq_true] at h
    exact h.2

theorem setExtend_ne_nil (base : List String) (l : List String)
    (h : base ≠ []) : setExtend base l ≠ [] := by
  induction l generalizing base with
  | nil => exact h
  | cons x xs ih =>
    rw [setExtend, List.foldl_cons]
    exact ih (setInsert x base) (setInsert_nonempty x base)

theorem not_isEmpty_of_ne_nil {α : Type} {l : List α} (h : l ≠ []) :
    (!l.isEmpty) = true := by
  cases l with
  | nil => exact absurd rfl h
  | cons x xs => rfl

theorem makeHideState_canonical (hide : List String) (inner : CspmState)
    (h : canonicalState inner = true) :
    canonicalState (makeHideState hide inner) = true := by
  by_cases he : hide.isEmpty
  · cases inner <;> rw [makeHideState, if_pos he] <;> exact h
  · have hne : hide ≠ [] := by
      intro hnil; rw [hnil] at he; exact he rfl
    cases inner with
    | SHide innerHide inner2 =>
      rw [makeHideState, if_neg he]
      rw [canonicalState, Bool.and_eq_true, Bool.and_eq_true] at h
      rw [canonicalState, Bool.and_eq_true, Bool.and_eq_true]
      exact ⟨⟨not_isEmpty_of_ne_nil (setExtend_ne_nil hide innerHide hne),
        h.1.2⟩, h.2⟩
    | SExpr e env =>
      rw [makeHideState, if_neg he]
      rw [canonicalState, Bool.and_eq_true, Bool.and_eq_true]
      exact ⟨⟨not_isEmpty_of_ne_nil hne, rfl⟩, h⟩
    | SParallel sync l r =>
      rw [makeHideState, if_neg he]
      rw [canonicalState, Bool.and_eq_true, Bool.and_eq_true]
      exact ⟨⟨not_isEmpty_of_ne_nil hne, rfl⟩, h⟩

theorem stateFromExpr_canonical (prog : Program) :
    ∀ fuel expr env s, stateFromExpr prog fuel expr env = some s →
      canonicalState s = true := by
  intro fuel
  induction fuel with
  | zero => intro expr env s h; cases h
  | succ f ih =>
    intro expr env s h
    rw [stateFromExpr] at h
    cases hnode : exprGet? prog expr with
    | none => rw [hnode] at h; cases h
    | some node =>
      rw [hnode] at h
      cases node with
      | Ref pid =>
        dsimp only at h
        cases hres : resolvedGet? prog expr with
        | none => rw [hres] at h; cases h
        | some target =>
          rw [hres] at h
          exact ih target [] s h
      | Parallel left right sync =>
        dsimp only at h
        cases hl : stateFromExpr prog f left env with
        | none => rw [hl] at h; cases h
        | some ls =>
          cases hr : stateFromExpr prog f right env with
          | none => rw [hl, hr] at h; cases h
          | some rs =>
            rw [hl, hr] at h
            cases h
            rw [canonicalState, Bool.and_eq_true]
            exact ⟨ih left env ls hl, ih right env rs hr⟩
      | Hide inner hide =>
        dsimp only at h
        cases hi : stateFromExpr prog f inner env with
        | none => rw [hi] at h; cases h
        | some s2 =>
          rw [hi] at h
          cases h
          exact makeHideState_canonical hide s2 (ih inner env s2 hi)
      | Stop => cases h; rfl
      | Prefix event next => cases h; rfl
      | ChoiceExternal l r => cases h; rfl
      | ChoiceInternal l r => cases h; rfl

theorem syncGroupLookup_addSyncGroup_mem (label : String) (st : CspmState)
    (groups : List (String × List CspmState)) (lbl : String)
    (rs : List CspmState) (y : CspmState)
    (h : syncGroupLookup lbl (addSyncGroup label st groups) = some rs)
    (hy : y ∈ rs) :
    y = st ∨ ∃ rs2, syncGroupLookup lbl groups = some rs2 ∧ y ∈ rs2 := by
  induction groups with
  | nil =>
    rw [addSyncGroup, syncGroupLookup] at h
    by_cases hl : label = lbl
    · rw [if_pos hl] at h
      cases h
      simp only [List.mem_singleton] at hy
      exact Or.inl hy
    · rw [if_neg hl] at h
      cases h
  | cons p rest ih =>
    obtain ⟨l0, ss0⟩ := p
    rw [addSyncGroup] at h
    by_cases he : l0 = label
    · rw [if_pos he] at h
      rw [syncGroupLookup] at h
      by_cases hl : l0 = lbl
      · rw [if_pos hl] at h
        cases h
        rcases List.mem_append.mp hy with hy | hy
        · exact Or.inr ⟨ss0, by rw [syncGroupLookup, if_pos hl], hy⟩
        · simp only [List.mem_singleton] at hy
          exact Or.inl hy
      · rw [if_neg hl] at h
        exact Or.inr ⟨rs, by rw [syncGroupLookup, if_neg hl]; exact h, hy⟩
    · rw [if_neg he] at h
      rw [syncGroupLookup] at h
      by_cases hl : l0 = lbl
      · rw [if_pos hl] at h
        cases h
        exact Or.inr ⟨rs, by rw [syncGroupLookup, if_pos hl], hy⟩
      · rw [if_neg hl] at h
        rcases ih h with h2 | ⟨rs2, hrs2, hy2⟩
        · exact Or.inl h2
        · exact Or.inr ⟨rs2, by rw [syncGroupLookup, if_neg hl]; exact hrs2, hy2⟩

theorem splitRight_sync_mem (sync : List String) :
    ∀ (l : List (String × CspmState)) (lbl : String) (rs : List CspmState)
      (y : CspmState),
      syncGroupLookup lbl (splitRight sync l).1 = some rs → y ∈ rs →
      ∃ lbl2, (lbl2, y) ∈ l := by
  intro l
  induction l with
  | nil => intro lbl rs y h _; rw [splitRight, syncGroupLookup] at h; cases h
  | cons p rest ih =>
    intro lbl rs y h hy
    obtain ⟨label, st⟩ := p
    rw [splitRight] at h
    rcases hsp : splitRight sync rest with ⟨groups, nonsync⟩
    rw [hsp] at h ih
    dsimp only at h ih
    by_cases hs : isSyncEvent sync label = true
    · rw [if_pos hs] at h
      dsimp only at h
      rcases syncGroupLookup_addSyncGroup_mem label st _ lbl rs y h hy with rfl | ⟨rs2, hrs2, hy2⟩
      · exact ⟨label, List.mem_cons_self _ _⟩
      · obtain ⟨lbl2, hmem⟩ := ih lbl rs2 y hrs2 hy2
        exact ⟨lbl2, List.mem_cons_of_mem _ hmem⟩
    · rw [if_neg hs] at h
      dsimp only at h
      obtain ⟨lbl2, hmem⟩ := ih lbl rs y h hy
      exact ⟨lbl2, List.mem_cons_of_mem _ hmem⟩

theorem splitRight_nonsync_mem (sync : List String) :
    ∀ (l : List (String × CspmState)) (p : String × CspmState),
      p ∈ (splitRight sync l).2 → p ∈ l := by
  intro l
  induction l with
  | nil => intro p h; rw [splitRight] at h; cases h
  | cons q rest ih =>
    intro p h
    obtain ⟨label, st⟩ := q
    rw [splitRight] at h
    rcases hsp : splitRight sync rest with ⟨groups, nonsync⟩
    rw [hsp] at h ih
    dsimp only at h ih
    by_cases hs : isSyncEvent sync label = true
    · rw [if_pos hs] at h
      dsimp only at h
      exact List.mem_cons_of_mem _ (ih p h)
    · rw [if_neg hs] at h
      dsimp only at h
      rcases List.mem_cons.mp h with rfl | h
      · exact List.mem_cons_self _ _
      · exact List.mem_cons_of_mem _ (ih p h)

theorem transUnordered_canonical (prog : Program) :
    ∀ fuel s l, transUnordered prog fuel s = some l →
      canonChildren s = true →
      ∀ p ∈ l, canonicalState p.2 = true := by
  intro fuel
  induction fuel with
  | zero => intro s l h _ p hp; cases h
  | succ f ih =>
    intro s l h hcc p hp
    cases s with
    | SExpr expr env =>
      rw [transUnordered] at h
      cases hnode : exprGet? prog expr with
      | none => rw [hnode] at h; cases h
      | some node =>
        rw [hnode] at h
        cases node with
        | Stop => cases h; cases hp
        | Ref pid =>
          dsimp only at h
          cases hres : resolvedGet? prog expr with
          | none => rw [hres] at h; cases h
          | some target =>
            rw [hres] at h
            dsimp only at h
            cases hsf : stateFromExpr prog f target [] with
            | none => rw [hsf] at h; cases h
            | some st =>
              rw [hsf] at h
              dsimp only at h
              exact ih st l h
                (canonChildren_of_canonical (stateFromExpr_canonical prog f target [] st hsf))
                p hp
        | Prefix event next =>
          dsimp only at h
          obtain ⟨x, _, hfx⟩ := optionTraverse_mem h p hp
          cases hsf : stateFromExpr prog f next x.2 with
          | none => rw [hsf] at hfx; cases hfx
          | some st =>
            rw [hsf] at hfx
            cases hfx
            exact stateFromExpr_canonical prog f next x.2 _ hsf
        | ChoiceExternal left right =>
          dsimp only at h
          cases hl : stateFromExpr prog f left env with
          | none => rw [hl] at h; cases h
          | some ls =>
            rw [hl] at h
            dsimp only at h
            cases hlt : transUnordered prog f ls with
            | none => rw [hlt] at h; cases h
            | some lt =>
              rw [hlt] at h
              dsimp only at h
              cases hr : stateFromExpr prog f right env with
              | none => rw [hr] at h; cases h
              | some rs =>
                rw [hr] at h
                dsimp only at h
                cases hrt : transUnordered prog f rs with
                | none => rw [hrt] at h; cases h
                | some rt =>
                  rw [hrt] at h
                  dsimp only at h
                  cases h
                  rcases List.mem_append.mp hp with hp | hp
                  · exact ih ls lt hlt
                      (canonChildren_of_canonical
                        (stateFromExpr_canonical prog f left env ls hl)) p hp
                  · exact ih rs rt hrt
                      (canonChildren_of_canonical
                        (stateFromExpr_canonical prog f right env rs hr)) p hp
        | ChoiceInternal left right =>
          dsimp only at h
          cases hl : stateFromExpr prog f left env with
          | none => rw [hl] at h; cases h
          | some ls =>
            cases hr : stateFromExpr prog f right env with
            | none => rw [hl, hr] at h; cases h
            | some rs =>
              rw [hl, hr] at h
              dsimp only at h
              cases h
              rcases List.mem_cons.mp hp with rfl | hp
              · exact stateFromExpr_canonical prog f left env ls hl
              · simp only [List.mem_singleton] at hp
                subst hp
                exact stateFromExpr_canonical prog f right env rs hr
        | Parallel left right sync =>
          dsimp only at h
          cases hl : stateFromExpr prog f left env with
          | none => rw [hl] at h; cases h
          | some ls =>
            cases hr : stateFromExpr prog f right env with
            | none => rw [hl, hr] at h; cases h
            | some rs =>
              rw [hl, hr] at h
              dsimp only at h
              refine ih _ l h ?_ p hp
              rw [canonChildren, Bool.and_eq_true]
              exact ⟨stateFromExpr_canonical prog f left env ls hl,
                stateFromExpr_canonical prog f right env rs hr⟩
        | Hide inner hide =>
          dsimp only at h
          cases hi : stateFromExpr prog f inner env with
          | none => rw [hi] at h; cases h
          | some st =>
            rw [hi] at h
            dsimp only at h
            refine ih _ l h ?_ p hp
            rw [canonChildren]
            exact stateFromExpr_canonical prog f inner env st hi
    | SParallel sync left right =>
      rw [transUnordered] at h
      cases hlt : transUnordered prog f left with
      | none => rw [hlt] at h; cases h
      | some leftNext =>
        rw [hlt] at h
        dsimp only at h
        cases hrt : transUnordered prog f right with
        | none => rw [hrt] at h; cases h
        | some rightNext =>
          rw [hrt] at h
          dsimp only at h
          rw [canonChildren, Bool.and_eq_true] at hcc
          cases h
          have hlcan : ∀ q ∈ leftNext, canonicalState q.2 = true :=
            ih left leftNext hlt (canonChildren_of_canonical hcc.1)
          have hrcan : ∀ q ∈ rightNext, canonicalState q.2 = true :=
            ih right rightNext hrt (canonChildren_of_canonical hcc.2)
          rcases List.mem_append.mp hp with hp | hp
          · obtain ⟨q, hq, hpq⟩ := List.mem_flatMap.mp hp
            by_cases hs : isSyncEvent sync q.1 = true
            · rw [if_pos hs] at hpq
              cases hlook : syncGroupLookup q.1 (splitRight sync rightNext).1 with
              | none => rw [hlook] at hpq; cases hpq
              | some rs =>
                rw [hlook] at hpq
                obtain ⟨nr, hnr, hpnr⟩ := List.mem_map.mp hpq
                subst hpnr
                rw [canonicalState, Bool.and_eq_true]
                obtain ⟨lbl2, hmem⟩ :=
                  splitRight_sync_mem sync rightNext q.1 rs nr hlook hnr
                exact ⟨hlcan q hq, hrcan (lbl2, nr) hmem⟩
            · rw [if_neg hs] at hpq
              simp only [List.mem_singleton] at hpq
              subst hpq
              rw [canonicalState, Bool.and_eq_true]
              exact ⟨hlcan q hq, hcc.2⟩
          · obtain ⟨q, hq, hpq⟩ := List.mem_map.mp hp
            subst hpq
            rw [canonicalState, Bool.and_eq_true]
            exact ⟨hcc.1, hrcan q (splitRight_nonsync_mem sync rightNext q hq)⟩
    | SHide hide inner =>
      rw [transUnordered] at h
      cases hit : transUnordered prog f inner with
      | none => rw [hit] at h; cases h
      | some innerNext =>
        rw [hit] at h
        dsimp only at h
        cases h
        rw [canonChildren] at hcc
        obtain ⟨q, hq, hpq⟩ := List.mem_map.mp hp
        subst hpq
        exact makeHideState_canonical hide q.2
          (ih inner innerNext hit (canonChildren_of_canonical hcc) q hq)

theorem transitionsFor_canonical (prog : Program) (fuel : Nat) (s : CspmState)
    (l : List (String × CspmState)) (h : transitionsFor prog fuel s = some l)
    (hcc : canonicalState s = true) :
    ∀ p ∈ l, canonicalState p.2 = true := by
  rw [transitionsFor] at h
  cases hu : transUnordered prog fuel s with
  | none => rw [hu] at h; cases h
  | some ul =>
    rw [hu] at h
    cases h
    intro p hp
    exact transUnordered_canonical prog fuel s ul hu
      (canonChildren_of_canonical hcc) p ((mem_sortByBool _ _ _).mp hp)

/-! ## The transition comparator is a total preorder -/

theorem transKeyLe_trans (a b c : String × CspmState)
    (hab : transKeyLe a b = true) (hbc : transKeyLe b c = true) :
    transKeyLe a c = true := by
  rw [transKeyLe] at hab hbc ⊢
  by_cases h1 : a.1 = b.1
  · rw [if_pos h1, decide_eq_true_eq] at hab
    by_cases h2 : b.1 = c.1
    · rw [if_pos h2, decide_eq_true_eq] at hbc
      rw [if_pos (h1.trans h2), decide_eq_true_eq]
      exact le_trans hab hbc
    · rw [if_neg h2, decide_eq_true_eq] at hbc
      have hac : strLt a.1 c.1 := h1 ▸ hbc
      rw [if_neg (strLt_ne hac), decide_eq_true_eq]
      exact hac
  · rw [if_neg h1, decide_eq_true_eq] at hab
    by_cases h2 : b.1 = c.1
    · have hac : strLt a.1 c.1 := h2 ▸ hab
      rw [if_neg (strLt_ne hac), decide_eq_true_eq]
      exact hac
    · rw [if_neg h2, decide_eq_true_eq] at hbc
      have hac : strLt a.1 c.1 := strLt_trans hab hbc
      rw [if_neg (strLt_ne hac), decide_eq_true_eq]
      exact hac

theorem transKeyLe_total (a b : String × CspmState) :
    (transKeyLe a b || transKeyLe b a) = true := by
  rw [Bool.or_eq_true, transKeyLe, transKeyLe]
  by_cases h1 : a.1 = b.1
  · rw [if_pos h1, if_pos h1.symm, decide_eq_true_eq, decide_eq_true_eq]
    rcases le_total (encode a.2) (encode b.2) with h | h
    · exact Or.inl h
    · exact Or.inr h
  · rw [if_neg h1, if_neg (Ne.symm h1), decide_eq_true_eq, decide_eq_true_eq]
    rcases strLt_trichotomy a.1 b.1 with h | h | h
    · exact Or.inl h
    · exact absurd h h1
    · exact Or.inr h

theorem transitionsFor_sorted (prog : Program) (fuel : Nat) (s : CspmState)
    (l : List (String × CspmState)) (h : transitionsFor prog fuel s = some l) :
    l.Pairwise fun a b => transKeyLe a b = true := by
  rw [transitionsFor] at h
  cases hu : transUnordered prog fuel s with
  | none => rw [hu] at h; cases h
  | some ul =>
    rw [hu] at h
    cases h
    exact sortByBool_sorted
      (fun a b c hab hbc => transKeyLe_trans a b c hab hbc)
      (fun a b => transKeyLe_total a b) ul

/-! ## Explorer (`explore.rs`)

The explorer is generic over the transition provider (`trans` is total,
as the trait method is) and over the state store; the store used here
has the in-memory store's semantics (`store_inmemory.rs`): a set with
`insert` returning whether the state is new.  Profiling accumulators
carry no semantics and are omitted.  The fuel models the unbounded
`while` loops. -/

/-- The successor-insertion loop shared by `explore_serial_internal`'s
body: for each generated `(label, next_state)`, insert into the store
and enqueue when new, counting discovered states. -/
def insertNext {S L : Type} [DecidableEq S] :
    List (L × S) → List S → Finset S → Nat → List S × Finset S × Nat
  | [], queue, visited, states => (queue, visited, states)
  | (_, t) :: rest, queue, visited, states =>
    if t ∈ visited then insertNext rest queue visited states
    else insertNext rest (queue ++ [t]) (insert t visited) (states + 1)

/-- The FIFO loop of `explore_serial_internal`. -/
def exploreSerialLoop {S L : Type} [DecidableEq S] (trans : S → List (L × S)) :
    Nat → List S → Finset S → Nat → Nat → Option (Nat × Nat)
  | 0, _, _, _, _ => none
  | _ + 1, [], _, states, transitions => some (states, transitions)
  | fuel + 1, s :: queue, visited, states, transitions =>
    let next := trans s
    let r := insertNext next queue visited states
    exploreSerialLoop trans fuel r.1 r.2.1 r.2.2 (transitions + next.length)

/-- Mirrors `explore_serial_internal` over an initially empty store
(the initial insert therefore reports `new`). -/
def exploreSerial {S L : Type} [DecidableEq S] (trans : S → List (L × S))
    (init : S) (fuel : Nat) : Option (Nat × Nat) :=
  exploreSerialLoop trans fuel [init] {init} 1 0

/-- Rust `usize::div_ceil`. -/
def ceilDiv (a b : Nat) : Nat := (a + b - 1) / b

/-- `Vec::dedup`: remove consecutive duplicates. -/
def dedupAdj {α : Type} [DecidableEq α] : List α → List α
  | [] => []
  | [x] => [x]
  | x :: y :: rest =>
    if x = y then dedupAdj (y :: rest) else x :: dedupAdj (y :: rest)

/-- `slice::chunks` with an explicit length fuel. -/
def chunksOfAux {α : Type} (n : Nat) : Nat → List α → List (List α)
  | _, [] => []
  | 0, l => [l]
  | fuel + 1, l => l.take n :: chunksOfAux n fuel (l.drop n)

/-- `slice::chunks n` (callers guarantee `n ≥ 1`). -/
def chunksOf {α : Type} (n : Nat) (l : List α) : List (List α) :=
  chunksOfAux n l.length l

/-- Per-chunk work of the deterministic parallel explorer: generate all
successors of the chunk, count transitions per edge, then locally sort
and deduplicate the successor states. -/
def expandChunk {S L : Type} [DecidableEq S] [LinearOrder S]
    (trans : S → List (L × S)) (chunk : List S) : Nat × List S :=
  (chunk.foldl (fun acc s => acc + (trans s).length) 0,
    dedupAdj (sortByBool (fun a b => decide (a ≤ b))
      (chunk.flatMap fun s => (trans s).map Prod.snd)))

/-- The sequential insertion pass over the globally deduplicated
candidates, building the next frontier from the states that are new. -/
def insertCandidates {S : Type} [DecidableEq S] :
    List S → Finset S → Nat → List S × Finset S × Nat
  | [], visited, states => ([], visited, states)
  | c :: rest, visited, states =>
    if c ∈ visited then insertCandidates rest visited states
    else
      let r := insertCandidates rest (insert c visited) (states + 1)
      (c :: r.1, r.2)

/-- The per-level expansion of `explore_parallel_deterministic_internal`:
chunk the (sorted) frontier among the workers, expand every chunk,
account the generated transitions, then merge the chunk results into the
globally sorted and deduplicated candidate list. -/
def levelExpand {S L : Type} [DecidableEq S] [LinearOrder S]
    (trans : S → List (L × S)) (workers : Nat) (batch : List S) :
    Nat × List S :=
  let chunkSize := max (ceilDiv batch.length workers) 1
  let results := (chunksOf chunkSize batch).map (expandChunk trans)
  ((results.map Prod.fst).sum,
    dedupAdj (sortByBool (fun a b => decide (a ≤ b))
      ((results.map Prod.snd).flatten)))

/-- The level loop of `explore_parallel_deterministic_internal`. -/
def exploreParDetLoop {S L : Type} [DecidableEq S] [LinearOrder S]
    (trans : S → List (L × S)) (workers : Nat) :
    Nat → List S → Finset S → Nat → Nat → Option (Nat × Nat)
  | 0, _, _, _, _ => none
  | _ + 1, [], _, states, transitions => some (states, transitions)
  | fuel + 1, s0 :: frontier0, visited, states, transitions =>
    let gc := levelExpand trans workers (s0 :: frontier0)
    let r := insertCandidates gc.2 visited states
    exploreParDetLoop trans workers fuel r.1 r.2.1 r.2.2 (transitions + gc.1)

/-- Mirrors `explore_parallel_deterministic_internal` over an initially
empty store (the `seed` parameter is unused by the Rust code). -/
def exploreParDet {S L : Type} [DecidableEq S] [LinearOrder S]
    (trans : S → List (L × S)) (init : S) (workers : Nat) (fuel : Nat) :
    Option (Nat × Nat) :=
  exploreParDetLoop trans (max workers 1) fuel [init] {init} 1 0

/-! ## Serial vs deterministic-parallel equivalence -/

/-- One LTS step: `b` is a successor state of `a`. -/
def stepRel {S L : Type} (trans : S → List (L × S)) (a b : S) : Prop :=
  b ∈ (trans a).map Prod.snd

/-- Reachability from the initial state. -/
def ReachT {S L : Type} (trans : S → List (L × S)) (init s : S) : Prop :=
  Relation.ReflTransGen (stepRel trans) init s

/-- What an exploration run reports: the number of reachable states and
the total transition count over the reachable states. -/
def ExploreResultOk {S L : Type} [DecidableEq S] (trans : S → List (L × S))
    (init : S) (st tr : Nat) : Prop :=
  ∃ V : Finset S, (∀ x, x ∈ V ↔ ReachT trans init x) ∧ st = V.card ∧
    tr = Finset.sum V fun s => (trans s).length

theorem dedupAdj_mem {α : Type} [DecidableEq α] :
    ∀ (l : List α) (y : α), y ∈ dedupAdj l ↔ y ∈ l := by
  intro l
  induction l with
  | nil => intro y; rw [dedupAdj]
  | cons x xs ih =>
    intro y
    cases xs with
    | nil => rw [dedupAdj]
    | cons z rest =>
      rw [dedupAdj]
      by_cases hxz : x = z
      · rw [if_pos hxz]
        subst hxz
        rw [ih y]
        constructor
        · intro h; exact List.mem_cons_of_mem _ h
        · intro h
          rcases List.mem_cons.mp h with rfl | h
          · exact List.mem_cons_self _ _
          · exact h
      · rw [if_neg hxz]
        constructor
        · intro h
          rcases List.mem_cons.mp h with rfl | h
          · exact List.mem_cons_self _ _
          · exact List.mem_cons_of_mem _ ((ih y).mp h)
        · intro h
          rcases List.mem_cons.mp h with rfl | h
          · exact List.mem_cons_self _ _
          · exact List.mem_cons_of_mem _ ((ih y).mpr h)

theorem dedupAdj_sorted_nodup {α : Type} [DecidableEq α] [LinearOrder α] :
    ∀ (l : List α), l.Pairwise (fun a b => a ≤ b) → (dedupAdj l).Nodup := by
  intro l
  induction l with
  | nil => intro _; rw [dedupAdj]; exact List.nodup_nil
  | cons x xs ih =>
    intro h
    rw [List.pairwise_cons] at h
    cases xs with
    | nil => rw [dedupAdj]; simp
    | cons z rest =>
      rw [dedupAdj]
      by_cases hxz : x = z
      · rw [if_pos hxz]
        exact ih h.2
      · rw [if_neg hxz]
        rw [List.nodup_cons]
        refine ⟨?_, ih h.2⟩
        intro hmem
        have hyl : x ∈ z :: rest := (dedupAdj_mem _ x).mp hmem
        have hxley : x ≤ z := h.1 z (List.mem_cons_self _ _)
        rcases List.mem_cons.mp hyl with rfl | hyl
        · exact hxz rfl
        · have hzley : z ≤ x := by
            have hx2 : x ≤ x := le_refl x
            have := (List.pairwise_cons.mp h.2).1 x hyl
            have hxx : x ≤ z := hxley
            -- from sortedness z ≤ every member of rest, and x is a member
            exact this
          exact hxz (le_antisymm hxley hzley)

theorem chunksOfAux_flatten {α : Type} (n : Nat) (hn : 1 ≤ n) :
    ∀ (fuel : Nat) (l : List α), l.length ≤ fuel →
      (chunksOfAux n fuel l).flatten = l := by
  intro fuel
  induction fuel with
  | zero =>
    intro l hl
    cases l with
    | nil => rfl
    | cons x xs => exact absurd hl (by simp)
  | succ f ih =>
    intro l hl
    cases l with
    | nil => rfl
    | cons x xs =>
      rw [show chunksOfAux n (f + 1) (x :: xs) =
          (x :: xs).take n :: chunksOfAux n f ((x :: xs).drop n) from rfl,
        List.flatten_cons]
      rw [ih ((x :: xs).drop n) (by
        have : ((x :: xs).drop n).length = (x :: xs).length - n := List.length_drop n _
        rw [this]
        have hlen : (x :: xs).length ≤ f + 1 := hl
        omega)]
      exact List.take_append_drop n (x :: xs)

theorem chunksOf_flatten {α : Type} (n : Nat) (hn : 1 ≤ n) (l : List α) :
    (chunksOf n l).flatten = l :=
  chunksOfAux_flatten n hn l.length l (le_refl _)

theorem foldl_add_length {S L : Type} (trans : S → List (L × S)) :
    ∀ (chunk : List S) (a : Nat),
      chunk.foldl (fun acc s => acc + (trans s).length) a =
        a + (chunk.map fun s => (trans s).length).sum := by
  intro chunk
  induction chunk with
  | nil => intro a; simp
  | cons s rest ih =>
    intro a
    rw [List.foldl_cons, ih, List.map_cons, List.sum_cons]
    omega

theorem card_union_fresh {S : Type} [DecidableEq S] (visited : Finset S)
    (fresh : List S) (hnodup : fresh.Nodup) (hout : ∀ t ∈ fresh, t ∉ visited) :
    (visited ∪ fresh.toFinset).card = visited.card + fresh.length := by
  rw [Finset.card_union_of_disjoint (by
    rw [Finset.disjoint_right]
    intro a ha
    exact hout a (List.mem_toFinset.mp ha))]
  rw [List.toFinset_card_of_nodup hnodup]

theorem insertNext_spec {S L : Type} [DecidableEq S] :
    ∀ (next : List (L × S)) (queue : List S) (visited : Finset S) (states : Nat),
    ∃ fresh : List S,
      insertNext next queue visited states =
        (queue ++ fresh, visited ∪ fresh.toFinset, states + fresh.length) ∧
      fresh.Nodup ∧ (∀ t ∈ fresh, t ∉ visited) ∧
      (∀ t ∈ fresh, ∃ p ∈ next, p.2 = t) ∧
      (∀ p ∈ next, p.2 ∈ visited ∪ fresh.toFinset) := by
  intro next
  induction next with
  | nil =>
    intro queue visited states
    refine ⟨[], by simp [insertNext], List.nodup_nil, by simp, by simp, by simp⟩
  | cons q rest ih =>
    intro queue visited states
    obtain ⟨l0, t⟩ := q
    by_cases ht : t ∈ visited
    · obtain ⟨fresh, heq, hnodup, hout, hsrc, hcov⟩ := ih queue visited states
      refine ⟨fresh, ?_, hnodup, hout, ?_, ?_⟩
      · rw [insertNext, if_pos ht]; exact heq
      · intro y hy
        obtain ⟨p, hp, hpy⟩ := hsrc y hy
        exact ⟨p, List.mem_cons_of_mem _ hp, hpy⟩
      · intro p hp
        rcases List.mem_cons.mp hp with rfl | hp
        · exact Finset.mem_union_left _ ht
        · exact hcov p hp
    · obtain ⟨fresh, heq, hnodup, hout, hsrc, hcov⟩ :=
        ih (queue ++ [t]) (insert t visited) (states + 1)
      refine ⟨t :: fresh, ?_, ?_, ?_, ?_, ?_⟩
      · rw [insertNext, if_neg ht, heq]
        refine congrArg₂ Prod.mk (by rw [List.append_assoc]; rfl) ?_
        refine congrArg₂ Prod.mk ?_ (by rw [List.length_cons]; omega)
        rw [List.toFinset_cons, Finset.insert_union, Finset.union_insert]
      · rw [List.nodup_cons]
        refine ⟨fun hmem => hout t hmem (Finset.mem_insert_self _ _), hnodup⟩
      · intro y hy
        rcases List.mem_cons.mp hy with rfl | hy
        · exact ht
        · intro hyv
          exact hout y hy (Finset.mem_insert_of_mem hyv)
      · intro y hy
        rcases List.mem_cons.mp hy with rfl | hy
        · exact ⟨(l0, y), List.mem_cons_self _ _, rfl⟩
        · obtain ⟨p, hp, hpy⟩ := hsrc y hy
          exact ⟨p, List.mem_cons_of_mem _ hp, hpy⟩
      · intro p hp
        rcases List.mem_cons.mp hp with rfl | hp
        · rw [List.toFinset_cons]
          exact Finset.mem_union_right _ (Finset.mem_insert_self _ _)
        · have := hcov p hp
          rw [Finset.insert_union] at this
          rw [List.toFinset_cons, Finset.union_insert]
          exact this

theorem insertCandidates_spec {S : Type} [DecidableEq S] :
    ∀ (cands : List S) (visited : Finset S) (states : Nat),
    ∃ fresh : List S,
      insertCandidates cands visited states =
        (fresh, visited ∪ fresh.toFinset, states + fresh.length) ∧
      fresh.Nodup ∧ (∀ t ∈ fresh, t ∉ visited) ∧
      (∀ t ∈ fresh, t ∈ cands) ∧
      (∀ c ∈ cands, c ∈ visited ∪ fresh.toFinset) := by
  intro cands
  induction cands with
  | nil =>
    intro visited states
    refine ⟨[], by simp [insertCandidates], List.nodup_nil, by simp, by simp, by simp⟩
  | cons c rest ih =>
    intro visited states
    by_cases hc : c ∈ visited
    · obtain ⟨fresh, heq, hnodup, hout, hsrc, hcov⟩ := ih visited states
      refine ⟨fresh, ?_, hnodup, hout, ?_, ?_⟩
      · rw [insertCandidates, if_pos hc]; exact heq
      · exact fun y hy => List.mem_cons_of_mem _ (hsrc y hy)
      · intro y hy
        rcases List.mem_cons.mp hy with rfl | hy
        · exact Finset.mem_union_left _ hc
        · exact hcov y hy
    · obtain ⟨fresh, heq, hnodup, hout, hsrc, hcov⟩ :=
        ih (insert c visited) (states + 1)
      refine ⟨c :: fresh, ?_, ?_, ?_, ?_, ?_⟩
      · rw [insertCandidates, if_neg hc, heq]
        refine congrArg₂ Prod.mk rfl ?_
        refine congrArg₂ Prod.mk ?_ (by rw [List.length_cons]; omega)
        rw [List.toFinset_cons, Finset.insert_union, Finset.union_insert]
      · rw [List.nodup_cons]
        exact ⟨fun hmem => hout c hmem (Finset.mem_insert_self _ _), hnodup⟩
      · intro y hy
        rcases List.mem_cons.mp hy with rfl | hy
        · exact hc
        · exact fun hyv => hout y hy (Finset.mem_insert_of_mem hyv)
      · intro y hy
        rcases List.mem_cons.mp hy with rfl | hy
        · exact List.mem_cons_self _ _
        · exact List.mem_cons_of_mem _ (hsrc y hy)
      · intro y hy
        rcases List.mem_cons.mp hy with rfl | hy
        · rw [List.toFinset_cons]
          exact Finset.mem_union_right _ (Finset.mem_insert_self _ _)
        · have := hcov y hy
          rw [Finset.insert_union] at this
          rw [List.toFinset_cons, Finset.union_insert]
          exact this

theorem sum_over_chunks {α : Type} (n : Nat) (hn : 1 ≤ n) (l : List α)
    (f : α → Nat) :
    ((chunksOf n l).map fun c => (c.map f).sum).sum = (l.map f).sum := by
  conv_rhs => rw [← chunksOf_flatten n hn l]
  rw [List.map_flatten, List.sum_flatten, List.map_map]
  rfl

theorem levelExpand_fst {S L : Type} [DecidableEq S] [LinearOrder S]
    (trans : S → List (L × S)) (workers : Nat) (batch : List S) :
    (levelExpand trans workers batch).1 =
      (batch.map fun s => (trans s).length).sum := by
  rw [levelExpand]
  dsimp only
  rw [List.map_map]
  have hmap : (Prod.fst ∘ expandChunk trans) =
      fun c : List S => ((c.map fun s => (trans s).length)).sum := by
    funext c
    rw [Function.comp_apply, expandChunk]
    exact (foldl_add_length trans c 0).trans (by omega)
  rw [hmap]
  exact sum_over_chunks _ (le_max_right _ 1) batch _

theorem levelExpand_snd_mem {S L : Type} [DecidableEq S] [LinearOrder S]
    (trans : S → List (L × S)) (workers : Nat) (batch : List S) (x : S) :
    x ∈ (levelExpand trans workers batch).2 ↔
      ∃ s ∈ batch, ∃ p ∈ trans s, p.2 = x := by
  rw [levelExpand]
  dsimp only
  rw [dedupAdj_mem, mem_sortByBool, List.mem_flatten]
  constructor
  · rintro ⟨c, hc, hx⟩
    rw [List.map_map] at hc
    obtain ⟨chunk, hchunk, hcx⟩ := List.mem_map.mp hc
    rw [Function.comp_apply, expandChunk] at hcx
    dsimp only at hcx
    subst hcx
    rw [dedupAdj_mem, mem_sortByBool, List.mem_flatMap] at hx
    obtain ⟨s, hs, hxs⟩ := hx
    obtain ⟨p, hp, hpx⟩ := List.mem_map.mp hxs
    refine ⟨s, ?_, p, hp, hpx⟩
    rw [← chunksOf_flatten (max (ceilDiv batch.length workers) 1)
      (le_max_right _ 1) batch, List.mem_flatten]
    exact ⟨chunk, hchunk, hs⟩
  · rintro ⟨s, hs, p, hp, hpx⟩
    rw [← chunksOf_flatten (max (ceilDiv batch.length workers) 1)
      (le_max_right _ 1) batch, List.mem_flatten] at hs
    obtain ⟨chunk, hchunk, hs⟩ := hs
    refine ⟨(expandChunk trans chunk).2, ?_, ?_⟩
    · rw [List.map_map]
      exact List.mem_map.mpr ⟨chunk, hchunk, rfl⟩
    · rw [expandChunk]
      dsimp only
      rw [dedupAdj_mem, mem_sortByBool, List.mem_flatMap]
      exact ⟨s, hs, List.mem_map.mpr ⟨p, hp, hpx⟩⟩

theorem levelExpand_snd_nodup {S L : Type} [DecidableEq S] [LinearOrder S]
    (trans : S → List (L × S)) (workers : Nat) (batch : List S) :
    (levelExpand trans workers batch).2.Nodup := by
  rw [levelExpand]
  dsimp only
  apply dedupAdj_sorted_nodup
  have := @sortByBool_sorted S
    (fun a b : S => decide (a ≤ b))
    (fun a b c hab hbc => by
      rw [decide_eq_true_eq] at hab hbc ⊢
      exact le_trans hab hbc)
    (fun a b => by
      rw [Bool.or_eq_true, decide_eq_true_eq, decide_eq_true_eq]
      exact le_total a b)
    (((chunksOf (max (ceilDiv batch.length workers) 1) batch).map
        (expandChunk trans)).map Prod.snd).flatten
  exact this.imp fun h => by rwa [decide_eq_true_eq] at h

theorem serialLoop_spec {S L : Type} [DecidableEq S]
    (trans : S → List (L × S)) (init : S) :
    ∀ (fuel : Nat) (queue : List S) (E visited : Finset S)
      (states transitions st tr : Nat),
      exploreSerialLoop trans fuel queue visited states transitions =
        some (st, tr) →
      visited = E ∪ queue.toFinset →
      (∀ s ∈ queue, s ∉ E) →
      queue.Nodup →
      states = visited.card →
      transitions = Finset.sum E (fun s => (trans s).length) →
      init ∈ visited →
      (∀ x ∈ visited, ReachT trans init x) →
      (∀ s ∈ E, ∀ p ∈ trans s, p.2 ∈ visited) →
      ExploreResultOk trans init st tr := by
  intro fuel
  induction fuel with
  | zero =>
    intro queue E visited states transitions st tr h
    cases h
  | succ f ih =>
    intro queue E visited states transitions st tr h hVE hQE hnodup hst htr
      hinit hreach hclosed
    cases queue with
    | nil =>
      rw [exploreSerialLoop] at h
      cases h
      rw [List.toFinset_nil, Finset.union_empty] at hVE
      subst hVE
      refine ⟨visited, fun x => ⟨hreach x, ?_⟩, hst, htr⟩
      intro hx
      induction hx with
      | refl => exact hinit
      | tail hab hbc ih2 =>
        obtain ⟨p, hp, hpc⟩ := List.mem_map.mp hbc
        exact hpc ▸ hclosed _ ih2 p hp
    | cons s rest =>
      rw [exploreSerialLoop] at h
      obtain ⟨fresh, heq, hfnodup, hfout, hfsrc, hfcov⟩ :=
        insertNext_spec (trans s) rest visited states
      rw [heq] at h
      dsimp only at h
      have hsv : s ∈ visited := by
        rw [hVE]
        exact Finset.mem_union_right _
          (List.mem_toFinset.mpr (List.mem_cons_self _ _))
      have hEsubv : E ⊆ visited := by
        rw [hVE]; exact Finset.subset_union_left
      have hrestv : ∀ x ∈ rest, x ∈ visited := by
        intro x hx
        rw [hVE]
        exact Finset.mem_union_right _
          (List.mem_toFinset.mpr (List.mem_cons_of_mem _ hx))
      obtain ⟨hsnr, hrnodup⟩ := List.nodup_cons.mp hnodup
      refine ih (rest ++ fresh) (insert s E) (visited ∪ fresh.toFinset)
        (states + fresh.length) (transitions + (trans s).length) st tr h
        ?_ ?_ ?_ ?_ ?_ ?_ ?_ ?_
      · refine Finset.ext fun a => ?_
        rw [hVE]
        simp only [Finset.mem_union, Finset.mem_insert, List.mem_toFinset,
          List.toFinset_cons, List.toFinset_append, Finset.mem_insert,
          List.mem_append, List.mem_toFinset]
        tauto
      · intro x hx
        rcases List.mem_append.mp hx with hx | hx
        · intro hmem
          rcases Finset.mem_insert.mp hmem with rfl | hmem
          · exact hsnr hx
          · exact hQE x (List.mem_cons_of_mem _ hx) hmem
        · intro hmem
          have hxnv := hfout x hx
          rcases Finset.mem_insert.mp hmem with rfl | hmem
          · exact hxnv hsv
          · exact hxnv (hEsubv hmem)
      · rw [List.nodup_append]
        exact ⟨hrnodup, hfnodup, fun x hx hxf => hfout x hxf (hrestv x hx)⟩
      · rw [card_union_fresh visited fresh hfnodup hfout, hst]
      · rw [Finset.sum_insert (hQE s (List.mem_cons_self _ _)), htr]
        omega
      · exact Finset.mem_union_left _ hinit
      · intro x hx
        rcases Finset.mem_union.mp hx with hx | hx
        · exact hreach x hx
        · obtain ⟨p, hp, hpx⟩ := hfsrc x (List.mem_toFinset.mp hx)
          exact Relation.ReflTransGen.tail (hreach s hsv)
            (hpx ▸ List.mem_map.mpr ⟨p, hp, rfl⟩)
      · intro x hx p hp
        rcases Finset.mem_insert.mp hx with rfl | hx
        · exact hfcov p hp
        · exact Finset.mem_union_left _ (hclosed x hx p hp)

theorem parLoop_spec {S L : Type} [DecidableEq S] [LinearOrder S]
    (trans : S → List (L × S)) (init : S) (workers : Nat) :
    ∀ (fuel : Nat) (frontier : List S) (E visited : Finset S)
      (states transitions st tr : Nat),
      exploreParDetLoop trans workers fuel frontier visited states transitions =
        some (st, tr) →
      visited = E ∪ frontier.toFinset →
      (∀ s ∈ frontier, s ∉ E) →
      frontier.Nodup →
      states = visited.card →
      transitions = Finset.sum E (fun s => (trans s).length) →
      init ∈ visited →
      (∀ x ∈ visited, ReachT trans init x) →
      (∀ s ∈ E, ∀ p ∈ trans s, p.2 ∈ visited) →
      ExploreResultOk trans init st tr := by
  intro fuel
  induction fuel with
  | zero =>
    intro frontier E visited states transitions st tr h
    cases h
  | succ f ih =>
    intro frontier E visited states transitions st tr h hVE hQE hnodup hst htr
      hinit hreach hclosed
    cases frontier with
    | nil =>
      rw [exploreParDetLoop] at h
      cases h
      rw [List.toFinset_nil, Finset.union_empty] at hVE
      subst hVE
      refine ⟨visited, fun x => ⟨hreach x, ?_⟩, hst, htr⟩
      intro hx
      induction hx with
      | refl => exact hinit
      | tail hab hbc ih2 =>
        obtain ⟨p, hp, hpc⟩ := List.mem_map.mp hbc
        exact hpc ▸ hclosed _ ih2 p hp
    | cons s0 frontier0 =>
      rw [exploreParDetLoop] at h
      obtain ⟨fresh, heq, hfnodup, hfout, hfsrc, hfcov⟩ :=
        insertCandidates_spec (levelExpand trans workers (s0 :: frontier0)).2
          visited states
      rw [heq] at h
      dsimp only at h
      have hbatchv : ∀ x ∈ s0 :: frontier0, x ∈ visited := by
        intro x hx
        rw [hVE]
        exact Finset.mem_union_right _ (List.mem_toFinset.mpr hx)
      have hEsubv : E ⊆ visited := by
        rw [hVE]; exact Finset.subset_union_left
      have hdisj : Disjoint E (s0 :: frontier0).toFinset := by
        rw [Finset.disjoint_right]
        intro a ha
        exact hQE a (List.mem_toFinset.mp ha)
      refine ih fresh (E ∪ (s0 :: frontier0).toFinset)
        (visited ∪ fresh.toFinset) (states + fresh.length)
        (transitions + (levelExpand trans workers (s0 :: frontier0)).1) st tr h
        ?_ ?_ hfnodup ?_ ?_ ?_ ?_ ?_
      · rw [hVE]
      · intro x hx hmem
        have hxnv := hfout x hx
        rw [hVE] at hxnv
        exact hxnv hmem
      · rw [card_union_fresh visited fresh hfnodup hfout, hst]
      · rw [Finset.sum_union hdisj, htr,
          List.sum_toFinset _ hnodup,
          levelExpand_fst trans workers (s0 :: frontier0)]
      · exact Finset.mem_union_left _ hinit
      · intro x hx
        rcases Finset.mem_union.mp hx with hx | hx
        · exact hreach x hx
        · have hcand := hfsrc x (List.mem_toFinset.mp hx)
          obtain ⟨s, hs, p, hp, hpx⟩ :=
            (levelExpand_snd_mem trans workers (s0 :: frontier0) x).mp hcand
          exact Relation.ReflTransGen.tail (hreach s (hbatchv s hs))
            (hpx ▸ List.mem_map.mpr ⟨p, hp, rfl⟩)
      · intro x hx p hp
        rcases Finset.mem_union.mp hx with hx | hx
        · exact Finset.mem_union_left _ (hclosed x hx p hp)
        · refine hfcov p.2 ?_
          exact (levelExpand_snd_mem trans workers (s0 :: frontier0) p.2).mpr
            ⟨x, List.mem_toFinset.mp hx, p, hp, rfl⟩

theorem exploreSerial_ok {S L : Type} [DecidableEq S]
    (trans : S → List (L × S)) (init : S) (fuel : Nat) (st tr : Nat)
    (h : exploreSerial trans init fuel = some (st, tr)) :
    ExploreResultOk trans init st tr := by
  refine serialLoop_spec trans init fuel [init] ∅ {init} 1 0 st tr h
    (by simp) (by simp) (by simp) (by simp) (by simp)
    (Finset.mem_singleton_self init) ?_ (by simp)
  intro x hx
  rw [Finset.mem_singleton] at hx
  subst hx
  exact Relation.ReflTransGen.refl

theorem exploreParDet_ok {S L : Type} [DecidableEq S] [LinearOrder S]
    (trans : S → List (L × S)) (init : S) (workers fuel : Nat) (st tr : Nat)
    (h : exploreParDet trans init workers fuel = some (st, tr)) :
    ExploreResultOk trans init st tr := by
  refine parLoop_spec trans init (max workers 1) fuel [init] ∅ {init} 1 0 st tr h
    (by simp) (by simp) (by simp) (by simp) (by simp)
    (Finset.mem_singleton_self init) ?_ (by simp)
  intro x hx
  rw [Finset.mem_singleton] at hx
  subst hx
  exact Relation.ReflTransGen.refl

theorem exploreResult_unique {S L : Type} [DecidableEq S]
    (trans : S → List (L × S)) (init : S) {st1 tr1 st2 tr2 : Nat}
    (h1 : ExploreResultOk trans init st1 tr1)
    (h2 : ExploreResultOk trans init st2 tr2) : st1 = st2 ∧ tr1 = tr2 := by
  obtain ⟨V1, hm1, hs1, ht1⟩ := h1
  obtain ⟨V2, hm2, hs2, ht2⟩ := h2
  have hV : V1 = V2 := Finset.ext fun a => (hm1 a).trans (hm2 a).symm
  subst hV
  exact ⟨hs1.trans hs2.symm, ht1.trans ht2.symm⟩

/-! ## Hybrid state store (`store_hybrid.rs`)

The disk layer (`DiskStateStore`) performs real file I/O; it is
abstracted as `DiskOps`: an open operation and a fallible insert, both
of which the environment may fail with an I/O error.  The in-memory
`HashSet` is a `Finset`.  The control flow of `insert` and
`activate_spill_if_needed` is modelled statement by statement; a Rust
`?` early-return keeps all mutations made so far (the receiver is
`&mut self`). -/

/-- Abstract disk-store interface with environment-chosen failures. -/
structure DiskOps (S D E : Type) where
  openStore : Except E D
  insertD : D → S → Except E (Bool × D)

/-- Mirrors the semantic fields of `HybridStateStore`; the `HashSet` is
a duplicate-free list (insertion only adds absent elements). -/
structure HybridStateStore (S D : Type) [DecidableEq S] where
  in_memory : List S
  spill_threshold : Nat
  spill_store : Option D

/-- The copy loop of `activate_spill_if_needed`
(`for state in &self.in_memory { spill.insert(state.clone())?; }`). -/
def spillCopy {S D E : Type} (ops : DiskOps S D E) : List S → D → Except E D
  | [], d => .ok d
  | s :: rest, d =>
    match ops.insertD d s with
    | .error e => .error e
    | .ok (_, d2) => spillCopy ops rest d2

/-- Mirrors `HybridStateStore::activate_spill_if_needed`. -/
def activateSpillIfNeeded {S D E : Type} [DecidableEq S] (ops : DiskOps S D E)
    (st : HybridStateStore S D) : Except E (HybridStateStore S D) :=
  if st.spill_store.isSome ∨ st.in_memory.length ≤ st.spill_threshold then .ok st
  else
    match ops.openStore with
    | .error e => .error e
    | .ok d0 =>
      match spillCopy ops st.in_memory d0 with
      | .error e => .error e
      | .ok d1 => .ok { st with spill_store := some d1 }

/-- Mirrors `HybridStateStore::insert` (`StateStore::insert`).  Returns
the `io::Result<bool>` together with the store as left behind by the
call (on error, exactly the mutations made before the `?`). -/
def hybridInsert {S D E : Type} [DecidableEq S] (ops : DiskOps S D E)
    (st : HybridStateStore S D) (state : S) :
    Except E Bool × HybridStateStore S D :=
  if state ∈ st.in_memory then (.ok false, st)
  else
    let st1 : HybridStateStore S D :=
      { st with in_memory := st.in_memory ++ [state] }
    let shouldSpill := st1.spill_threshold < st1.in_memory.length
    let hadSpill := st1.spill_store.isSome
    match activateSpillIfNeeded ops st1 with
    | .error e => (.error e, st1)
    | .ok st2 =>
      if shouldSpill ∧ hadSpill then
        match st2.spill_store with
        | some d =>
          match ops.insertD d state with
          | .error e => (.error e, st2)
          | .ok (_, d2) => (.ok true, { st2 with spill_store := some d2 })
        | none => (.ok true, st2)
      else (.ok true, st2)

/-- Mirrors `HybridStateStore::len`. -/
def hybridLen {S D : Type} [DecidableEq S] (st : HybridStateStore S D) : Nat :=
  st.in_memory.length

/-! ## Result types (`types.rs`, `check.rs`) -/

/-- Mirrors `Status`. -/
inductive Status where
  | Pass
  | Fail
  | Unsupported
  | Timeout
  | OutOfMemory
  | Error
deriving DecidableEq, Repr

/-- Mirrors `ReasonKind`. -/
inductive ReasonKind where
  | NotImplemented
  | UnsupportedSyntax
  | InvalidInput
  | InternalError
  | Timeout
  | OutOfMemory
deriving DecidableEq, Repr

/-- Mirrors `Reason`. -/
structure Reason where
  kind : ReasonKind
  message : Option String
deriving DecidableEq, Repr

/-- Mirrors `CounterexampleType`. -/
inductive CounterexampleType where
  | Trace
deriving DecidableEq, Repr

/-- Mirrors `CounterexampleEvent`. -/
structure CounterexampleEvent where
  label : String
deriving DecidableEq, Repr

/-- Mirrors `Counterexample`. -/
structure Counterexample where
  kind : CounterexampleType
  events : List CounterexampleEvent
  is_minimized : Bool
  tags : List String
  source_spans : List SourceSpan
deriving DecidableEq, Repr

/-- Mirrors `Stats`. -/
structure Stats where
  states : Option Nat
  transitions : Option Nat
deriving DecidableEq, Repr

/-- Mirrors `check.rs` `RefinementModel`. -/
inductive RefinementModel where
  | T
  | F
  | FD
deriving DecidableEq, Repr

/-- Mirrors `RefinementModel::as_str`. -/
def RefinementModel.asStr : RefinementModel → String
  | .T => "T"
  | .F => "F"
  | .FD => "FD"

/-- Mirrors `CheckCommand`. -/
inductive CheckCommand where
  | Typecheck
  | Check
  | Refine
deriving DecidableEq, Repr

/-- Mirrors `CheckRequest`. -/
structure CheckRequest where
  command : CheckCommand
  model : Option RefinementModel
  target : Option String
deriving DecidableEq, Repr

/-- Mirrors `CheckResult`. -/
structure CheckResult where
  name : String
  model : Option String
  target : Option String
  status : Status
  reason : Option Reason
  counterexample : Option Counterexample
  stats : Option Stats
deriving DecidableEq, Repr

/-! ## Counterexample spans (`counterexample_span.rs`) -/

/-- Mirrors `module_counterexample_spans`. -/
def moduleCounterexampleSpans (module : Module) : List SourceSpan :=
  match module.entry with
  | some entry => [entry.espan]
  | none =>
    match module.declarations with
    | decl :: _ => [decl.expr.espan]
    | [] => []

/-- The sort key comparison of `refinement_counterexample_spans`. -/
def spanLe (a b : SourceSpan) : Bool :=
  if a.path = b.path then
    if a.start_line = b.start_line then
      if a.start_col = b.start_col then
        if a.end_line = b.end_line then decide (a.end_col ≤ b.end_col)
        else decide (a.end_line < b.end_line)
      else decide (a.start_col < b.start_col)
    else decide (a.start_line < b.start_line)
  else decide (strLt a.path b.path)

/-- Mirrors `refinement_counterexample_spans`. -/
def refinementCounterexampleSpans (spec : Module) (impl_ : Module) :
    List SourceSpan :=
  dedupAdj (sortByBool spanLe (moduleCounterexampleSpans spec ++ moduleCounterexampleSpans impl_))

/-! ## Refinement engine (`check_refine.rs`)

All engine functions are parameterized by the two providers'
transition functions (`Option`-valued via the transition fuel), their
initial states, a τ-closure BFS fuel `cfuel` and a node BFS fuel
`bfuel`; a `none` result models a Rust run that does not return. -/

/-- A transition function of a compiled provider. -/
def TransFun : Type :=
  CspmState → Option (List (String × CspmState))

/-- Mirrors `RefinementFailure`. -/
structure RefinementFailure where
  trace : List String
  tags : List String
deriving DecidableEq, Repr

/-- Mirrors `RefinementOutcome`. -/
structure RefinementOutcome where
  refines : Bool
  failure : Option RefinementFailure
  stats : Stats
  diagnostic_tags : List String
deriving DecidableEq, Repr

/-- Mirrors `NodeKey`. -/
structure NodeKey where
  impl_sig : List (List Nat)
  spec_sig : List (List Nat)
deriving DecidableEq, Repr

/-- Mirrors `Closure`. -/
structure Closure where
  states : List CspmState
  sig : List (List Nat)
deriving DecidableEq, Repr

/-- Mirrors `ProviderSide`. -/
inductive ProviderSide where
  | Spec
  | Impl
deriving DecidableEq, Repr

/-- Mirrors `NodeAction`. -/
inductive NodeAction where
  | Continue
  | Prune
  | Fail (f : RefinementFailure)
deriving DecidableEq, Repr

/-- Insert-or-replace in an association list (`HashMap::insert`). -/
def assocInsert {α β : Type} [DecidableEq α] (key : α) (v : β) :
    List (α × β) → List (α × β)
  | [] => [(key, v)]
  | (k, w) :: rest =>
    if k = key then (k, v) :: rest else (k, w) :: assocInsert key v rest

/-- The seed-insertion loop of `tau_closure` (`visited.insert(seed)`). -/
def tauSeed : List CspmState → List CspmState → List CspmState →
    List CspmState × List CspmState
  | [], queue, visited => (queue, visited)
  | s :: rest, queue, visited =>
    if s ∈ visited then tauSeed rest queue visited
    else tauSeed rest (queue ++ [s]) (visited ++ [s])

/-- The successor-insertion step of the `tau_closure` BFS body. -/
def tauPush : List (String × CspmState) → List CspmState → List CspmState →
    List CspmState × List CspmState
  | [], queue, visited => (queue, visited)
  | (label, next) :: rest, queue, visited =>
    if label ≠ "tau" then tauPush rest queue visited
    else if next ∈ visited then tauPush rest queue visited
    else tauPush rest (queue ++ [next]) (visited ++ [next])

/-- The BFS loop of `tau_closure`. -/
def tauClosureLoop (trans : TransFun) :
    Nat → List CspmState → List CspmState → Option (List CspmState)
  | 0, _, _ => none
  | _ + 1, [], visited => some visited
  | fuel + 1, s :: queue, visited =>
    match trans s with
    | none => none
    | some ts =>
      let step := tauPush ts queue visited
      tauClosureLoop trans fuel step.1 step.2

/-- Mirrors `tau_closure`: reflexive-transitive closure along τ edges,
canonicalized by sorting on the encoded bytes. -/
def tauClosure (trans : TransFun) (cfuel : Nat) (seeds : List CspmState) :
    Option Closure :=
  let start := tauSeed seeds [] []
  match tauClosureLoop trans cfuel start.1 start.2 with
  | none => none
  | some visited =>
    let pairs := sortByBool (fun a b => decide (a.1 ≤ b.1))
      (visited.map fun s => (encode s, s))
    some { sig := pairs.map Prod.fst, states := pairs.map Prod.snd }

/-- The state loop of `enabled_visible_labels` (collects non-τ labels
into a `BTreeSet`). -/
def enabledLoop (trans : TransFun) :
    List CspmState → List String → Option (List String)
  | [], acc => some acc
  | s :: rest, acc =>
    match trans s with
    | none => none
    | some ts =>
      enabledLoop trans rest
        (ts.foldl (fun a p => if p.1 = "tau" then a else setInsert p.1 a) acc)

/-- Mirrors `enabled_visible_labels`. -/
def enabledVisibleLabels (trans : TransFun) (states : List CspmState) :
    Option (List String) :=
  enabledLoop trans states []

/-- The seed collection of `next_by_label`. -/
def labelSeeds (trans : TransFun) (label : String) :
    List CspmState → Option (List CspmState)
  | [] => some []
  | s :: rest =>
    match trans s with
    | none => none
    | some ts =>
      match labelSeeds trans label rest with
      | none => none
      | some tail => some ((ts.filter fun p => p.1 = label).map Prod.snd ++ tail)

/-- Mirrors `next_by_label`. -/
def nextByLabel (trans : TransFun) (cfuel : Nat)
    (fromClosure : List CspmState) (label : String) : Option Closure :=
  match labelSeeds trans label fromClosure with
  | none => none
  | some seeds => tauClosure trans cfuel seeds

/-- Mirrors `reconstruct_trace`'s predecessor chase; the fuel
`pred.length + 1` is enough for the acyclic chains the BFS builds. -/
def reconstructLoop (pred : List (NodeKey × (NodeKey × String))) :
    Nat → NodeKey → List String → List String
  | 0, _, acc => acc
  | fuel + 1, cur, acc =>
    match assocLookup cur pred with
    | none => acc
    | some (prev, label) => reconstructLoop pred fuel prev (acc ++ [label])

/-- Mirrors `reconstruct_trace`. -/
def reconstructTrace (pred : List (NodeKey × (NodeKey × String)))
    (to_ : NodeKey) : List String :=
  (reconstructLoop pred (pred.length + 1) to_ []).reverse

/-- Mirrors `is_stable`: no outgoing τ transition. -/
def isStable (trans : TransFun) (s : CspmState) : Option Bool :=
  match trans s with
  | none => none
  | some ts => some (ts.all fun p => p.1 ≠ "tau")

/-- Mirrors `offered_visible_labels`. -/
def offeredVisibleLabels (trans : TransFun) (s : CspmState) :
    Option (List String) :=
  match trans s with
  | none => none
  | some ts =>
    some (ts.foldl (fun a p => if p.1 = "tau" then a else setInsert p.1 a) [])

/-- Mirrors `stable_offer_sets`. -/
def stableOfferSets (trans : TransFun) :
    List CspmState → Option (List (List String))
  | [] => some []
  | s :: rest =>
    match isStable trans s with
    | none => none
    | some false => stableOfferSets trans rest
    | some true =>
      match offeredVisibleLabels trans s with
      | none => none
      | some offer =>
        match stableOfferSets trans rest with
        | none => none
        | some os => some (offer :: os)

/-! ## Divergence detection (`closure_has_tau_cycle`) -/

/-- Mirrors `tau_successor_indices`: the indices (inside the closure) of
the τ successors of a state; successors outside the closure are skipped. -/
def tauSuccessorIndices (trans : TransFun)
    (indexPairs : List (CspmState × Nat)) (s : CspmState) : Option (List Nat) :=
  match trans s with
  | none => none
  | some ts =>
    some ((ts.filter fun p => p.1 = "tau").filterMap fun p =>
      assocLookup p.2 indexPairs)

/-- One run of the iterative three-color DFS (`while let Some(frame)`),
over the precomputed adjacency.  Colors: 0 white, 1 gray, 2 black; the
stack holds `(node, cursor)` frames.  The fuel is an upper bound on the
loop iterations, chosen large enough that it cannot run out (each
iteration either pops a frame or advances a cursor). -/
def dfsStep (adj : List (List Nat)) :
    Nat → List (Nat × Nat) → List Nat → Bool × List Nat
  | 0, _, colors => (false, colors)
  | _ + 1, [], colors => (false, colors)
  | fuel + 1, (node, cursor) :: stack, colors =>
    let neighbors := adj.getD node []
    if cursor ≥ neighbors.length then
      dfsStep adj fuel stack (colors.set node 2)
    else
      let nxt := neighbors.getD cursor 0
      match colors.getD nxt 0 with
      | 0 => dfsStep adj fuel ((nxt, 0) :: (node, cursor + 1) :: stack)
          (colors.set nxt 1)
      | 1 => (true, colors)
      | _ => dfsStep adj fuel ((node, cursor + 1) :: stack) colors

/-- The `for start in 0..len` loop around the DFS. -/
def dfsOuter (adj : List (List Nat)) (fuel : Nat) :
    List Nat → List Nat → Bool
  | [], _ => false
  | start :: rest, colors =>
    if colors.getD start 0 ≠ 0 then dfsOuter adj fuel rest colors
    else
      let r := dfsStep adj fuel [(start, 0)] (colors.set start 1)
      if r.1 then true else dfsOuter adj fuel rest r.2

/-- Mirrors `closure_has_tau_cycle`: the τ-induced subgraph of the
closure contains a cycle.  The adjacency is precomputed (the Rust code
computes it per pushed frame; `transitions` is pure, so the values
agree). -/
def closureHasTauCycle (trans : TransFun) (closureStates : List CspmState) :
    Option Bool :=
  if closureStates.isEmpty then some false
  else
    let indexPairs := closureStates.enum.map fun p => (p.2, p.1)
    match optionTraverse (tauSuccessorIndices trans indexPairs) closureStates with
    | none => none
    | some adj =>
      let n := closureStates.length
      some (dfsOuter adj (2 * n + (adj.map List.length).sum + 2)
        (List.range n) (List.replicate n 0))

/-! ## Refinement caches -/

/-- Mirrors `NextClosureCache`; the `HashMap<ProviderSide, _>` is the
pair of per-side tables. -/
structure NextClosureCache where
  specEntries : List (List (List Nat) × List (String × Closure))
  implEntries : List (List (List Nat) × List (String × Closure))
  hits : Nat
  misses : Nat
deriving DecidableEq, Repr

/-- The empty cache (`Default`). -/
def NextClosureCache.empty : NextClosureCache :=
  { specEntries := [], implEntries := [], hits := 0, misses := 0 }

/-- Per-side access. -/
def NextClosureCache.sideEntries (cache : NextClosureCache) :
    ProviderSide → List (List (List Nat) × List (String × Closure))
  | .Spec => cache.specEntries
  | .Impl => cache.implEntries

/-- Per-side update. -/
def NextClosureCache.setSideEntries (cache : NextClosureCache)
    (side : ProviderSide)
    (entries : List (List (List Nat) × List (String × Closure))) :
    NextClosureCache :=
  match side with
  | .Spec => { cache with specEntries := entries }
  | .Impl => { cache with implEntries := entries }

/-- Mirrors `NextClosureCache::next_by_label`. -/
def cacheNextByLabel (cache : NextClosureCache) (side : ProviderSide)
    (trans : TransFun) (cfuel : Nat) (fromClosure : Closure) (label : String) :
    Option (Closure × NextClosureCache) :=
  match assocLookup fromClosure.sig (cache.sideEntries side) with
  | some byLabel =>
    match assocLookup label byLabel with
    | some cached => some (cached, { cache with hits := cache.hits + 1 })
    | none =>
      match nextByLabel trans cfuel fromClosure.states label with
      | none => none
      | some computed =>
        some (computed,
          ({ cache with misses := cache.misses + 1 }).setSideEntries side
            (assocInsert fromClosure.sig (assocInsert label computed byLabel)
              (cache.sideEntries side)))
  | none =>
    match nextByLabel trans cfuel fromClosure.states label with
    | none => none
    | some computed =>
      some (computed,
        ({ cache with misses := cache.misses + 1 }).setSideEntries side
          (assocInsert fromClosure.sig (assocInsert label computed [])
            (cache.sideEntries side)))

/-- Mirrors `DivergenceCache`. -/
structure DivergenceCache where
  specEntries : List (List (List Nat) × Bool)
  implEntries : List (List (List Nat) × Bool)
  hits : Nat
  misses : Nat
deriving DecidableEq, Repr

/-- The empty divergence cache. -/
def DivergenceCache.empty : DivergenceCache :=
  { specEntries := [], implEntries := [], hits := 0, misses := 0 }

/-- Per-side access. -/
def DivergenceCache.sideEntries (cache : DivergenceCache) :
    ProviderSide → List (List (List Nat) × Bool)
  | .Spec => cache.specEntries
  | .Impl => cache.implEntries

/-- Per-side update. -/
def DivergenceCache.setSideEntries (cache : DivergenceCache)
    (side : ProviderSide) (entries : List (List (List Nat) × Bool)) :
    DivergenceCache :=
  match side with
  | .Spec => { cache with specEntries := entries }
  | .Impl => { cache with implEntries := entries }

/-- Mirrors `DivergenceCache::has_tau_cycle`. -/
def cacheHasTauCycle (cache : DivergenceCache) (side : ProviderSide)
    (closureSig : List (List Nat)) (trans : TransFun)
    (closureStates : List CspmState) : Option (Bool × DivergenceCache) :=
  match assocLookup closureSig (cache.sideEntries side) with
  | some cached => some (cached, { cache with hits := cache.hits + 1 })
  | none =>
    match closureHasTauCycle trans closureStates with
    | none => none
    | some computed =>
      some (computed,
        ({ cache with misses := cache.misses + 1 }).setSideEntries side
          (assocInsert closureSig computed (cache.sideEntries side)))

/-! ## Refinement BFS (`bfs_refinement`) -/

/-- The mutable context of the BFS loop: work queue, visited node keys,
predecessor map, the two counters and the optional next-closure cache. -/
structure BfsCtx where
  queue : List (NodeKey × Closure × Closure)
  visited : List NodeKey
  pred : List (NodeKey × (NodeKey × String))
  statesCount : Nat
  transitionsCount : Nat
  cache : Option NextClosureCache
deriving Repr

/-- Compute a next closure through the optional cache, as the BFS body
does on each side. -/
def nextClosureStep (cache? : Option NextClosureCache) (side : ProviderSide)
    (trans : TransFun) (cfuel : Nat) (c : Closure) (label : String) :
    Option (Closure × Option NextClosureCache) :=
  match cache? with
  | some cache =>
    match cacheNextByLabel cache side trans cfuel c label with
    | none => none
    | some (cl, cache2) => some (cl, some cache2)
  | none =>
    match nextByLabel trans cfuel c.states label with
    | none => none
    | some cl => some (cl, none)

/-- The `for label in labels` body of the BFS: compute both next
closures, fail with `trace_mismatch` when the spec cannot follow,
otherwise enqueue the product node when new.  `Sum.inl` is the early
`return` of the Rust loop (carrying the context for the cache state at
that point). -/
def labelLoop (transS transI : TransFun) (cfuel : Nat) (nodeKey : NodeKey)
    (implC specC : Closure) :
    List String → BfsCtx → Option (Sum (RefinementOutcome × BfsCtx) BfsCtx)
  | [], ctx => some (Sum.inr ctx)
  | label :: rest, ctx =>
    let ctx0 := { ctx with transitionsCount := ctx.transitionsCount + 1 }
    match nextClosureStep ctx0.cache .Impl transI cfuel implC label with
    | none => none
    | some (implNext, cache1) =>
      match nextClosureStep cache1 .Spec transS cfuel specC label with
      | none => none
      | some (specNext, cache2) =>
        let ctx1 := { ctx0 with cache := cache2 }
        if specNext.states.isEmpty then
          some (Sum.inl
            ({ refines := false
               failure := some
                 { trace := reconstructTrace ctx1.pred nodeKey ++ [label]
                   tags := ["trace_mismatch"] }
               stats :=
                 { states := some ctx1.statesCount
                   transitions := some ctx1.transitionsCount }
               diagnostic_tags := [] }, ctx1))
        else
          let nextKey : NodeKey :=
            { impl_sig := implNext.sig, spec_sig := specNext.sig }
          if nextKey ∈ ctx1.visited then
            labelLoop transS transI cfuel nodeKey implC specC rest ctx1
          else
            labelLoop transS transI cfuel nodeKey implC specC rest
              { ctx1 with
                visited := ctx1.visited ++ [nextKey]
                pred := ctx1.pred ++ [(nextKey, (nodeKey, label))]
                queue := ctx1.queue ++ [(nextKey, implNext, specNext)]
                statesCount := ctx1.statesCount + 1 }

/-- The node loop of `bfs_refinement`, generic in the stateful
model-specific node predicate (the Rust closure together with the
locals it captures). -/
def bfsLoop {σ : Type} (transS transI : TransFun) (cfuel : Nat)
    (nodeCheck : σ → NodeKey → List CspmState → List CspmState →
      List (NodeKey × (NodeKey × String)) → Option (NodeAction × σ)) :
    Nat → BfsCtx → σ → Option (RefinementOutcome × σ × Option NextClosureCache)
  | 0, _, _ => none
  | fuel + 1, ctx, st =>
    match ctx.queue with
    | [] =>
      some
        ({ refines := true, failure := none
           stats :=
             { states := some ctx.statesCount
               transitions := some ctx.transitionsCount }
           diagnostic_tags := [] }, st, ctx.cache)
    | (nodeKey, implC, specC) :: queueRest =>
      let ctx1 := { ctx with queue := queueRest }
      match nodeCheck st nodeKey implC.states specC.states ctx1.pred with
      | none => none
      | some (action, st2) =>
        match action with
        | .Fail failure =>
          some
            ({ refines := false, failure := some failure
               stats :=
                 { states := some ctx1.statesCount
                   transitions := some ctx1.transitionsCount }
               diagnostic_tags := [] }, st2, ctx1.cache)
        | .Prune => bfsLoop transS transI cfuel nodeCheck fuel ctx1 st2
        | .Continue =>
          match enabledVisibleLabels transI implC.states with
          | none => none
          | some labels =>
            match labelLoop transS transI cfuel nodeKey implC specC labels ctx1 with
            | none => none
            | some (Sum.inl (outcome, ctx2)) => some (outcome, st2, ctx2.cache)
            | some (Sum.inr ctx2) =>
              bfsLoop transS transI cfuel nodeCheck fuel ctx2 st2

/-- Mirrors `bfs_refinement`: seed the product of the two initial
τ-closures and run the node loop. -/
def bfsRefinement {σ : Type} (transS transI : TransFun)
    (initS initI : CspmState) (cfuel bfuel : Nat)
    (nodeCheck : σ → NodeKey → List CspmState → List CspmState →
      List (NodeKey × (NodeKey × String)) → Option (NodeAction × σ))
    (cache0 : Option NextClosureCache) (st0 : σ) :
    Option (RefinementOutcome × σ × Option NextClosureCache) :=
  match tauClosure transI cfuel [initI] with
  | none => none
  | some impl0 =>
    match tauClosure transS cfuel [initS] with
    | none => none
    | some spec0 =>
      let initialKey : NodeKey := { impl_sig := impl0.sig, spec_sig := spec0.sig }
      bfsLoop transS transI cfuel nodeCheck bfuel
        { queue := [(initialKey, impl0, spec0)]
          visited := [initialKey]
          pred := []
          statesCount := 1
          transitionsCount := 0
          cache := cache0 } st0

/-! ## The three model predicates -/

/-- Mirrors `refusal_mismatch_tags`. -/
def firstRefuse : List (List String) → List String → Option String
  | [], _ => none
  | offer :: rest, implOffer =>
    match offer.filter fun l => decide (l ∉ implOffer) with
    | [] => firstRefuse rest implOffer
    | l :: _ => some l

/-- Mirrors `refusal_mismatch_tags`: the `refusal_mismatch` tag plus a
`refuse:<label>` witness from the first uncovered spec offer. -/
def refusalMismatchTags (specStableOffers : List (List String))
    (implOffer : List String) : List String :=
  "refusal_mismatch" ::
    (match firstRefuse specStableOffers implOffer with
     | none => []
     | some l => ["refuse:" ++ l])

/-- The stable-failures node check shared verbatim by
`failures_includes` and the F part of `failures_divergences_includes`:
every stable impl state's offer must cover some stable spec offer. -/
def refusalCheckLoop (transS transI : TransFun)
    (pred : List (NodeKey × (NodeKey × String))) (nodeKey : NodeKey)
    (specStableOffers : List (List String)) :
    List CspmState → Option NodeAction
  | [] => some .Continue
  | implState :: rest =>
    match isStable transI implState with
    | none => none
    | some false => refusalCheckLoop transS transI pred nodeKey specStableOffers rest
    | some true =>
      match offeredVisibleLabels transI implState with
      | none => none
      | some implOffer =>
        if specStableOffers.any fun specOffer =>
            specOffer.all fun l => decide (l ∈ implOffer) then
          refusalCheckLoop transS transI pred nodeKey specStableOffers rest
        else
          some (.Fail
            { trace := reconstructTrace pred nodeKey
              tags := refusalMismatchTags specStableOffers implOffer })

/-- The full F-model node predicate body. -/
def refusalCheck (transS transI : TransFun)
    (nodeKey : NodeKey) (implStates specStates : List CspmState)
    (pred : List (NodeKey × (NodeKey × String))) : Option NodeAction :=
  match stableOfferSets transS specStates with
  | none => none
  | some specStableOffers =>
    refusalCheckLoop transS transI pred nodeKey specStableOffers implStates

/-- Mirrors `trace_includes`. -/
def traceIncludes (transS transI : TransFun) (initS initI : CspmState)
    (cfuel bfuel : Nat) : Option RefinementOutcome :=
  match @bfsRefinement Unit transS transI initS initI cfuel bfuel
      (fun _ _ _ _ _ => some (.Continue, ())) none () with
  | none => none
  | some (outcome, _, _) => some outcome

/-- Mirrors `failures_includes`. -/
def failuresIncludes (transS transI : TransFun) (initS initI : CspmState)
    (cfuel bfuel : Nat) : Option RefinementOutcome :=
  match @bfsRefinement Unit transS transI initS initI cfuel bfuel
      (fun _ nodeKey implStates specStates pred =>
        match refusalCheck transS transI nodeKey implStates specStates pred with
        | none => none
        | some action => some (action, ()))
      none () with
  | none => none
  | some (outcome, _, _) => some outcome

/-- The locals the FD node closure mutates. -/
structure FdState where
  divCache : DivergenceCache
  divergenceChecks : Nat
  divergencePrunes : Nat
  implClosureMax : Nat
  specClosureMax : Nat
deriving Repr

/-- The FD node predicate (the closure body inside
`failures_divergences_includes`). -/
def fdNodeCheck (transS transI : TransFun) (st : FdState) (nodeKey : NodeKey)
    (implStates specStates : List CspmState)
    (pred : List (NodeKey × (NodeKey × String))) :
    Option (NodeAction × FdState) :=
  let st :=
    { st with
      implClosureMax := max st.implClosureMax implStates.length
      specClosureMax := max st.specClosureMax specStates.length
      divergenceChecks := st.divergenceChecks + 2 }
  match cacheHasTauCycle st.divCache .Spec nodeKey.spec_sig transS specStates with
  | none => none
  | some (specDiverges, dc1) =>
    match cacheHasTauCycle dc1 .Impl nodeKey.impl_sig transI implStates with
    | none => none
    | some (implDiverges, dc2) =>
      let st := { st with divCache := dc2 }
      if implDiverges ∧ ¬specDiverges then
        some (.Fail
          { trace := reconstructTrace pred nodeKey ++ ["tau"]
            tags := ["divergence_mismatch", "divergence"] }, st)
      else if specDiverges then
        some (.Prune, { st with divergencePrunes := st.divergencePrunes + 1 })
      else
        match refusalCheck transS transI nodeKey implStates specStates pred with
        | none => none
        | some action => some (action, st)

/-- Mirrors `failures_divergences_includes` up to the diagnostics tag
formatting; the final `FdState` (the counters of the Rust locals) is
returned alongside. -/
def failuresDivergencesIncludesAux (transS transI : TransFun)
    (initS initI : CspmState) (cfuel bfuel : Nat) :
    Option (RefinementOutcome × FdState × Option NextClosureCache) :=
  bfsRefinement transS transI initS initI cfuel bfuel
    (fdNodeCheck transS transI) (some NextClosureCache.empty)
    { divCache := DivergenceCache.empty
      divergenceChecks := 0
      divergencePrunes := 0
      implClosureMax := 0
      specClosureMax := 0 }

/-- Mirrors `failures_divergences_includes` (diagnostic tags attached). -/
def failuresDivergencesIncludes (transS transI : TransFun)
    (initS initI : CspmState) (cfuel bfuel : Nat) : Option RefinementOutcome :=
  match failuresDivergencesIncludesAux transS transI initS initI cfuel bfuel with
  | none => none
  | some (outcome, st, cache) =>
    let cache := cache.getD NextClosureCache.empty
    some
      { outcome with
        diagnostic_tags :=
          [ "fd_nodes:" ++ toString (outcome.stats.states.getD 0)
          , "fd_edges:" ++ toString (outcome.stats.transitions.getD 0)
          , "fd_divergence_checks:" ++ toString st.divergenceChecks
          , "fd_pruned_nodes:" ++ toString st.divergencePrunes
          , "fd_impl_closure_max:" ++ toString st.implClosureMax
          , "fd_spec_closure_max:" ++ toString st.specClosureMax
          , "fd_closure_cache_hits:" ++ toString cache.hits
          , "fd_closure_cache_misses:" ++ toString cache.misses
          , "fd_divergence_cache_hits:" ++ toString st.divCache.hits
          , "fd_divergence_cache_misses:" ++ toString st.divCache.misses ] }

/-! ## Replay, minimization, explanation and the checker entry point -/

/-- Mirrors `ReplayOutcome`. -/
structure ReplayOutcome where
  impl_closure : Closure
  spec_closure : Closure
  trace_mismatch : Bool
deriving DecidableEq, Repr

/-- The label loop of `replay_trace`.  The outer `Option` models
non-termination of the fueled closures, the inner one is the Rust
return value. -/
def replayLoop (transS transI : TransFun) (cfuel : Nat) :
    List String → Closure → Closure → Bool → Option (Option ReplayOutcome)
  | [], implC, specC, tm =>
    some (some { impl_closure := implC, spec_closure := specC, trace_mismatch := tm })
  | label :: rest, implC, specC, tm =>
    match nextByLabel transI cfuel implC.states label with
    | none => none
    | some implNext =>
      if implNext.states.isEmpty then some none
      else if tm then replayLoop transS transI cfuel rest implNext specC true
      else
        match nextByLabel transS cfuel specC.states label with
        | none => none
        | some specNext =>
          replayLoop transS transI cfuel rest implNext specNext specNext.states.isEmpty

/-- Mirrors `replay_trace`. -/
def replayTrace (transS transI : TransFun) (initS initI : CspmState)
    (cfuel : Nat) (trace : List String) : Option (Option ReplayOutcome) :=
  match tauClosure transI cfuel [initI] with
  | none => none
  | some implC =>
    match tauClosure transS cfuel [initS] with
    | none => none
    | some specC => replayLoop transS transI cfuel trace implC specC false

/-- The impl-state loop of `has_refusal_mismatch`. -/
def hasRefusalMismatchLoop (transI : TransFun)
    (specStableOffers : List (List String)) :
    List CspmState → Option Bool
  | [] => some false
  | s :: rest =>
    match isStable transI s with
    | none => none
    | some false => hasRefusalMismatchLoop transI specStableOffers rest
    | some true =>
      match offeredVisibleLabels transI s with
      | none => none
      | some implOffer =>
        if specStableOffers.any fun specOffer =>
            specOffer.all fun l => decide (l ∈ implOffer) then
          hasRefusalMismatchLoop transI specStableOffers rest
        else some true

/-- Mirrors `has_refusal_mismatch`. -/
def hasRefusalMismatch (transS transI : TransFun) (replay : ReplayOutcome) :
    Option Bool :=
  match stableOfferSets transS replay.spec_closure.states with
  | none => none
  | some offers => hasRefusalMismatchLoop transI offers replay.impl_closure.states

/-- Mirrors `counterexample_still_fails`. -/
def counterexampleStillFails (model : RefinementModel)
    (transS transI : TransFun) (initS initI : CspmState) (cfuel : Nat)
    (counterexample : Counterexample) (requiredTags : List String) :
    Option Bool :=
  if counterexample.kind ≠ CounterexampleType.Trace then some false
  else
    let trace := counterexample.events.map CounterexampleEvent.label
    if (requiredTags.any fun tag => tag = "divergence_mismatch") &&
        !(trace.any fun label => label = "tau") then some false
    else
      match replayTrace transS transI initS initI cfuel trace with
      | none => none
      | some none => some false
      | some (some replay) =>
        if replay.trace_mismatch then some true
        else
          match model with
          | .T => some false
          | .F => hasRefusalMismatch transS transI replay
          | .FD =>
            match closureHasTauCycle transS replay.spec_closure.states with
            | none => none
            | some specDiverges =>
              match closureHasTauCycle transI replay.impl_closure.states with
              | none => none
              | some implDiverges =>
                if implDiverges && !specDiverges then some true
                else if specDiverges then some false
                else hasRefusalMismatch transS transI replay

/-- One scan of the minimizer's inner `for idx` loop: try erasing each
index in turn and return the first candidate the oracle accepts. -/
def minimizeScan (oracle : Counterexample → Option Bool)
    (best : Counterexample) : List Nat → Option (Option Counterexample)
  | [] => some none
  | idx :: rest =>
    let candidate := { best with events := best.events.eraseIdx idx }
    match oracle candidate with
    | none => none
    | some false => minimizeScan oracle best rest
    | some true => some (some candidate)

/-- The outer `loop` of `minimize_with_oracle`; every accepted
reduction shortens the trace by one event, so `events.length + 1`
rounds of fuel are enough. -/
def minimizeLoop (oracle : Counterexample → Option Bool) :
    Nat → Counterexample → Option Counterexample
  | 0, _ => none
  | fuel + 1, best =>
    match minimizeScan oracle best (List.range best.events.length) with
    | none => none
    | some none => some { best with is_minimized := true }
    | some (some candidate) => minimizeLoop oracle fuel candidate

/-- Mirrors `TraceHeuristicMinimizer::minimize_with_oracle`. -/
def minimizeWithOracle (oracle : Counterexample → Option Bool)
    (counterexample : Counterexample) : Option Counterexample :=
  if counterexample.kind ≠ CounterexampleType.Trace then
    some { counterexample with is_minimized := false }
  else
    match oracle counterexample with
    | none => none
    | some false => some { counterexample with is_minimized := false }
    | some true =>
      minimizeLoop oracle (counterexample.events.length + 1) counterexample

/-- The `retain`-with-`BTreeSet` idiom: keep the first occurrence of
every tag, in order. -/
def retainFirst : List String → List String → List String
  | [], _ => []
  | t :: rest, seen =>
    if t ∈ seen then retainFirst rest seen
    else t :: retainFirst rest (t :: seen)

/-- Mirrors `BasicExplainer::explain`. -/
def explain (counterexample : Counterexample) : Counterexample :=
  let tags1 := ["deadlock", "divergence", "nondeterminism", "refinement"].foldl
    (fun tags kind =>
      if tags.any fun tag => tag = kind then tags ++ ["kind:" ++ kind] else tags)
    counterexample.tags
  { counterexample with tags := retainFirst (tags1 ++ ["explained"]) [] }

/-- Mirrors `invalid_input_result`. -/
def invalidInputResult (request : CheckRequest) (message : String) :
    CheckResult :=
  { name := "refine"
    model := request.model.map fun m => m.asStr
    target := request.target
    status := .Error
    reason := some { kind := .InvalidInput, message := some message }
    counterexample := none
    stats := some { states := none, transitions := none } }

/-- Mirrors `CspmLtsError`'s `Display` implementation. -/
def CspmLtsErr.toStr (e : CspmLtsErr) : String :=
  match e.span with
  | some span =>
    span.path ++ ":" ++ toString span.start_line ++ ":" ++
      toString span.start_col ++ ": " ++ e.message
  | none => e.message

/-- Mirrors `RefinementChecker::check`.  `sfFuel`, `tfuel`, `cfuel` and
`bfuel` are the fuels of initial-state unfolding, single-state
transitions, τ-closures and the BFS node loop. -/
def refinementCheck (request : CheckRequest) (spec impl_ : Module)
    (sfFuel tfuel cfuel bfuel : Nat) : Option CheckResult :=
  let model := request.model.getD .T
  match fromModule sfFuel spec with
  | none => none
  | some (.error err) => some (invalidInputResult request (CspmLtsErr.toStr err))
  | some (.ok specProvider) =>
    match fromModule sfFuel impl_ with
    | none => none
    | some (.error err) => some (invalidInputResult request (CspmLtsErr.toStr err))
    | some (.ok implProvider) =>
      let transS : TransFun := transitionsFor specProvider.program tfuel
      let transI : TransFun := transitionsFor implProvider.program tfuel
      let outcomeO :=
        match model with
        | .T =>
          traceIncludes transS transI specProvider.initial implProvider.initial
            cfuel bfuel
        | .F =>
          failuresIncludes transS transI specProvider.initial implProvider.initial
            cfuel bfuel
        | .FD =>
          failuresDivergencesIncludes transS transI specProvider.initial
            implProvider.initial cfuel bfuel
      match outcomeO with
      | none => none
      | some outcome =>
        if outcome.refines then
          some
            { name := "refine", model := some model.asStr
              target := request.target, status := .Pass, reason := none
              counterexample := none, stats := some outcome.stats }
        else
          let failure := outcome.failure.getD { trace := [], tags := [] }
          let events := failure.trace.map fun label =>
            ({ label := label } : CounterexampleEvent)
          let tags := ["refinement", "model:" ++ model.asStr] ++
            outcome.diagnostic_tags ++ failure.tags
          let counterexample : Counterexample :=
            { kind := .Trace, events := events, is_minimized := false
              tags := tags
              source_spans := refinementCounterexampleSpans spec impl_ }
          match minimizeWithOracle
              (fun candidate =>
                counterexampleStillFails model transS transI
                  specProvider.initial implProvider.initial cfuel candidate tags)
              counterexample with
          | none => none
          | some minimized =>
            some
              { name := "refine", model := some model.asStr
                target := request.target, status := .Fail, reason := none
                counterexample := some (explain minimized)
                stats := some outcome.stats }

/-! ## The deadlock checker (`check_deadlock.rs`) -/

/-- Mirrors the per-checker `module_spans` helper (textually identical
in all three property checkers and to `module_counterexample_spans`). -/
def moduleSpans (module : Module) : List SourceSpan :=
  moduleCounterexampleSpans module

/-- The `decls` `HashMap` of `select_deadlock_assert_target_expr`: the
last declaration with a given name wins. -/
def declsLookupLast (name : String) : List ProcessDecl → Option SpannedExpr
  | [] => none
  | d :: rest =>
    match declsLookupLast name rest with
    | some e => some e
    | none => if d.name.value = name then some d.expr else none

/-- The reverse scan over assertions in
`select_deadlock_assert_target_expr`. -/
def selectDeadlockLoop (decls : List ProcessDecl) :
    List AssertionDecl → Option SpannedExpr
  | [] => none
  | .Property target kind _ :: rest =>
    if kind = .DeadlockFree then
      match declsLookupLast target.value decls with
      | some e => some e
      | none => selectDeadlockLoop decls rest
    else selectDeadlockLoop decls rest
  | .Refinement _ _ _ :: rest => selectDeadlockLoop decls rest

/-- Mirrors `select_deadlock_assert_target_expr`. -/
def selectDeadlockAssertTargetExpr (module : Module) : Option SpannedExpr :=
  selectDeadlockLoop module.declarations module.assertions.reverse

/-- Mirrors `module_for_deadlock_check`. -/
def moduleForDeadlockCheck (input : Module) : Module :=
  if input.entry.isSome || input.declarations.length = 1 then input
  else
    match selectDeadlockAssertTargetExpr input with
    | some entry => { input with entry := some entry }
    | none => input

/-- The `for (transition, next_state) in next` loop of
`deadlock_free_check`: `visited` is the predecessor map in discovery
order. -/
def dlInsertNext (state : CspmState) :
    List (String × CspmState) →
    List (CspmState × Option (CspmState × String)) → List CspmState → Nat →
    List (CspmState × Option (CspmState × String)) × List CspmState × Nat
  | [], visited, queue, states => (visited, queue, states)
  | (label, nextState) :: rest, visited, queue, states =>
    if visited.any fun p => p.1 = nextState then
      dlInsertNext state rest visited queue states
    else
      dlInsertNext state rest (visited ++ [(nextState, some (state, label))])
        (queue ++ [nextState]) (states + 1)

/-- The BFS of `deadlock_free_check`; returns (deadlocked state if
any, predecessor map, states, transitions). -/
def deadlockLoop (trans : TransFun) :
    Nat → List CspmState → List (CspmState × Option (CspmState × String)) →
    Nat → Nat →
    Option (Option CspmState ×
      List (CspmState × Option (CspmState × String)) × Nat × Nat)
  | 0, _, _, _, _ => none
  | _ + 1, [], visited, states, transitions =>
    some (none, visited, states, transitions)
  | fuel + 1, state :: queueRest, visited, states, transitions =>
    match trans state with
    | none => none
    | some next =>
      let transitions := transitions + next.length
      if next.isEmpty then some (some state, visited, states, transitions)
      else
        match dlInsertNext state next visited queueRest states with
        | (visited1, queue1, states1) =>
          deadlockLoop trans fuel queue1 visited1 states1 transitions

/-- The predecessor chase of the checkers' `trace_events` /
`trace_visible_events`. -/
def traceEventsLoop (visited : List (CspmState × Option (CspmState × String))) :
    Nat → CspmState → List String → List String
  | 0, _, acc => acc
  | fuel + 1, current, acc =>
    match assocLookup current visited with
    | some (some (prev, label)) =>
      traceEventsLoop visited fuel prev (acc ++ [label])
    | _ => acc

/-- Mirrors `trace_events` of `check_deadlock.rs`: chase predecessors,
reverse, drop `tau`. -/
def traceEvents (visited : List (CspmState × Option (CspmState × String)))
    (current : CspmState) : List CounterexampleEvent :=
  (((traceEventsLoop visited (visited.length + 1) current []).reverse.filter
    fun label => label ≠ "tau").map fun label => { label := label })

/-- Mirrors `deadlock_free_check`. -/
def deadlockFreeCheck (trans : TransFun) (initial : CspmState)
    (request : CheckRequest) (module : Module) (bfuel : Nat) :
    Option CheckResult :=
  match deadlockLoop trans bfuel [initial] [(initial, none)] 1 0 with
  | none => none
  | some (deadlockState, visited, states, transitions) =>
    let stats : Stats := { states := some states, transitions := some transitions }
    match deadlockState with
    | some state =>
      some
        { name := "check", model := none, target := request.target
          status := .Fail, reason := none
          counterexample := some
            { kind := .Trace
              events := traceEvents visited state
              is_minimized := false
              tags := ["deadlock"]
              source_spans := moduleSpans module }
          stats := some stats }
    | none =>
      some
        { name := "check", model := none, target := request.target
          status := .Pass, reason := none, counterexample := none
          stats := some stats }

/-- Mirrors `DeadlockChecker::check`. -/
def deadlockCheck (request : CheckRequest) (input : Module)
    (sfFuel tfuel bfuel : Nat) : Option CheckResult :=
  let module := moduleForDeadlockCheck input
  match fromModule sfFuel module with
  | none => none
  | some (.error err) =>
    some
      { name := "check", model := none, target := request.target
        status := .Error
        reason := some { kind := .InvalidInput, message := some (CspmLtsErr.toStr err) }
        counterexample := none
        stats := some { states := none, transitions := none } }
  | some (.ok provider) =>
    deadlockFreeCheck (transitionsFor provider.program tfuel) provider.initial
      request module bfuel

/-! ## Reachability in a compiled LTS -/

/-- One visible-or-τ step of the compiled transition relation at a
given transition fuel. -/
def StepVia (prog : Program) (fuel : Nat) (s t : CspmState) : Prop :=
  ∃ l ts, transitionsFor prog fuel s = some ts ∧ (l, t) ∈ ts

/-- Reachability along `transitions` at a given transition fuel. -/
def ReachVia (prog : Program) (fuel : Nat) (a b : CspmState) : Prop :=
  Relation.ReflTransGen (StepVia prog fuel) a b

/-- A successfully compiled provider's initial state comes out of
`state_from_expr` on the interned entry expression. -/
theorem fromModule_initial (sfFuel : Nat) (module : Module)
    (provider : Provider) (h : fromModule sfFuel module = some (.ok provider)) :
    ∃ initId, stateFromExpr provider.program sfFuel initId [] =
      some provider.initial := by
  rw [fromModule] at h
  cases hc : compileChannels module with
  | error e => rw [hc] at h; cases h
  | ok channels =>
    rw [hc] at h
    cases hce : collectExprs module.declarations [] with
    | error e => rw [hce] at h; cases h
    | ok procExprs =>
      rw [hce] at h
      dsimp only at h
      cases hie : initialExpr module with
      | error e => rw [hie] at h; cases h
      | ok ie =>
        rw [hie] at h
        dsimp only at h
        cases hcx : compileExpr (procIdsOf (procExprs.map Prod.fst))
            { exprs := [], exprSpans := [], interned := []
              procRoots := List.replicate
                (procIdsOf (procExprs.map Prod.fst)).length 0 } ie with
        | error e => rw [hcx] at h; cases h
        | ok p =>
          rw [hcx] at h
          dsimp only at h
          cases p with
          | mk initId b1 =>
            dsimp only at h
            cases hcp : compileProcs (procIdsOf (procExprs.map Prod.fst))
                procExprs b1 (procIdsOf (procExprs.map Prod.fst)) with
            | error e => rw [hcp] at h; cases h
            | ok b2 =>
              rw [hcp] at h
              dsimp only at h
              cases hcr : computeResolved b2.exprs b2.procRoots with
              | error e => rw [hcr] at h; cases h
              | ok resolved =>
                rw [hcr] at h
                dsimp only at h
                cases hsf : stateFromExpr
                    { channels := channels, exprs := b2.exprs
                      resolved := resolved } sfFuel initId [] with
                | none => rw [hsf] at h; cases h
                | some initial =>
                  rw [hsf] at h
                  dsimp only at h
                  cases h
                  exact ⟨initId, hsf⟩

/-! ## Claim theorems -/

/-- C5: for every well-formed runtime state `s` (the `Expr`, `Parallel`
and `Hide` shapes with their Rust type-level invariants), decoding the
encoding returns the state back, and `encode` is injective: two
well-formed states with equal encoded byte sequences are equal. -/
theorem codec_roundtrip_injective (s t : CspmState)
    (hs : stateWF s = true) (ht : stateWF t = true) :
    decode (encode s) = some s ∧ (encode s = encode t → s = t) :=
  ⟨decode_encode hs, fun h => encode_inj hs ht h⟩

theorem codec_roundtrip_injective_witness :
    decode (encode (CspmState.SParallel ["a"]
        (.SExpr 1 [("x", 2)]) (.SHide ["b"] (.SExpr 0 [])))) =
      some (CspmState.SParallel ["a"]
        (.SExpr 1 [("x", 2)]) (.SHide ["b"] (.SExpr 0 []))) ∧
    (encode (CspmState.SParallel ["a"]
        (.SExpr 1 [("x", 2)]) (.SHide ["b"] (.SExpr 0 []))) =
        encode (CspmState.SExpr 0 []) →
      CspmState.SParallel ["a"]
        (.SExpr 1 [("x", 2)]) (.SHide ["b"] (.SExpr 0 [])) =
        CspmState.SExpr 0 []) :=
  codec_roundtrip_injective
    (CspmState.SParallel ["a"] (.SExpr 1 [("x", 2)]) (.SHide ["b"] (.SExpr 0 [])))
    (CspmState.SExpr 0 []) (by decide) (by decide)

/-- C6: `transitions` of a compiled program is deterministic — two
calls on the same state return the same sequence — and the returned
sequence is sorted by the key (label, canonical encoded bytes of the
next state), which is exactly the comparator `transKeyLe`. -/
theorem transitions_deterministic_sorted (prog : Program) (fuel : Nat)
    (s : CspmState) (l1 l2 : List (String × CspmState))
    (h1 : transitionsFor prog fuel s = some l1)
    (h2 : transitionsFor prog fuel s = some l2) :
    l1 = l2 ∧ l1.Pairwise fun a b => transKeyLe a b = true :=
  ⟨Option.some.inj (h1.symm.trans h2), transitionsFor_sorted prog fuel s l1 h1⟩

theorem transitions_deterministic_sorted_witness :
    transitionsFor
        { channels := [("a", .Unit), ("b", .Unit)]
          exprs := [.ChoiceExternal 1 3, .Prefix (.Unit "b") 2, .Stop,
            .Prefix (.Unit "a") 2]
          resolved := [0, 1, 2, 3] } 5 (.SExpr 0 []) =
      some [("a", CspmState.SExpr 2 []), ("b", CspmState.SExpr 2 [])] ∧
    ([("a", CspmState.SExpr 2 []), ("b", CspmState.SExpr 2 [])] =
        [("a", CspmState.SExpr 2 []), ("b", CspmState.SExpr 2 [])] ∧
      List.Pairwise (fun a b => transKeyLe a b = true)
        [("a", CspmState.SExpr 2 []), ("b", CspmState.SExpr 2 [])]) :=
  ⟨by decide, transitions_deterministic_sorted
    { channels := [("a", .Unit), ("b", .Unit)]
      exprs := [.ChoiceExternal 1 3, .Prefix (.Unit "b") 2, .Stop,
        .Prefix (.Unit "a") 2]
      resolved := [0, 1, 2, 3] } 5 (.SExpr 0 []) _ _ (by decide) (by decide)⟩

/-- C8: for every transition provider, any worker count and any fuels,
when serial exploration and deterministic parallel exploration both
complete over an initially empty store they report identical stats:
the same discovered-state count and the same per-edge transition
total. -/
theorem serial_parallel_stats_equal {S L : Type} [DecidableEq S] [LinearOrder S]
    (trans : S → List (L × S)) (init : S) (workers fuel1 fuel2 : Nat)
    (st1 tr1 st2 tr2 : Nat)
    (h1 : exploreSerial trans init fuel1 = some (st1, tr1))
    (h2 : exploreParDet trans init workers fuel2 = some (st2, tr2)) :
    st1 = st2 ∧ tr1 = tr2 :=
  exploreResult_unique trans init (exploreSerial_ok trans init fuel1 st1 tr1 h1)
    (exploreParDet_ok trans init workers fuel2 st2 tr2 h2)

/-- The two-state provider used as the C8 concrete run. -/
def exploreWitnessTrans : Nat → List (Unit × Nat) :=
  fun n => if n = 0 then [((), 1), ((), 1)] else []

theorem serial_parallel_stats_equal_witness :
    exploreSerial exploreWitnessTrans 0 10 = some (2, 2) ∧
    exploreParDet exploreWitnessTrans 0 3 10 = some (2, 2) ∧
    ((2 : Nat) = 2 ∧ (2 : Nat) = 2) :=
  ⟨by decide, by decide,
    serial_parallel_stats_equal exploreWitnessTrans 0 3 10 10 2 2 2 2
      (by decide) (by decide)⟩

/-- C2 (refuting the all-or-nothing claim): with a spill store active
and the disk insert failing, `insert` returns the I/O error yet leaves
the freshly added state in the in-memory set — `len()` grows from 2 to
3 and the state is a member, so the insert is not rolled back. -/
theorem hybrid_insert_error_keeps_state :
    (hybridInsert { openStore := Except.ok (), insertD := fun _ _ => Except.error () }
        { in_memory := [1, 2], spill_threshold := 1, spill_store := some () }
        3).1 = Except.error () ∧
    hybridLen (hybridInsert
        { openStore := Except.ok (), insertD := fun _ _ => Except.error () }
        { in_memory := [1, 2], spill_threshold := 1, spill_store := some () }
        3).2 = 3 ∧
    3 ∈ (hybridInsert
        { openStore := Except.ok (), insertD := fun (_ : Unit) (_ : Nat) => Except.error () }
        { in_memory := [1, 2], spill_threshold := 1, spill_store := some () }
        3).2.in_memory := by
  refine ⟨rfl, rfl, ?_⟩
  show 3 ∈ [1, 2, 3]
  decide

/-- C7: for every module that compiles to a provider, the initial
state is canonical and so is every state reachable from it along
`transitions`: nowhere a `Hide` with an empty hide set, nowhere a
`Hide` directly inside a `Hide`. -/
theorem reachable_states_canonical (sfFuel tfuel : Nat) (module : Module)
    (provider : Provider) (h : fromModule sfFuel module = some (.ok provider))
    (s : CspmState) (hs : ReachVia provider.program tfuel provider.initial s) :
    canonicalState provider.initial = true ∧ canonicalState s = true := by
  obtain ⟨initId, hinit⟩ := fromModule_initial sfFuel module provider h
  have h0 : canonicalState provider.initial = true :=
    stateFromExpr_canonical provider.program sfFuel initId [] provider.initial hinit
  refine ⟨h0, ?_⟩
  induction hs with
  | refl => exact h0
  | tail hab hbc ih =>
    obtain ⟨l, ts, hts, hmem⟩ := hbc
    exact transitionsFor_canonical provider.program tfuel _ ts hts ih (l, _) hmem

/-- The source span of the concrete modules below. -/
def spanW : SourceSpan := ⟨"w.cspm", 1, 1, 1, 1⟩

/-- The single declaration `P = (a -> STOP) \ {a}` of the C7 run. -/
def declW : ProcessDecl :=
  { name := ⟨"P", spanW⟩
    expr := .Hide spanW
      (.Prefix spanW ⟨{ channel := ⟨"a", spanW⟩, seg := none }, spanW⟩
        (.Stop spanW))
      { channels := [⟨"a", spanW⟩] } }

/-- The one-channel module `channel a; P = (a -> STOP) \ {a}`. -/
def moduleW : Module :=
  { channels := [{ names := [⟨"a", spanW⟩], domain := none }]
    declarations := [declW]
    assertions := []
    entry := none }

/-- What `from_module` compiles `moduleW` to. -/
def providerW : Provider :=
  { program :=
      { channels := [("a", .Unit)]
        exprs := [.Stop, .Prefix (.Unit "a") 0, .Hide 1 ["a"]]
        resolved := [0, 1, 2] }
    initial := .SHide ["a"] (.SExpr 1 []) }

theorem reachable_states_canonical_witness :
    canonicalState providerW.initial = true ∧
      canonicalState (CspmState.SHide ["a"] (.SExpr 0 [])) = true :=
  reachable_states_canonical 10 10 moduleW providerW rfl
    (CspmState.SHide ["a"] (.SExpr 0 []))
    (Relation.ReflTransGen.tail Relation.ReflTransGen.refl
      ⟨"tau", [("tau", .SHide ["a"] (.SExpr 0 []))], rfl, by decide⟩)

/-- The single declaration `Q = a -> STOP` of the C3 run. -/
def declD : ProcessDecl :=
  { name := ⟨"Q", spanW⟩
    expr := .Prefix spanW ⟨{ channel := ⟨"a", spanW⟩, seg := none }, spanW⟩
      (.Stop spanW) }

/-- The deadlocking module `channel a; Q = a -> STOP`. -/
def moduleD : Module :=
  { channels := [{ names := [⟨"a", spanW⟩], domain := none }]
    declarations := [declD]
    assertions := []
    entry := none }

/-- C3 (refuting the tag claim): the deadlock checker fails on
`Q = a -> STOP` with counterexample tags exactly `["deadlock"]` — the
`kind:deadlock` and `explained` tags the claim requires are absent
(the checkers never invoke the explainer). -/
theorem deadlock_counterexample_tags_unexplained :
    ∃ result, deadlockCheck { command := .Check, model := none, target := none }
        moduleD 10 10 10 = some result ∧
      result.status = .Fail ∧
      ∃ ce, result.counterexample = some ce ∧
        ce.tags = ["deadlock"] ∧
        "kind:deadlock" ∉ ce.tags ∧ "explained" ∉ ce.tags := by
  refine ⟨_, rfl, rfl, ?_⟩
  refine ⟨_, rfl, rfl, ?_, ?_⟩ <;> decide

/-- The event `tau!0` on the integer channel named `tau`. -/
def evT : Spanned Event :=
  ⟨{ channel := ⟨"tau", spanW⟩, seg := some (.Out ⟨.Int 0, spanW⟩) }, spanW⟩

/-- The process `tau!0 -> STOP`. -/
def exprT : SpannedExpr :=
  .Prefix spanW evT (.Stop spanW)

/-- The declaration `channel tau : {0..0}`. -/
def chT : ChannelDecl :=
  { names := [⟨"tau", spanW⟩]
    domain := some ⟨.IntRange ⟨0, spanW⟩ ⟨0, spanW⟩, spanW⟩ }

/-- A module declaring a channel named `tau` and synchronizing on it:
`(tau!0 -> STOP) [| {tau} |] (tau!0 -> STOP)`. -/
def moduleT : Module :=
  { channels := [chT]
    declarations := []
    assertions := []
    entry := some (.Parallel spanW .Interface exprT exprT
      (some { channels := [⟨"tau", spanW⟩] })) }

/-- C10 counterexample: an event of a user-declared channel named
`tau` carrying a value gets the label `tau.0`, which is not the
internal label — the interface parallel does synchronize on it (both
sides advance in one shared transition), and it shows up verbatim in
the deadlock counterexample trace instead of being filtered out. -/
theorem tau_channel_event_synchronizes :
    isSyncEvent ["tau"] "tau.0" = true ∧
    (fromModule 10 moduleT).map (fun r => r.map fun p =>
        transitionsFor p.program 10 p.initial) =
      some (.ok (some [("tau.0",
        CspmState.SParallel ["tau"] (.SExpr 0 []) (.SExpr 0 []))])) ∧
    ∃ result, deadlockCheck { command := .Check, model := none, target := none }
        moduleT 10 10 10 = some result ∧
      ∃ ce, result.counterexample = some ce ∧
        ce.events = [{ label := "tau.0" }] :=
  ⟨by decide, rfl, _, rfl, _, rfl, rfl⟩

/-- C10 (amended): only the literal label string `tau` is the internal
action — a transition labelled exactly `tau` never synchronizes in a
parallel composition whatever the sync set, and checker counterexample
traces never contain an event labelled `tau`.  Events on a declared
channel named `tau` that carry a value (label `tau.<v>`) are ordinary
visible events (see the counterexample). -/
theorem tau_label_internal_amended (sync : List String)
    (visited : List (CspmState × Option (CspmState × String)))
    (current : CspmState) :
    isSyncEvent sync "tau" = false ∧
    ∀ e ∈ traceEvents visited current, e.label ≠ "tau" := by
  constructor
  · rw [isSyncEvent]
    simp
  · intro e he
    rw [traceEvents] at he
    obtain ⟨l, hl, rfl⟩ := List.mem_map.mp he
    exact of_decide_eq_true (List.mem_filter.mp hl).2

/-- A unit channel declaration. -/
def chU (n : String) : ChannelDecl := { names := [⟨n, spanW⟩], domain := none }

/-- A unit event on channel `n`. -/
def evU (n : String) : Spanned Event :=
  ⟨{ channel := ⟨n, spanW⟩, seg := none }, spanW⟩

/-- The prefix `n -> k`. -/
def pfx (n : String) (k : SpannedExpr) : SpannedExpr := .Prefix spanW (evU n) k

/-- A process reference. -/
def refE (n : String) : SpannedExpr := .Ref spanW ⟨n, spanW⟩

/-- The C9 spec: `SPEC = (a -> b -> c -> CS) [] (b -> DIVS)`,
`CS = a -> STOP`, `DIVS = (d -> DIVS) \ {d}` — after `b` the spec
diverges, so the FD check prunes that branch. -/
def specM : Module :=
  { channels := [chU "a", chU "b", chU "c", chU "d"]
    declarations :=
      [ { name := ⟨"SPEC", spanW⟩
          expr := .Choice spanW .External
            (pfx "a" (pfx "b" (pfx "c" (refE "CS"))))
            (pfx "b" (refE "DIVS")) }
      , { name := ⟨"CS", spanW⟩, expr := pfx "a" (.Stop spanW) }
      , { name := ⟨"DIVS", spanW⟩
          expr := .Hide spanW (pfx "d" (refE "DIVS"))
            { channels := [⟨"d", spanW⟩] } } ]
    assertions := []
    entry := some (refE "SPEC") }

/-- The C9 impl: `IMPL = (a -> b -> c -> STOP) [] (b -> c -> STOP)`. -/
def implM : Module :=
  { channels := [chU "a", chU "b", chU "c", chU "d"]
    declarations :=
      [ { name := ⟨"IMPL", spanW⟩
          expr := .Choice spanW .External
            (pfx "a" (pfx "b" (pfx "c" (.Stop spanW))))
            (pfx "b" (pfx "c" (.Stop spanW))) } ]
    assertions := []
    entry := none }

/-- C9 counterexample: under FD the engine reports a refusal mismatch
at `[a, b, c]`; the minimizer then accepts the shortened trace
`[b, c]`, which the oracle accepts only because its replay is a trace
mismatch (it runs through the divergence-pruned spec branch), so the
minimized counterexample carries `refusal_mismatch` tags while its
trace exhibits a different failure class. -/
theorem minimizer_changes_failure_class :
    ∃ pS pI result ce ro,
      fromModule 20 specM = some (Except.ok pS) ∧
      fromModule 20 implM = some (Except.ok pI) ∧
      refinementCheck { command := .Refine, model := some .FD, target := none }
          specM implM 20 20 20 40 = some result ∧
      result.status = .Fail ∧
      result.counterexample = some ce ∧
      ce.is_minimized = true ∧
      "refusal_mismatch" ∈ ce.tags ∧ "refuse:a" ∈ ce.tags ∧
      ce.events = [{ label := "b" }, { label := "c" }] ∧
      replayTrace (transitionsFor pS.program 20) (transitionsFor pI.program 20)
          pS.initial pI.initial 20 ["b", "c"] = some (some ro) ∧
      ro.trace_mismatch = true := by
  refine ⟨_, _, _, _, _, rfl, rfl, rfl, rfl, rfl, rfl, ?_, ?_, rfl, rfl, rfl⟩ <;>
    decide

/-- Every candidate the inner minimizer scan accepts was accepted by
the oracle and differs from the current best only in its events. -/
theorem minimizeScan_spec (oracle : Counterexample → Option Bool)
    (best : Counterexample) :
    ∀ idxs cand, minimizeScan oracle best idxs = some (some cand) →
      oracle cand = some true ∧ cand.kind = best.kind ∧
        cand.tags = best.tags ∧ cand.is_minimized = best.is_minimized := by
  intro idxs
  induction idxs with
  | nil => intro cand h; rw [minimizeScan] at h; cases h
  | cons i rest ih =>
    intro cand h
    rw [minimizeScan] at h
    cases ho : oracle { best with events := best.events.eraseIdx i } with
    | none => rw [ho] at h; cases h
    | some b =>
      rw [ho] at h
      cases b with
      | false => exact ih cand h
      | true =>
        cases h
        exact ⟨ho, rfl, rfl, rfl⟩

/-- Invariant of the outer minimizer loop: kind and tags never change,
and the final minimized result is oracle-accepted. -/
theorem minimizeLoop_spec (oracle : Counterexample → Option Bool) :
    ∀ fuel best c', best.is_minimized = false → oracle best = some true →
      minimizeLoop oracle fuel best = some c' →
      c'.is_minimized = true ∧ c'.kind = best.kind ∧ c'.tags = best.tags ∧
        oracle { c' with is_minimized := false } = some true := by
  intro fuel
  induction fuel with
  | zero => intro best c' _ _ h; rw [minimizeLoop] at h; cases h
  | succ f ih =>
    intro best c' hmin hacc h
    rw [minimizeLoop] at h
    cases hs : minimizeScan oracle best (List.range best.events.length) with
    | none => rw [hs] at h; cases h
    | some o =>
      rw [hs] at h
      cases o with
      | none =>
        cases h
        refine ⟨rfl, rfl, rfl, ?_⟩
        have heq : ({ { best with is_minimized := true } with
            is_minimized := false } : Counterexample) = best := by
          cases best with
          | mk k e m t s =>
            dsimp only at hmin
            dsimp only
            rw [hmin]
        rw [heq]
        exact hacc
      | some cand =>
        obtain ⟨ho, hk, ht, hm⟩ := minimizeScan_spec oracle best _ cand hs
        have hrec := ih cand c' (hm.trans hmin) ho h
        exact ⟨hrec.1, hrec.2.1.trans hk, hrec.2.2.1.trans ht, hrec.2.2.2⟩

/-- C9 (amended): oracle-guided minimization never changes the
recorded kind or tags, and a result it marks minimized is itself still
accepted by the oracle — it still fails the refinement check under the
same model — but the failure class the accepted trace exhibits can
differ from the class the retained tags record (see the
counterexample, where a refusal-mismatch counterexample minimizes to a
trace whose replay is a trace mismatch). -/
theorem minimize_keeps_tags_oracle_accepted
    (oracle : Counterexample → Option Bool) (c c' : Counterexample)
    (h0 : c.is_minimized = false) (h : minimizeWithOracle oracle c = some c')
    (hmin : c'.is_minimized = true) :
    c'.kind = c.kind ∧ c'.tags = c.tags ∧
      oracle { c' with is_minimized := false } = some true := by
  rw [minimizeWithOracle] at h
  by_cases hk : c.kind ≠ CounterexampleType.Trace
  · rw [if_pos hk] at h
    cases h
    exact Bool.noConfusion hmin
  · rw [if_neg hk] at h
    cases ho : oracle c with
    | none => rw [ho] at h; cases h
    | some b =>
      rw [ho] at h
      cases b with
      | false =>
        cases h
        exact Bool.noConfusion hmin
      | true =>
        have hl := minimizeLoop_spec oracle (c.events.length + 1) c c' h0 ho h
        exact ⟨hl.2.1, hl.2.2.1, hl.2.2.2⟩

/-- The all-accepting oracle of the C9 witness run. -/
def oW : Counterexample → Option Bool := fun _ => some true

/-- The two-event counterexample the C9 witness minimizes. -/
def cW : Counterexample :=
  { kind := .Trace, events := [{ label := "a" }, { label := "b" }]
    is_minimized := false, tags := ["refinement"], source_spans := [] }

/-- What the C9 witness run minimizes `cW` to. -/
def cW' : Counterexample :=
  { kind := .Trace, events := [], is_minimized := true
    tags := ["refinement"], source_spans := [] }

theorem minimize_keeps_tags_oracle_accepted_witness :
    cW.is_minimized = false ∧
    minimizeWithOracle oW cW = some cW' ∧ cW'.is_minimized = true ∧
    (cW'.kind = cW.kind ∧ cW'.tags = cW.tags ∧
      oW { cW' with is_minimized := false } = some true) :=
  ⟨rfl, rfl, rfl, minimize_keeps_tags_oracle_accepted oW cW cW' rfl rfl rfl⟩

/-- The C1 spec: `Div = (a -> Div) \ {a}`, diverging immediately. -/
def specDivM : Module :=
  { channels := [chU "a"]
    declarations :=
      [ { name := ⟨"Div", spanW⟩
          expr := .Hide spanW (pfx "a" (refE "Div"))
            { channels := [⟨"a", spanW⟩] } } ]
    assertions := []
    entry := none }

/-- The C1 impl: `S = STOP`. -/
def implStopM : Module :=
  { channels := [chU "a"]
    declarations := [{ name := ⟨"S", spanW⟩, expr := .Stop spanW }]
    assertions := []
    entry := none }

/-- C1 counterexample: for the divergent spec `(a -> Div) \ {a}` and
the impl `STOP`, the FD check passes (the only product node is pruned
because the spec diverges there) while the F check fails with a
refusal mismatch (the divergent spec has no stable state, so no stable
spec offer covers STOP's empty offer) — refuting the claimed
FD ⇒ F direction. -/
theorem fd_pass_without_f_pass :
    ∃ rFD rF,
      refinementCheck { command := .Refine, model := some .FD, target := none }
          specDivM implStopM 10 10 10 10 = some rFD ∧ rFD.status = .Pass ∧
      refinementCheck { command := .Refine, model := some .F, target := none }
          specDivM implStopM 10 10 10 10 = some rF ∧ rF.status = .Fail :=
  ⟨_, _, rfl, rfl, rfl, rfl⟩

/-- The stable-failures node check never asks to prune. -/
theorem refusalCheckLoop_no_prune (transS transI : TransFun)
    (pred : List (NodeKey × (NodeKey × String))) (nodeKey : NodeKey)
    (offers : List (List String)) :
    ∀ states, refusalCheckLoop transS transI pred nodeKey offers states ≠
      some NodeAction.Prune := by
  intro states
  induction states with
  | nil => intro h; rw [refusalCheckLoop] at h; cases h
  | cons s rest ih =>
    intro h
    rw [refusalCheckLoop] at h
    cases hst : isStable transI s with
    | none => rw [hst] at h; cases h
    | some b =>
      rw [hst] at h
      cases b with
      | false => exact ih h
      | true =>
        cases hov : offeredVisibleLabels transI s with
        | none => rw [hov] at h; cases h
        | some implOffer =>
          rw [hov] at h
          dsimp only at h
          by_cases hcov : (offers.any fun specOffer =>
              specOffer.all fun l => decide (l ∈ implOffer)) = true
          · rw [if_pos hcov] at h
            exact ih h
          · rw [if_neg hcov] at h
            simp at h

/-- Mirrors that `refusal_check` only continues or fails. -/
theorem refusalCheck_no_prune (transS transI : TransFun) (nodeKey : NodeKey)
    (implStates specStates : List CspmState)
    (pred : List (NodeKey × (NodeKey × String))) :
    refusalCheck transS transI nodeKey implStates specStates pred ≠
      some NodeAction.Prune := by
  intro h
  rw [refusalCheck] at h
  cases hso : stableOfferSets transS specStates with
  | none => rw [hso] at h; cases h
  | some offers =>
    rw [hso] at h
    exact refusalCheckLoop_no_prune transS transI pred nodeKey offers
      implStates h

/-- An early return of the shared label loop always reports a
non-refining outcome (a trace mismatch). -/
theorem labelLoop_inl_refines_false (transS transI : TransFun) (cfuel : Nat)
    (nodeKey : NodeKey) (implC specC : Closure) :
    ∀ labels ctx outcome ctx2,
      labelLoop transS transI cfuel nodeKey implC specC labels ctx =
        some (Sum.inl (outcome, ctx2)) → outcome.refines = false := by
  intro labels
  induction labels with
  | nil =>
    intro ctx outcome ctx2 h
    rw [labelLoop] at h
    cases h
  | cons label rest ih =>
    intro ctx outcome ctx2 h
    rw [labelLoop] at h
    dsimp only at h
    cases h1 : nextClosureStep ctx.cache .Impl transI cfuel implC label with
    | none => rw [h1] at h; cases h
    | some p1 =>
      rw [h1] at h
      rcases p1 with ⟨implNext, cache1⟩
      dsimp only at h
      cases h2 : nextClosureStep cache1 .Spec transS cfuel specC label with
      | none => rw [h2] at h; cases h
      | some p2 =>
        rw [h2] at h
        rcases p2 with ⟨specNext, cache2⟩
        dsimp only at h
        by_cases he : specNext.states.isEmpty = true
        · rw [if_pos he] at h
          cases h
          rfl
        · rw [if_neg he] at h
          by_cases hv : ({ impl_sig := implNext.sig, spec_sig := specNext.sig } :
              NodeKey) ∈ ({ ctx with
                transitionsCount := ctx.transitionsCount + 1
                cache := cache2 } : BfsCtx).visited
          · rw [if_pos hv] at h
            exact ih _ outcome ctx2 h
          · rw [if_neg hv] at h
            exact ih _ outcome ctx2 h

/-- A completed stable-failures BFS run that refines is replayed
verbatim by the traces BFS: step for step the F node check only ever
continues, which is exactly the T node check. -/
theorem bfsLoopF_refines_T (transS transI : TransFun) (cfuel : Nat) :
    ∀ bfuel ctx o c,
      bfsLoop transS transI cfuel
        (fun (_ : Unit) nodeKey implStates specStates pred =>
          match refusalCheck transS transI nodeKey implStates specStates pred with
          | none => none
          | some action => some (action, ())) bfuel ctx () = some (o, (), c) →
      o.refines = true →
      bfsLoop transS transI cfuel
        (fun (_ : Unit) _ _ _ _ => some (NodeAction.Continue, ()))
        bfuel ctx () = some (o, (), c) := by
  intro bfuel
  induction bfuel with
  | zero => intro ctx o c h _; rw [bfsLoop] at h; cases h
  | succ fuel ih =>
    intro ctx o c h ho
    rw [bfsLoop] at h ⊢
    cases hq : ctx.queue with
    | nil =>
      rw [hq] at h
      exact h
    | cons node queueRest =>
      rw [hq] at h
      rcases node with ⟨nodeKey, implC, specC⟩
      dsimp only at h ⊢
      cases hrc : refusalCheck transS transI nodeKey implC.states specC.states
          ctx.pred with
      | none => rw [hrc] at h; cases h
      | some action =>
        rw [hrc] at h
        dsimp only at h
        cases action with
        | Fail f =>
          cases h
          exact Bool.noConfusion ho
        | Prune => exact absurd hrc (refusalCheck_no_prune _ _ _ _ _ _)
        | Continue =>
          dsimp only at h
          cases hev : enabledVisibleLabels transI implC.states with
          | none => rw [hev] at h; cases h
          | some labels =>
            rw [hev] at h
            dsimp only at h
            dsimp only
            cases hll : labelLoop transS transI cfuel nodeKey implC specC
                labels { ctx with queue := queueRest } with
            | none => rw [hll] at h; cases h
            | some r =>
              rw [hll] at h
              cases r with
              | inl pr =>
                rcases pr with ⟨outcome, ctx2⟩
                dsimp only at h
                cases h
                exact absurd ho (by
                  rw [labelLoop_inl_refines_false transS transI cfuel nodeKey
                    implC specC labels _ o ctx2 hll]
                  exact fun hh => Bool.noConfusion hh)
              | inr ctx2 =>
                dsimp only at h
                dsimp only
                exact ih ctx2 o c h ho

/-- C1 (amended): the F ⇒ T direction holds — whenever the
stable-failures check completes and refines, the traces check
completes with the very same outcome (same stats, no failure).  The
FD ⇒ F direction of the original claim is false: see the
counterexample, where divergence pruning makes FD pass while F fails. -/
theorem f_pass_implies_t_pass (transS transI : TransFun)
    (initS initI : CspmState) (cfuel bfuel : Nat) (o : RefinementOutcome)
    (h : failuresIncludes transS transI initS initI cfuel bfuel = some o)
    (ho : o.refines = true) :
    traceIncludes transS transI initS initI cfuel bfuel = some o := by
  rw [failuresIncludes] at h
  rw [traceIncludes]
  rw [bfsRefinement] at h ⊢
  cases hti : tauClosure transI cfuel [initI] with
  | none => rw [hti] at h; cases h
  | some impl0 =>
    rw [hti] at h
    dsimp only at h ⊢
    cases hts : tauClosure transS cfuel [initS] with
    | none => rw [hts] at h; cases h
    | some spec0 =>
      rw [hts] at h
      dsimp only at h ⊢
      cases hb : bfsLoop transS transI cfuel
          (fun (_ : Unit) nodeKey implStates specStates pred =>
            match refusalCheck transS transI nodeKey implStates specStates pred with
            | none => none
            | some action => some (action, ())) bfuel
          { queue := [({ impl_sig := impl0.sig, spec_sig := spec0.sig },
              impl0, spec0)]
            visited := [{ impl_sig := impl0.sig, spec_sig := spec0.sig }]
            pred := []
            statesCount := 1
            transitionsCount := 0
            cache := none } () with
      | none => rw [hb] at h; cases h
      | some r =>
        rw [hb] at h
        rcases r with ⟨outcome, u, c2⟩
        cases u
        dsimp only at h
        cases h
        rw [bfsLoopF_refines_T transS transI cfuel bfuel _ o c2 hb ho]

/-- The one-node program of the C1 witness run. -/
def stopProg : Program := { channels := [], exprs := [.Stop], resolved := [0] }

theorem f_pass_implies_t_pass_witness :
    failuresIncludes (transitionsFor stopProg 5) (transitionsFor stopProg 5)
        (.SExpr 0 []) (.SExpr 0 []) 5 5 =
      some { refines := true, failure := none
             stats := { states := some 1, transitions := some 0 }
             diagnostic_tags := [] } ∧
    ({ refines := true, failure := none
       stats := { states := some 1, transitions := some 0 }
       diagnostic_tags := [] } : RefinementOutcome).refines = true ∧
    traceIncludes (transitionsFor stopProg 5) (transitionsFor stopProg 5)
        (.SExpr 0 []) (.SExpr 0 []) 5 5 =
      some { refines := true, failure := none
             stats := { states := some 1, transitions := some 0 }
             diagnostic_tags := [] } :=
  ⟨rfl, rfl, f_pass_implies_t_pass _ _ _ _ 5 5 _ rfl rfl⟩

/-! ## Reflexivity of the refinement BFS

Running any of the three engines with the same provider on both sides
never reports a failure.  The proofs track the diagonal invariant
(every product node carries the same closure twice) together with
well-formedness of all closure states; well-formedness makes `encode`
injective, which in turn makes the signature-keyed caches transparent. -/

/-- All states of a list are well-formed. -/
def StatesWF (l : List CspmState) : Prop := ∀ s ∈ l, stateWF s = true

/-- A closure as `tau_closure` builds it: well-formed states and the
signature exactly their encodings. -/
def ClosureWF (c : Closure) : Prop :=
  StatesWF c.states ∧ c.sig = c.states.map encode

/-- A transition function whose successors of well-formed states are
well-formed (what Rust's type-level invariants give every provider). -/
def TransWF (trans : TransFun) : Prop :=
  ∀ s ts, stateWF s = true → trans s = some ts → ∀ p ∈ ts, stateWF p.2 = true

theorem statesWF_encode_inj :
    ∀ {xs ys : List CspmState}, StatesWF xs → StatesWF ys →
      xs.map encode = ys.map encode → xs = ys := by
  intro xs
  induction xs with
  | nil =>
    intro ys _ _ h
    cases ys with
    | nil => rfl
    | cons y ys => cases h
  | cons x xs ih =>
    intro ys hx hy h
    cases ys with
    | nil => cases h
    | cons y ys =>
      rw [List.map_cons, List.map_cons, List.cons.injEq] at h
      have hxy : x = y :=
        encode_inj (hx x (List.mem_cons_self _ _)) (hy y (List.mem_cons_self _ _)) h.1
      rw [hxy, ih (fun s hs => hx s (List.mem_cons_of_mem _ hs))
        (fun s hs => hy s (List.mem_cons_of_mem _ hs)) h.2]

theorem tauSeed_wf :
    ∀ seeds queue visited, StatesWF seeds → StatesWF queue → StatesWF visited →
      StatesWF (tauSeed seeds queue visited).1 ∧
        StatesWF (tauSeed seeds queue visited).2 := by
  intro seeds
  induction seeds with
  | nil => intro queue visited _ hq hv; rw [tauSeed]; exact ⟨hq, hv⟩
  | cons s rest ih =>
    intro queue visited hs hq hv
    rw [tauSeed]
    have hsw : stateWF s = true := hs s (List.mem_cons_self _ _)
    have hrest : StatesWF rest := fun x hx => hs x (List.mem_cons_of_mem _ hx)
    by_cases hmem : s ∈ visited
    · rw [if_pos hmem]
      exact ih queue visited hrest hq hv
    · rw [if_neg hmem]
      refine ih (queue ++ [s]) (visited ++ [s]) hrest ?_ ?_ <;>
        · intro x hx
          rcases List.mem_append.mp hx with hx | hx
          · first
            | exact hq x hx
            | exact hv x hx
          · rw [List.mem_singleton] at hx
            rw [hx]
            exact hsw

theorem tauSeed_visited_sub :
    ∀ seeds queue visited x, x ∈ visited →
      x ∈ (tauSeed seeds queue visited).2 := by
  intro seeds
  induction seeds with
  | nil => intro queue visited x hx; rw [tauSeed]; exact hx
  | cons s rest ih =>
    intro queue visited x hx
    rw [tauSeed]
    by_cases hmem : s ∈ visited
    · rw [if_pos hmem]; exact ih queue visited x hx
    · rw [if_neg hmem]
      exact ih (queue ++ [s]) (visited ++ [s]) x (List.mem_append_left _ hx)

theorem tauSeed_seed_mem :
    ∀ seeds queue visited x, x ∈ seeds →
      x ∈ (tauSeed seeds queue visited).2 := by
  intro seeds
  induction seeds with
  | nil => intro queue visited x hx; cases hx
  | cons s rest ih =>
    intro queue visited x hx
    rw [tauSeed]
    rcases List.mem_cons.mp hx with rfl | hx
    · by_cases hmem : x ∈ visited
      · rw [if_pos hmem]; exact tauSeed_visited_sub rest queue visited x hmem
      · rw [if_neg hmem]
        exact tauSeed_visited_sub rest (queue ++ [x]) (visited ++ [x]) x
          (List.mem_append_right _ (List.mem_singleton_self _))
    · by_cases hmem : s ∈ visited
      · rw [if_pos hmem]; exact ih queue visited x hx
      · rw [if_neg hmem]; exact ih (queue ++ [s]) (visited ++ [s]) x hx

theorem tauPush_wf :
    ∀ ts queue visited, (∀ p ∈ ts, stateWF (Prod.snd p) = true) →
      StatesWF queue → StatesWF visited →
      StatesWF (tauPush ts queue visited).1 ∧
        StatesWF (tauPush ts queue visited).2 := by
  intro ts
  induction ts with
  | nil => intro queue visited _ hq hv; rw [tauPush]; exact ⟨hq, hv⟩
  | cons p rest ih =>
    intro queue visited hp hq hv
    rcases p with ⟨label, next⟩
    rw [tauPush]
    have hnw : stateWF next = true := hp (label, next) (List.mem_cons_self _ _)
    have hrest : ∀ q ∈ rest, stateWF (Prod.snd q) = true :=
      fun q hq2 => hp q (List.mem_cons_of_mem _ hq2)
    by_cases hl : label ≠ "tau"
    · rw [if_pos hl]
      exact ih queue visited hrest hq hv
    · rw [if_neg hl]
      by_cases hmem : next ∈ visited
      · rw [if_pos hmem]
        exact ih queue visited hrest hq hv
      · rw [if_neg hmem]
        refine ih (queue ++ [next]) (visited ++ [next]) hrest ?_ ?_ <;>
          · intro x hx
            rcases List.mem_append.mp hx with hx | hx
            · first
              | exact hq x hx
              | exact hv x hx
            · rw [List.mem_singleton] at hx
              rw [hx]
              exact hnw

theorem tauPush_visited_sub :
    ∀ ts queue visited x, x ∈ visited → x ∈ (tauPush ts queue visited).2 := by
  intro ts
  induction ts with
  | nil => intro queue visited x hx; rw [tauPush]; exact hx
  | cons p rest ih =>
    intro queue visited x hx
    rcases p with ⟨label, next⟩
    rw [tauPush]
    by_cases hl : label ≠ "tau"
    · rw [if_pos hl]; exact ih queue visited x hx
    · rw [if_neg hl]
      by_cases hmem : next ∈ visited
      · rw [if_pos hmem]; exact ih queue visited x hx
      · rw [if_neg hmem]
        exact ih (queue ++ [next]) (visited ++ [next]) x (List.mem_append_left _ hx)

theorem tauClosureLoop_wf (trans : TransFun) (htrans : TransWF trans) :
    ∀ fuel queue visited out, StatesWF queue → StatesWF visited →
      tauClosureLoop trans fuel queue visited = some out →
      StatesWF out ∧ ∀ x ∈ visited, x ∈ out := by
  intro fuel
  induction fuel with
  | zero => intro queue visited out _ _ h; rw [tauClosureLoop] at h; cases h
  | succ f ih =>
    intro queue visited out hq hv h
    cases queue with
    | nil =>
      rw [tauClosureLoop] at h
      cases h
      exact ⟨hv, fun x hx => hx⟩
    | cons s queueRest =>
      rw [tauClosureLoop] at h
      cases hts : trans s with
      | none => rw [hts] at h; cases h
      | some ts =>
        rw [hts] at h
        dsimp only at h
        have hsw : stateWF s = true := hq s (List.mem_cons_self _ _)
        have hqrest : StatesWF queueRest :=
          fun x hx => hq x (List.mem_cons_of_mem _ hx)
        have hsucc : ∀ p ∈ ts, stateWF (Prod.snd p) = true :=
          htrans s ts hsw hts
        obtain ⟨hq2, hv2⟩ := tauPush_wf ts queueRest visited hsucc hqrest hv
        obtain ⟨hout, hsub⟩ := ih _ _ out hq2 hv2 h
        exact ⟨hout, fun x hx => hsub x (tauPush_visited_sub ts queueRest visited x hx)⟩

theorem tauClosure_wf (trans : TransFun) (htrans : TransWF trans)
    (cfuel : Nat) (seeds : List CspmState) (c : Closure)
    (hseeds : StatesWF seeds) (h : tauClosure trans cfuel seeds = some c) :
    ClosureWF c ∧ (seeds ≠ [] → c.states ≠ []) := by
  rw [tauClosure] at h
  dsimp only at h
  have hnil : StatesWF ([] : List CspmState) :=
    fun x hx => absurd hx (List.not_mem_nil x)
  obtain ⟨hq0, hv0⟩ := tauSeed_wf seeds [] [] hseeds hnil hnil
  cases hloop : tauClosureLoop trans cfuel (tauSeed seeds [] []).1
      (tauSeed seeds [] []).2 with
  | none => rw [hloop] at h; cases h
  | some visited =>
    rw [hloop] at h
    dsimp only at h
    cases h
    obtain ⟨hvWF, hsub⟩ :=
      tauClosureLoop_wf trans htrans cfuel _ _ visited hq0 hv0 hloop
    refine ⟨⟨?_, ?_⟩, ?_⟩
    · intro x hx
      dsimp only at hx
      obtain ⟨p, hp, rfl⟩ := List.mem_map.mp hx
      have hp2 := (mem_sortByBool _ _ _).mp hp
      obtain ⟨s, hs, rfl⟩ := List.mem_map.mp hp2
      exact hvWF s hs
    · dsimp only
      rw [List.map_map]
      refine List.map_congr_left ?_
      intro p hp
      have hp2 := (mem_sortByBool _ _ _).mp hp
      obtain ⟨s, hs, rfl⟩ := List.mem_map.mp hp2
      rfl
    · intro hne
      dsimp only
      intro hempty
      cases seeds with
      | nil => exact hne rfl
      | cons s0 rest =>
        have hs0 : s0 ∈ visited :=
          hsub s0 (tauSeed_seed_mem (s0 :: rest) [] [] s0 (List.mem_cons_self _ _))
        have hvne : visited ≠ [] := by
          intro hv
          rw [hv] at hs0
          cases hs0
        apply hvne
        have hlen : ((sortByBool (fun a b => decide (a.1 ≤ b.1))
            (visited.map fun s => (encode s, s))).map Prod.snd).length =
              visited.length := by
          rw [List.length_map, (sortByBool_perm _ _).length_eq, List.length_map]
        rw [hempty] at hlen
        exact List.eq_nil_of_length_eq_zero hlen.symm

theorem labelSeeds_wf (trans : TransFun) (htrans : TransWF trans) (label : String) :
    ∀ states seeds, StatesWF states →
      labelSeeds trans label states = some seeds → StatesWF seeds := by
  intro states
  induction states with
  | nil =>
    intro seeds _ h
    rw [labelSeeds] at h
    cases h
    exact fun x hx => absurd hx (List.not_mem_nil x)
  | cons s rest ih =>
    intro seeds hS h
    rw [labelSeeds] at h
    cases hts : trans s with
    | none => rw [hts] at h; cases h
    | some ts =>
      rw [hts] at h
      dsimp only at h
      cases htl : labelSeeds trans label rest with
      | none => rw [htl] at h; cases h
      | some tail =>
        rw [htl] at h
        dsimp only at h
        cases h
        intro x hx
        rcases List.mem_append.mp hx with hx | hx
        · obtain ⟨p, hp, rfl⟩ := List.mem_map.mp hx
          exact htrans s ts (hS s (List.mem_cons_self _ _)) hts p
            (List.mem_filter.mp hp).1
        · exact ih tail (fun y hy => hS y (List.mem_cons_of_mem _ hy)) htl x hx

theorem labelSeeds_ne_nil (trans : TransFun) (label : String) :
    ∀ states seeds, labelSeeds trans label states = some seeds →
      (∃ s ∈ states, ∃ ts, trans s = some ts ∧ ∃ p ∈ ts, p.1 = label) →
      seeds ≠ [] := by
  intro states
  induction states with
  | nil =>
    intro seeds _ hwit
    obtain ⟨s, hs, _⟩ := hwit
    cases hs
  | cons s rest ih =>
    intro seeds h hwit
    rw [labelSeeds] at h
    cases hts : trans s with
    | none => rw [hts] at h; cases h
    | some ts =>
      rw [hts] at h
      dsimp only at h
      cases htl : labelSeeds trans label rest with
      | none => rw [htl] at h; cases h
      | some tail =>
        rw [htl] at h
        dsimp only at h
        cases h
        obtain ⟨s2, hs2, ts2, hts2, p, hp, hpl⟩ := hwit
        rcases List.mem_cons.mp hs2 with rfl | hs2
        · rw [hts] at hts2
          cases hts2
          intro hempty
          rcases List.append_eq_nil.mp hempty with ⟨h1, _⟩
          have hpf : p ∈ ts.filter fun q => q.1 = label :=
            List.mem_filter.mpr ⟨hp, decide_eq_true hpl⟩
          rw [List.map_eq_nil_iff] at h1
          rw [h1] at hpf
          cases hpf
        · intro hempty
          rcases List.append_eq_nil.mp hempty with ⟨_, h2⟩
          exact ih tail htl ⟨s2, hs2, ts2, hts2, p, hp, hpl⟩ h2

theorem enbFold_mem :
    ∀ (ts : List (String × CspmState)) (acc : List String) (x : String),
      x ∈ ts.foldl (fun a p => if p.1 = "tau" then a else setInsert p.1 a) acc →
      x ∈ acc ∨ ∃ p ∈ ts, Prod.fst p = x := by
  intro ts
  induction ts with
  | nil => intro acc x hx; rw [List.foldl_nil] at hx; exact Or.inl hx
  | cons p rest ih =>
    intro acc x hx
    rw [List.foldl_cons] at hx
    by_cases hl : p.1 = "tau"
    · rw [if_pos hl] at hx
      rcases ih acc x hx with h | ⟨q, hq, hql⟩
      · exact Or.inl h
      · exact Or.inr ⟨q, List.mem_cons_of_mem _ hq, hql⟩
    · rw [if_neg hl] at hx
      rcases ih _ x hx with h | ⟨q, hq, hql⟩
      · rcases (mem_setInsert p.1 x acc).mp h with h | h
        · exact Or.inr ⟨p, List.mem_cons_self _ _, h.symm⟩
        · exact Or.inl h
      · exact Or.inr ⟨q, List.mem_cons_of_mem _ hq, hql⟩

theorem enabledLoop_mem (trans : TransFun) :
    ∀ states acc out x, enabledLoop trans states acc = some out → x ∈ out →
      x ∈ acc ∨ ∃ s ∈ states, ∃ ts, trans s = some ts ∧ ∃ p ∈ ts, Prod.fst p = x := by
  intro states
  induction states with
  | nil =>
    intro acc out x h hx
    rw [enabledLoop] at h
    cases h
    exact Or.inl hx
  | cons s rest ih =>
    intro acc out x h hx
    rw [enabledLoop] at h
    cases hts : trans s with
    | none => rw [hts] at h; cases h
    | some ts =>
      rw [hts] at h
      dsimp only at h
      rcases ih _ out x h hx with hacc | ⟨s2, hs2, ts2, hts2, p, hp, hpl⟩
      · rcases enbFold_mem ts acc x hacc with h2 | ⟨p, hp, hpl⟩
        · exact Or.inl h2
        · exact Or.inr ⟨s, List.mem_cons_self _ _, ts, hts, p, hp, hpl⟩
      · exact Or.inr ⟨s2, List.mem_cons_of_mem _ hs2, ts2, hts2, p, hp, hpl⟩

theorem enabledVisibleLabels_mem (trans : TransFun) (states : List CspmState)
    (out : List String) (x : String)
    (h : enabledVisibleLabels trans states = some out) (hx : x ∈ out) :
    ∃ s ∈ states, ∃ ts, trans s = some ts ∧ ∃ p ∈ ts, Prod.fst p = x := by
  rcases enabledLoop_mem trans states [] out x h hx with h2 | h2
  · cases h2
  · exact h2

theorem nextByLabel_wf (trans : TransFun) (htrans : TransWF trans)
    (cfuel : Nat) (states : List CspmState) (label : String) (c : Closure)
    (hS : StatesWF states) (h : nextByLabel trans cfuel states label = some c) :
    ClosureWF c := by
  rw [nextByLabel] at h
  cases hls : labelSeeds trans label states with
  | none => rw [hls] at h; cases h
  | some seeds =>
    rw [hls] at h
    exact (tauClosure_wf trans htrans cfuel seeds c
      (labelSeeds_wf trans htrans label states seeds hS hls) h).1

theorem nextByLabel_ne_nil (trans : TransFun) (htrans : TransWF trans)
    (cfuel : Nat) (states : List CspmState) (label : String) (c : Closure)
    (hS : StatesWF states)
    (hwit : ∃ s ∈ states, ∃ ts, trans s = some ts ∧ ∃ p ∈ ts, Prod.fst p = label)
    (h : nextByLabel trans cfuel states label = some c) : c.states ≠ [] := by
  rw [nextByLabel] at h
  cases hls : labelSeeds trans label states with
  | none => rw [hls] at h; cases h
  | some seeds =>
    rw [hls] at h
    exact (tauClosure_wf trans htrans cfuel seeds c
        (labelSeeds_wf trans htrans label states seeds hS hls) h).2
      (labelSeeds_ne_nil trans label states seeds hls hwit)

theorem assocLookup_insert {α β : Type} [DecidableEq α] (k k' : α) (v : β) :
    ∀ l : List (α × β), assocLookup k (assocInsert k' v l) =
      if k = k' then some v else assocLookup k l := by
  intro l
  induction l with
  | nil => simp [assocInsert, assocLookup]
  | cons e rest ih =>
    rcases e with ⟨k0, v0⟩
    rw [assocInsert]
    by_cases h0 : k0 = k'
    · rw [if_pos h0, assocLookup, assocLookup]
      by_cases h : k = k0
      · rw [if_pos h, if_pos (h.trans h0)]
      · rw [if_neg h, if_neg (fun hh : k = k' => h (hh.trans h0.symm)), if_neg h]
    · rw [if_neg h0, assocLookup, assocLookup]
      by_cases h : k = k0
      · rw [if_pos h, if_pos h,
          if_neg (fun hh : k = k' => h0 (h.symm.trans hh))]
      · rw [if_neg h, if_neg h, ih]

theorem sideEntries_set (cache : NextClosureCache) (side side' : ProviderSide)
    (entries : List (List (List Nat) × List (String × Closure))) :
    (cache.setSideEntries side entries).sideEntries side' =
      if side' = side then entries else cache.sideEntries side' := by
  cases side <;> cases side' <;>
    simp [NextClosureCache.setSideEntries, NextClosureCache.sideEntries]

/-- Semantic soundness of the next-closure cache: every stored closure
is the one `next_by_label` computes from any well-formed state list
with the stored signature. -/
def NCacheOk (trans : TransFun) (cfuel : Nat) (cache : NextClosureCache) : Prop :=
  ∀ side sig byLabel, assocLookup sig (cache.sideEntries side) = some byLabel →
    ∀ label c, assocLookup label byLabel = some c →
      ∀ states, StatesWF states → states.map encode = sig →
        nextByLabel trans cfuel states label = some c

theorem NCacheOk_empty (trans : TransFun) (cfuel : Nat) :
    NCacheOk trans cfuel NextClosureCache.empty := by
  intro side sig byLabel h
  cases side <;> cases h

theorem cacheNextByLabel_ok (trans : TransFun) (cfuel : Nat)
    (cache : NextClosureCache) (side : ProviderSide) (fromC : Closure)
    (label : String) (c : Closure) (cache2 : NextClosureCache)
    (hok : NCacheOk trans cfuel cache) (hcl : ClosureWF fromC)
    (h : cacheNextByLabel cache side trans cfuel fromC label = some (c, cache2)) :
    nextByLabel trans cfuel fromC.states label = some c ∧
      NCacheOk trans cfuel cache2 := by
  rw [cacheNextByLabel] at h
  cases hs1 : assocLookup fromC.sig (cache.sideEntries side) with
  | some byLabel =>
    rw [hs1] at h
    dsimp only at h
    cases hs2 : assocLookup label byLabel with
    | some cached =>
      rw [hs2] at h
      dsimp only at h
      cases h
      refine ⟨hok side fromC.sig byLabel hs1 label c hs2 fromC.states hcl.1
        hcl.2.symm, ?_⟩
      intro side' sig' byLabel' h'
      exact hok side' sig' byLabel' h'
    | none =>
      rw [hs2] at h
      dsimp only at h
      cases hnb : nextByLabel trans cfuel fromC.states label with
      | none => rw [hnb] at h; cases h
      | some computed =>
        rw [hnb] at h
        dsimp only at h
        cases h
        refine ⟨rfl, ?_⟩
        intro side' sig' byLabel' h' label' c' h2' states hS hsig
        rw [sideEntries_set] at h'
        by_cases hside : side' = side
        · rw [if_pos hside] at h'
          subst hside
          rw [assocLookup_insert] at h'
          by_cases hsig' : sig' = fromC.sig
          · rw [if_pos hsig'] at h'
            cases h'
            rw [assocLookup_insert] at h2'
            by_cases hlab : label' = label
            · rw [if_pos hlab] at h2'
              cases h2'
              have hst : states = fromC.states :=
                statesWF_encode_inj hS hcl.1 (hsig.trans (hsig'.trans hcl.2))
              rw [hst, hlab]
              exact hnb
            · rw [if_neg hlab] at h2'
              exact hok side' fromC.sig byLabel hs1 label' c' h2' states hS
                (hsig.trans hsig')
          · rw [if_neg hsig'] at h'
            exact hok side' sig' byLabel' h' label' c' h2' states hS hsig
        · rw [if_neg hside] at h'
          exact hok side' sig' byLabel' h' label' c' h2' states hS hsig
  | none =>
    rw [hs1] at h
    dsimp only at h
    cases hnb : nextByLabel trans cfuel fromC.states label with
    | none => rw [hnb] at h; cases h
    | some computed =>
      rw [hnb] at h
      dsimp only at h
      cases h
      refine ⟨rfl, ?_⟩
      intro side' sig' byLabel' h' label' c' h2' states hS hsig
      rw [sideEntries_set] at h'
      by_cases hside : side' = side
      · rw [if_pos hside] at h'
        subst hside
        rw [assocLookup_insert] at h'
        by_cases hsig' : sig' = fromC.sig
        · rw [if_pos hsig'] at h'
          cases h'
          rw [assocLookup_insert] at h2'
          by_cases hlab : label' = label
          · rw [if_pos hlab] at h2'
            cases h2'
            have hst : states = fromC.states :=
              statesWF_encode_inj hS hcl.1 (hsig.trans (hsig'.trans hcl.2))
            rw [hst, hlab]
            exact hnb
          · rw [if_neg hlab] at h2'
            cases h2'
        · rw [if_neg hsig'] at h'
          exact hok side' sig' byLabel' h' label' c' h2' states hS hsig
      · rw [if_neg hside] at h'
        exact hok side' sig' byLabel' h' label' c' h2' states hS hsig

theorem dSideEntries_set (cache : DivergenceCache) (side side' : ProviderSide)
    (entries : List (List (List Nat) × Bool)) :
    (cache.setSideEntries side entries).sideEntries side' =
      if side' = side then entries else cache.sideEntries side' := by
  cases side <;> cases side' <;>
    simp [DivergenceCache.setSideEntries, DivergenceCache.sideEntries]

/-- Semantic soundness of the divergence cache. -/
def DCacheOk (trans : TransFun) (cache : DivergenceCache) : Prop :=
  ∀ side sig b, assocLookup sig (cache.sideEntries side) = some b →
    ∀ states, StatesWF states → states.map encode = sig →
      closureHasTauCycle trans states = some b

theorem DCacheOk_empty (trans : TransFun) :
    DCacheOk trans DivergenceCache.empty := by
  intro side sig b h
  cases side <;> cases h

theorem cacheHasTauCycle_ok (trans : TransFun) (cache : DivergenceCache)
    (side : ProviderSide) (sig : List (List Nat)) (states : List CspmState)
    (b : Bool) (cache2 : DivergenceCache)
    (hok : DCacheOk trans cache) (hS : StatesWF states)
    (hsig : states.map encode = sig)
    (h : cacheHasTauCycle cache side sig trans states = some (b, cache2)) :
    closureHasTauCycle trans states = some b ∧ DCacheOk trans cache2 := by
  rw [cacheHasTauCycle] at h
  cases hs1 : assocLookup sig (cache.sideEntries side) with
  | some cached =>
    rw [hs1] at h
    dsimp only at h
    cases h
    refine ⟨hok side sig b hs1 states hS hsig, ?_⟩
    intro side' sig' b' h'
    exact hok side' sig' b' h'
  | none =>
    rw [hs1] at h
    dsimp only at h
    cases hc : closureHasTauCycle trans states with
    | none => rw [hc] at h; cases h
    | some computed =>
      rw [hc] at h
      dsimp only at h
      cases h
      refine ⟨rfl, ?_⟩
      intro side' sig' b' h' states' hS' hsig'
      rw [dSideEntries_set] at h'
      by_cases hside : side' = side
      · rw [if_pos hside] at h'
        subst hside
        rw [assocLookup_insert] at h'
        by_cases hsig2 : sig' = sig
        · rw [if_pos hsig2] at h'
          cases h'
          have hst : states' = states :=
            statesWF_encode_inj hS' hS (hsig'.trans (hsig2.trans hsig.symm))
          rw [hst]
          exact hc
        · rw [if_neg hsig2] at h'
          exact hok side' sig' b' h' states' hS' hsig'
      · rw [if_neg hside] at h'
        exact hok side' sig' b' h' states' hS' hsig'

theorem stableOfferSets_mem (trans : TransFun) :
    ∀ states offers s off, stableOfferSets trans states = some offers →
      s ∈ states → isStable trans s = some true →
      offeredVisibleLabels trans s = some off → off ∈ offers := by
  intro states
  induction states with
  | nil => intro offers s off _ hs; cases hs
  | cons s0 rest ih =>
    intro offers s off h hs hstable hoff
    rw [stableOfferSets] at h
    cases hst0 : isStable trans s0 with
    | none => rw [hst0] at h; cases h
    | some b0 =>
      rw [hst0] at h
      cases b0 with
      | false =>
        dsimp only at h
        rcases List.mem_cons.mp hs with rfl | hs
        · rw [hstable] at hst0
          cases hst0
        · exact ih offers s off h hs hstable hoff
      | true =>
        dsimp only at h
        cases hoff0 : offeredVisibleLabels trans s0 with
        | none => rw [hoff0] at h; cases h
        | some offer0 =>
          rw [hoff0] at h
          dsimp only at h
          cases hrest : stableOfferSets trans rest with
          | none => rw [hrest] at h; cases h
          | some os =>
            rw [hrest] at h
            dsimp only at h
            cases h
            rcases List.mem_cons.mp hs with rfl | hs
            · rw [hoff] at hoff0
              cases hoff0
              exact List.mem_cons_self _ _
            · exact List.mem_cons_of_mem _ (ih os s off hrest hs hstable hoff)

theorem refusalCheckLoop_diag (trans : TransFun)
    (pred : List (NodeKey × (NodeKey × String))) (nodeKey : NodeKey)
    (offers : List (List String)) :
    ∀ implStates,
      (∀ s ∈ implStates, ∀ off, isStable trans s = some true →
        offeredVisibleLabels trans s = some off → off ∈ offers) →
      ∀ a, refusalCheckLoop trans trans pred nodeKey offers implStates = some a →
        a = NodeAction.Continue := by
  intro implStates
  induction implStates with
  | nil =>
    intro _ a h
    rw [refusalCheckLoop] at h
    cases h
    rfl
  | cons s rest ih =>
    intro hmem a h
    rw [refusalCheckLoop] at h
    cases hst : isStable trans s with
    | none => rw [hst] at h; cases h
    | some b =>
      rw [hst] at h
      cases b with
      | false =>
        exact ih (fun x hx => hmem x (List.mem_cons_of_mem _ hx)) a h
      | true =>
        cases hov : offeredVisibleLabels trans s with
        | none => rw [hov] at h; cases h
        | some implOffer =>
          rw [hov] at h
          dsimp only at h
          have hin : implOffer ∈ offers :=
            hmem s (List.mem_cons_self _ _) implOffer hst hov
          have hcov : (offers.any fun specOffer =>
              specOffer.all fun l => decide (l ∈ implOffer)) = true := by
            rw [List.any_eq_true]
            refine ⟨implOffer, hin, ?_⟩
            rw [List.all_eq_true]
            intro l hl
            exact decide_eq_true hl
          rw [if_pos hcov] at h
          exact ih (fun x hx => hmem x (List.mem_cons_of_mem _ hx)) a h

theorem refusalCheck_diag (trans : TransFun) (nodeKey : NodeKey)
    (states : List CspmState) (pred : List (NodeKey × (NodeKey × String))) :
    ∀ a, refusalCheck trans trans nodeKey states states pred = some a →
      a = NodeAction.Continue := by
  intro a h
  rw [refusalCheck] at h
  cases hso : stableOfferSets trans states with
  | none => rw [hso] at h; cases h
  | some offers =>
    rw [hso] at h
    refine refusalCheckLoop_diag trans pred nodeKey offers states ?_ a h
    intro s hs off hstable hoff
    exact stableOfferSets_mem trans states offers s off hso hs hstable hoff

/-- The per-side cache condition of the BFS context. -/
def OCacheOk (trans : TransFun) (cfuel : Nat) :
    Option NextClosureCache → Prop
  | none => True
  | some cache => NCacheOk trans cfuel cache

theorem nextClosureStep_ok (trans : TransFun) (cfuel : Nat)
    (cache? : Option NextClosureCache) (side : ProviderSide) (C : Closure)
    (label : String) (c : Closure) (cache2? : Option NextClosureCache)
    (hok : OCacheOk trans cfuel cache?) (hcl : ClosureWF C)
    (h : nextClosureStep cache? side trans cfuel C label = some (c, cache2?)) :
    nextByLabel trans cfuel C.states label = some c ∧
      OCacheOk trans cfuel cache2? := by
  rw [nextClosureStep.eq_def] at h
  cases cache? with
  | none =>
    dsimp only at h
    cases hnb : nextByLabel trans cfuel C.states label with
    | none => rw [hnb] at h; cases h
    | some cl =>
      rw [hnb] at h
      dsimp only at h
      cases h
      exact ⟨rfl, trivial⟩
  | some cache =>
    dsimp only at h
    cases hcc : cacheNextByLabel cache side trans cfuel C label with
    | none => rw [hcc] at h; cases h
    | some p =>
      rw [hcc] at h
      rcases p with ⟨cl, cache2⟩
      dsimp only at h
      cases h
      obtain ⟨h1, h2⟩ := cacheNextByLabel_ok trans cfuel cache side C label c
        cache2 hok hcl hcc
      exact ⟨h1, h2⟩

/-- The diagonal invariant of the BFS context: every queued product
node carries the same well-formed closure twice and its key is the
closure's signature on both sides; the cache is semantically sound. -/
def CtxOk (trans : TransFun) (cfuel : Nat) (ctx : BfsCtx) : Prop :=
  (∀ e ∈ ctx.queue, e.2.1 = e.2.2 ∧ ClosureWF e.2.1 ∧
    e.1.impl_sig = e.2.1.sig ∧ e.1.spec_sig = e.2.1.sig) ∧
  OCacheOk trans cfuel ctx.cache

theorem labelLoop_diag (trans : TransFun) (htrans : TransWF trans) (cfuel : Nat)
    (nodeKey : NodeKey) (C : Closure) (hC : ClosureWF C) :
    ∀ labels ctx r,
      (∀ label ∈ labels, ∃ s ∈ C.states, ∃ ts, trans s = some ts ∧
        ∃ p ∈ ts, Prod.fst p = label) →
      CtxOk trans cfuel ctx →
      labelLoop trans trans cfuel nodeKey C C labels ctx = some r →
      ∃ ctx2, r = Sum.inr ctx2 ∧ CtxOk trans cfuel ctx2 := by
  intro labels
  induction labels with
  | nil =>
    intro ctx r _ hctx h
    rw [labelLoop] at h
    cases h
    exact ⟨ctx, rfl, hctx⟩
  | cons label rest ih =>
    intro ctx r hwit hctx h
    rw [labelLoop] at h
    dsimp only at h
    cases h1 : nextClosureStep ctx.cache .Impl trans cfuel C label with
    | none => rw [h1] at h; cases h
    | some p1 =>
      rw [h1] at h
      rcases p1 with ⟨implNext, cache1⟩
      dsimp only at h
      obtain ⟨hnb1, hok1⟩ := nextClosureStep_ok trans cfuel ctx.cache .Impl C
        label implNext cache1 hctx.2 hC h1
      cases h2 : nextClosureStep cache1 .Spec trans cfuel C label with
      | none => rw [h2] at h; cases h
      | some p2 =>
        rw [h2] at h
        rcases p2 with ⟨specNext, cache2⟩
        dsimp only at h
        obtain ⟨hnb2, hok2⟩ := nextClosureStep_ok trans cfuel cache1 .Spec C
          label specNext cache2 hok1 hC h2
        have heq : specNext = implNext := by
          rw [hnb1] at hnb2
          exact (Option.some.inj hnb2).symm
        have hne : implNext.states ≠ [] :=
          nextByLabel_ne_nil trans htrans cfuel C.states label implNext hC.1
            (hwit label (List.mem_cons_self _ _)) hnb1
        have hWFnext : ClosureWF implNext :=
          nextByLabel_wf trans htrans cfuel C.states label implNext hC.1 hnb1
        rw [if_neg (fun hcond : specNext.states.isEmpty = true => by
          rw [heq] at hcond
          have := not_isEmpty_of_ne_nil hne
          rw [hcond] at this
          exact Bool.noConfusion this)] at h
        have hwitRest : ∀ l ∈ rest, ∃ s ∈ C.states, ∃ ts, trans s = some ts ∧
            ∃ p ∈ ts, Prod.fst p = l :=
          fun l hl => hwit l (List.mem_cons_of_mem _ hl)
        by_cases hv : ({ impl_sig := implNext.sig, spec_sig := specNext.sig } :
            NodeKey) ∈ ctx.visited
        · rw [if_pos hv] at h
          refine ih _ r hwitRest ⟨?_, hok2⟩ h
          intro e he
          exact hctx.1 e he
        · rw [if_neg hv] at h
          refine ih _ r hwitRest ⟨?_, hok2⟩ h
          intro e he
          rcases List.mem_append.mp he with he | he
          · exact hctx.1 e he
          · rw [List.mem_singleton] at he
            rw [he]
            refine ⟨heq.symm, hWFnext, rfl, ?_⟩
            rw [heq]

theorem bfsLoop_diag {σ : Type} (trans : TransFun) (htrans : TransWF trans)
    (cfuel : Nat)
    (nodeCheck : σ → NodeKey → List CspmState → List CspmState →
      List (NodeKey × (NodeKey × String)) → Option (NodeAction × σ))
    (P : σ → Prop)
    (hnc : ∀ st K C pred a st', P st → ClosureWF C →
      K.impl_sig = C.sig → K.spec_sig = C.sig →
      nodeCheck st K C.states C.states pred = some (a, st') →
      (a = NodeAction.Continue ∨ a = NodeAction.Prune) ∧ P st') :
    ∀ bfuel ctx st o st2 c2, CtxOk trans cfuel ctx → P st →
      bfsLoop trans trans cfuel nodeCheck bfuel ctx st = some (o, st2, c2) →
      o.refines = true := by
  intro bfuel
  induction bfuel with
  | zero => intro ctx st o st2 c2 _ _ h; rw [bfsLoop] at h; cases h
  | succ fuel ih =>
    intro ctx st o st2 c2 hctx hP h
    rw [bfsLoop] at h
    cases hq : ctx.queue with
    | nil =>
      rw [hq] at h
      dsimp only at h
      cases h
      rfl
    | cons node queueRest =>
      rw [hq] at h
      rcases node with ⟨K, implC, specC⟩
      dsimp only at h
      obtain ⟨hdiag, hWF, hk1, hk2⟩ := hctx.1 (K, implC, specC)
        (by rw [hq]; exact List.mem_cons_self _ _)
      have hdiag2 : implC = specC := hdiag
      subst hdiag2
      cases hnck : nodeCheck st K implC.states implC.states ctx.pred with
      | none => rw [hnck] at h; cases h
      | some pa =>
        rw [hnck] at h
        rcases pa with ⟨action, st'⟩
        dsimp only at h
        obtain ⟨hact, hP2⟩ := hnc st K implC ctx.pred action st' hP hWF hk1 hk2 hnck
        have hctxTail : CtxOk trans cfuel { ctx with queue := queueRest } :=
          ⟨fun e he => hctx.1 e (by rw [hq]; exact List.mem_cons_of_mem _ he),
            hctx.2⟩
        rcases hact with rfl | rfl
        · cases hev : enabledVisibleLabels trans implC.states with
          | none => rw [hev] at h; cases h
          | some labels =>
            rw [hev] at h
            dsimp only at h
            cases hll : labelLoop trans trans cfuel K implC implC labels
                { ctx with queue := queueRest } with
            | none => rw [hll] at h; cases h
            | some r =>
              rw [hll] at h
              obtain ⟨ctx2, rfl, hctx2⟩ := labelLoop_diag trans htrans cfuel K
                implC hWF labels _ r
                (fun label hl =>
                  enabledVisibleLabels_mem trans implC.states labels label hev hl)
                hctxTail hll
              dsimp only at h
              exact ih ctx2 st' o st2 c2 hctx2 hP2 h
        · exact ih { ctx with queue := queueRest } st' o st2 c2 hctxTail hP2 h

theorem fdNodeCheck_diag (trans : TransFun) (st : FdState) (K : NodeKey)
    (C : Closure) (pred : List (NodeKey × (NodeKey × String)))
    (a : NodeAction) (st' : FdState)
    (hP : DCacheOk trans st.divCache) (hWF : ClosureWF C)
    (hk1 : K.impl_sig = C.sig) (hk2 : K.spec_sig = C.sig)
    (h : fdNodeCheck trans trans st K C.states C.states pred = some (a, st')) :
    (a = NodeAction.Continue ∨ a = NodeAction.Prune) ∧
      DCacheOk trans st'.divCache := by
  rw [fdNodeCheck] at h
  dsimp only at h
  cases hd1 : cacheHasTauCycle st.divCache .Spec K.spec_sig trans C.states with
  | none => rw [hd1] at h; cases h
  | some p1 =>
    rw [hd1] at h
    rcases p1 with ⟨specDiv, dc1⟩
    dsimp only at h
    obtain ⟨hb1, hok1⟩ := cacheHasTauCycle_ok trans st.divCache .Spec K.spec_sig
      C.states specDiv dc1 hP hWF.1 (hWF.2.symm.trans hk2.symm) hd1
    cases hd2 : cacheHasTauCycle dc1 .Impl K.impl_sig trans C.states with
    | none => rw [hd2] at h; cases h
    | some p2 =>
      rw [hd2] at h
      rcases p2 with ⟨implDiv, dc2⟩
      dsimp only at h
      obtain ⟨hb2, hok2⟩ := cacheHasTauCycle_ok trans dc1 .Impl K.impl_sig
        C.states implDiv dc2 hok1 hWF.1 (hWF.2.symm.trans hk1.symm) hd2
      have hbb : specDiv = implDiv := by
        rw [hb1] at hb2
        exact Option.some.inj hb2
      subst hbb
      rw [if_neg (fun hand : specDiv = true ∧ ¬specDiv = true =>
        hand.2 hand.1)] at h
      by_cases hsd : specDiv = true
      · rw [if_pos hsd] at h
        cases h
        exact ⟨Or.inr rfl, hok2⟩
      · rw [if_neg hsd] at h
        cases hrc : refusalCheck trans trans K C.states C.states pred with
        | none => rw [hrc] at h; cases h
        | some action2 =>
          rw [hrc] at h
          dsimp only at h
          cases h
          exact ⟨Or.inl (refusalCheck_diag trans K C.states pred a hrc),
            hok2⟩

theorem bfsRefinement_diag {σ : Type} (trans : TransFun) (htrans : TransWF trans)
    (init : CspmState) (cfuel bfuel : Nat)
    (nodeCheck : σ → NodeKey → List CspmState → List CspmState →
      List (NodeKey × (NodeKey × String)) → Option (NodeAction × σ))
    (P : σ → Prop)
    (hnc : ∀ st K C pred a st', P st → ClosureWF C →
      K.impl_sig = C.sig → K.spec_sig = C.sig →
      nodeCheck st K C.states C.states pred = some (a, st') →
      (a = NodeAction.Continue ∨ a = NodeAction.Prune) ∧ P st')
    (cache0 : Option NextClosureCache) (hc0 : OCacheOk trans cfuel cache0)
    (st0 : σ) (hP0 : P st0) (hinit : stateWF init = true)
    (o : RefinementOutcome) (st2 : σ) (c2 : Option NextClosureCache)
    (h : bfsRefinement trans trans init init cfuel bfuel nodeCheck cache0 st0 =
      some (o, st2, c2)) : o.refines = true := by
  rw [bfsRefinement] at h
  cases htc : tauClosure trans cfuel [init] with
  | none => rw [htc] at h; cases h
  | some c0 =>
    rw [htc] at h
    dsimp only at h
    have hcWF : ClosureWF c0 := (tauClosure_wf trans htrans cfuel [init] c0
      (fun s hs => by rw [List.mem_singleton] at hs; rw [hs]; exact hinit)
      htc).1
    refine bfsLoop_diag trans htrans cfuel nodeCheck P hnc bfuel _ st0 o st2 c2
      ⟨?_, hc0⟩ hP0 h
    intro e he
    rw [List.mem_singleton] at he
    rw [he]
    exact ⟨rfl, hcWF, rfl, rfl⟩

theorem traceIncludes_diag (trans : TransFun) (htrans : TransWF trans)
    (init : CspmState) (hinit : stateWF init = true) (cfuel bfuel : Nat)
    (o : RefinementOutcome)
    (h : traceIncludes trans trans init init cfuel bfuel = some o) :
    o.refines = true := by
  rw [traceIncludes] at h
  cases hb : @bfsRefinement Unit trans trans init init cfuel bfuel
      (fun _ _ _ _ _ => some (.Continue, ())) none () with
  | none => rw [hb] at h; cases h
  | some r =>
    rw [hb] at h
    rcases r with ⟨outcome, u, c2⟩
    dsimp only at h
    cases h
    exact bfsRefinement_diag trans htrans init cfuel bfuel _ (fun _ => True)
      (fun st K C pred a st' _ _ _ _ hnck => by
        cases hnck
        exact ⟨Or.inl rfl, trivial⟩)
      none trivial () trivial hinit o u c2 hb

theorem failuresIncludes_diag (trans : TransFun) (htrans : TransWF trans)
    (init : CspmState) (hinit : stateWF init = true) (cfuel bfuel : Nat)
    (o : RefinementOutcome)
    (h : failuresIncludes trans trans init init cfuel bfuel = some o) :
    o.refines = true := by
  rw [failuresIncludes] at h
  cases hb : @bfsRefinement Unit trans trans init init cfuel bfuel
      (fun _ nodeKey implStates specStates pred =>
        match refusalCheck trans trans nodeKey implStates specStates pred with
        | none => none
        | some action => some (action, ())) none () with
  | none => rw [hb] at h; cases h
  | some r =>
    rw [hb] at h
    rcases r with ⟨outcome, u, c2⟩
    dsimp only at h
    cases h
    refine bfsRefinement_diag trans htrans init cfuel bfuel _ (fun _ => True)
      ?_ none trivial () trivial hinit o u c2 hb
    intro st K C pred a st' _ _ _ _ hnck
    cases hrc : refusalCheck trans trans K C.states C.states pred with
    | none => rw [hrc] at hnck; cases hnck
    | some action =>
      rw [hrc] at hnck
      dsimp only at hnck
      cases hnck
      exact ⟨Or.inl (refusalCheck_diag trans K C.states pred a hrc), trivial⟩

theorem failuresDivergencesIncludes_diag (trans : TransFun)
    (htrans : TransWF trans) (init : CspmState) (hinit : stateWF init = true)
    (cfuel bfuel : Nat) (o : RefinementOutcome)
    (h : failuresDivergencesIncludes trans trans init init cfuel bfuel = some o) :
    o.refines = true := by
  rw [failuresDivergencesIncludes] at h
  cases hb : failuresDivergencesIncludesAux trans trans init init cfuel bfuel with
  | none => rw [hb] at h; cases h
  | some r =>
    rw [hb] at h
    rcases r with ⟨outcome, st2, c2⟩
    cases h
    have houtcome : outcome.refines = true := by
      rw [failuresDivergencesIncludesAux] at hb
      exact bfsRefinement_diag trans htrans init cfuel bfuel
        (fdNodeCheck trans trans) (fun st => DCacheOk trans st.divCache)
        (fun st K C pred a st' hP hWF hk1 hk2 hnck =>
          fdNodeCheck_diag trans st K C pred a st' hP hWF hk1 hk2 hnck)
        (some NextClosureCache.empty) (NCacheOk_empty trans cfuel)
        _ (DCacheOk_empty trans) hinit outcome st2 c2 hb
    exact houtcome

/-- C4: refinement is reflexive — for any provider whose transition
function preserves well-formedness (which Rust's type-level invariants
give every compiled module) and any fuels, checking a module against
itself under each of the models T, F and FD never reports a failure:
whenever the engine completes, the outcome refines. -/
theorem refinement_reflexive (trans : TransFun) (init : CspmState)
    (cfuel bfuel : Nat) (model : RefinementModel) (o : RefinementOutcome)
    (hinit : stateWF init = true) (htrans : TransWF trans)
    (h : (match model with
          | RefinementModel.T => traceIncludes trans trans init init cfuel bfuel
          | RefinementModel.F => failuresIncludes trans trans init init cfuel bfuel
          | RefinementModel.FD =>
            failuresDivergencesIncludes trans trans init init cfuel bfuel) =
      some o) :
    o.refines = true := by
  cases model with
  | T => exact traceIncludes_diag trans htrans init hinit cfuel bfuel o h
  | F => exact failuresIncludes_diag trans htrans init hinit cfuel bfuel o h
  | FD =>
    exact failuresDivergencesIncludes_diag trans htrans init hinit cfuel bfuel o h

/-- The transition function with no successors (a lone `STOP`). -/
def nilTrans : TransFun := fun _ => some []

theorem refinement_reflexive_witness :
    stateWF (CspmState.SExpr 0 []) = true ∧
    ({ refines := true, failure := none
       stats := { states := some 1, transitions := some 0 }
       diagnostic_tags := ["fd_nodes:1", "fd_edges:0", "fd_divergence_checks:2",
         "fd_pruned_nodes:0", "fd_impl_closure_max:1", "fd_spec_closure_max:1",
         "fd_closure_cache_hits:0", "fd_closure_cache_misses:0",
         "fd_divergence_cache_hits:0", "fd_divergence_cache_misses:2"] } :
      RefinementOutcome).refines = true :=
  ⟨by decide,
    refinement_reflexive nilTrans (.SExpr 0 []) 5 5 .FD _ (by decide)
      (fun s ts _ hts p hp => by cases hts; cases hp) rfl⟩

end Cspx
